import Mathlib

/-!
Verification of the maze generation/solving core of `wasm-maze`.

The Rust sources are shallowly embedded: `Direction`, `Cell` and the
generator/solver step functions are translated into executable Lean
definitions; `js_sys::Math::random` draws are modelled by an injected
stream `ρ : Nat → Nat` together with a counter, each draw taking
`ρ i % len` (every concrete execution of the Rust code corresponds to
some stream, and conversely).  Rust panics (`unreachable!`, `expect`,
out-of-fuel inner loops) are modelled by `Option`-valued results.
-/

namespace Maze

/-- `type Dimensions = (usize, usize)`; `.1` is the width, `.2` the height. -/
abbrev Dimensions := Nat × Nat

/-- The four compass directions of `direction.rs`. -/
inductive Direction where
  | First
  | Second
  | Third
  | Forth
deriving DecidableEq, Repr

/-- The `repr(u8)` discriminant of a `Direction` (one bit each). -/
def Direction.val : Direction → Nat
  | .First => 1
  | .Second => 2
  | .Third => 4
  | .Forth => 8

/-- `Direction::next` (cyclic rotation). -/
def Direction.next : Direction → Direction
  | .First => .Second
  | .Second => .Third
  | .Third => .Forth
  | .Forth => .First

/-- `Direction::prev` (cyclic rotation). -/
def Direction.prev : Direction → Direction
  | .First => .Forth
  | .Second => .First
  | .Third => .Second
  | .Forth => .Third

/-- `Direction::neighbour`: the adjacent index in this direction, `none`
outside the grid.  `checked_sub`/`checked_add` on `usize` become guarded
`Nat` arithmetic. -/
def Direction.neighbour (d : Direction) (dims : Dimensions) (cell : Nat) : Option Nat :=
  match d with
  | .First => if dims.1 ≤ cell then some (cell - dims.1) else none
  | .Second => if (cell + 1) % dims.1 ≠ 0 then some (cell + 1) else none
  | .Third => if cell + dims.1 < dims.1 * dims.2 then some (cell + dims.1) else none
  | .Forth => if 1 ≤ cell ∧ cell % dims.1 ≠ 0 then some (cell - 1) else none

/-- `Direction::between`: the direction from `a` to a neighbouring cell `b`,
testing First, Third, Second, Forth in the source's `or_else` order. -/
def Direction.between (dims : Dimensions) (a b : Nat) : Option Direction :=
  if dims.1 ≤ a ∧ a - dims.1 = b then some .First
  else if a + dims.1 = b then some .Third
  else if a + 1 = b ∧ b % dims.1 ≠ 0 then some .Second
  else if 1 ≤ a ∧ a - 1 = b ∧ a % dims.1 ≠ 0 then some .Forth
  else none

/-- `DIRECTIONS`: array of all directions in declaration order. -/
def DIRECTIONS : List Direction := [.First, .Second, .Third, .Forth]

/-- The direction facing back along `d` (used by the generators when they
remove the two sides of one shared wall). -/
def Direction.opposite : Direction → Direction
  | .First => .Third
  | .Second => .Forth
  | .Third => .First
  | .Forth => .Second

theorem between_first_iff (dims : Dimensions) (a b : Nat) :
    Direction.between dims a b = some .First ↔ dims.1 ≤ a ∧ a - dims.1 = b := by
  unfold Direction.between
  split_ifs with h1 h2 h3 h4 <;> simp_all

theorem between_third_iff (dims : Dimensions) (a b : Nat) :
    Direction.between dims a b = some .Third ↔ ¬(dims.1 ≤ a ∧ a - dims.1 = b) ∧ a + dims.1 = b := by
  unfold Direction.between
  split_ifs with h1 h2 h3 h4 <;> simp_all

theorem neighbour_first_iff (dims : Dimensions) (a b : Nat) :
    Direction.neighbour .First dims a = some b ↔ dims.1 ≤ a ∧ a - dims.1 = b := by
  unfold Direction.neighbour
  split_ifs with h <;> simp_all

theorem neighbour_second_iff (dims : Dimensions) (a b : Nat) :
    Direction.neighbour .Second dims a = some b ↔ (a + 1) % dims.1 ≠ 0 ∧ a + 1 = b := by
  unfold Direction.neighbour
  split_ifs with h <;> simp_all

theorem neighbour_third_iff (dims : Dimensions) (a b : Nat) :
    Direction.neighbour .Third dims a = some b ↔ a + dims.1 < dims.1 * dims.2 ∧ a + dims.1 = b := by
  unfold Direction.neighbour
  split_ifs with h <;> simp_all

theorem neighbour_forth_iff (dims : Dimensions) (a b : Nat) :
    Direction.neighbour .Forth dims a = some b ↔ (1 ≤ a ∧ a % dims.1 ≠ 0) ∧ a - 1 = b := by
  unfold Direction.neighbour
  split_ifs with h <;> simp_all

/-- Round trip: whenever `between` answers a direction, `neighbour` in that
direction recovers the target (assuming the target is inside the grid). -/
theorem neighbour_of_between (dims : Dimensions) (a b : Nat)
    (hb : b < dims.1 * dims.2) (d : Direction)
    (h : Direction.between dims a b = some d) :
    d.neighbour dims a = some b := by
  unfold Direction.between at h
  split_ifs at h with h1 h2 h3 h4 <;>
    simp only [Option.some.injEq] at h <;> subst h
  · rw [neighbour_first_iff]; exact h1
  · rw [neighbour_third_iff]; omega
  · rw [neighbour_second_iff]
    obtain ⟨hab, hm⟩ := h3
    subst hab
    exact ⟨hm, rfl⟩
  · rw [neighbour_forth_iff]; omega

/-- If some direction reaches `b` from `a`, `between` finds a direction. -/
theorem between_isSome_of_neighbour (dims : Dimensions) (a b : Nat) (d : Direction)
    (h : d.neighbour dims a = some b) :
    (Direction.between dims a b).isSome := by
  unfold Direction.between
  cases d with
  | First =>
    rw [neighbour_first_iff] at h
    split_ifs <;> simp_all
  | Second =>
    rw [neighbour_second_iff] at h
    obtain ⟨hm, hab⟩ := h
    subst hab
    split_ifs <;> simp_all
  | Third =>
    rw [neighbour_third_iff] at h
    split_ifs <;> simp_all
  | Forth =>
    rw [neighbour_forth_iff] at h
    have hw : dims.1 ≠ 1 := by
      intro h1
      rw [h1] at h
      omega
    split_ifs <;> simp_all

/-- At most one direction leads from `a` to `b`. -/
theorem neighbour_inj (dims : Dimensions) (a b : Nat) (d d' : Direction)
    (h : d.neighbour dims a = some b) (h' : d'.neighbour dims a = some b) : d = d' := by
  obtain ⟨w, ht⟩ := dims
  cases d <;> cases d' <;> (try rfl) <;>
    simp only [neighbour_first_iff, neighbour_second_iff, neighbour_third_iff,
      neighbour_forth_iff] at h h' <;>
    rcases w with _ | _ | n <;> omega

/-- Adjacency runs both ways: the opposite direction leads back. -/
theorem neighbour_opposite (dims : Dimensions) (a b : Nat)
    (ha : a < dims.1 * dims.2) (d : Direction)
    (h : d.neighbour dims a = some b) : d.opposite.neighbour dims b = some a := by
  obtain ⟨w, ht⟩ := dims
  cases d with
  | First =>
    rw [neighbour_first_iff] at h
    rw [Direction.opposite, neighbour_third_iff]
    omega
  | Second =>
    rw [neighbour_second_iff] at h
    rw [Direction.opposite, neighbour_forth_iff]
    obtain ⟨hm, hab⟩ := h
    subst hab
    refine ⟨⟨by omega, hm⟩, by omega⟩
  | Third =>
    rw [neighbour_third_iff] at h
    rw [Direction.opposite, neighbour_first_iff]
    omega
  | Forth =>
    rw [neighbour_forth_iff] at h
    rw [Direction.opposite, neighbour_second_iff]
    obtain ⟨⟨h1, hm⟩, hab⟩ := h
    constructor
    · have : b + 1 = a := by omega
      rw [this]
      exact hm
    · omega

/-- A neighbouring cell is inside the grid whenever the base cell is. -/
theorem neighbour_lt (dims : Dimensions) (a b : Nat)
    (ha : a < dims.1 * dims.2) (d : Direction)
    (h : d.neighbour dims a = some b) : b < dims.1 * dims.2 := by
  cases d with
  | First => rw [neighbour_first_iff] at h; omega
  | Second =>
    rw [neighbour_second_iff] at h
    obtain ⟨hm, hab⟩ := h
    subst hab
    rcases Nat.lt_or_ge (a + 1) (dims.1 * dims.2) with hlt | hge
    · exact hlt
    · have heq : a + 1 = dims.1 * dims.2 := by omega
      rw [heq, Nat.mul_mod_right] at hm
      exact absurd rfl hm
  | Third => rw [neighbour_third_iff] at h; omega
  | Forth => rw [neighbour_forth_iff] at h; omega

/-- C2: for in-grid cells `a`, `b`, `Direction.between dims a b = some d` exactly
when `d` is the unique direction with `d.neighbour dims a = some b`; when
`between` answers a direction the round-trip law holds, and `between` answers
`none` exactly when `a` and `b` are not 4-adjacent. -/
theorem C2_between_neighbour_inverse (dims : Dimensions) (a b : Nat)
    (hb : b < dims.1 * dims.2) :
    (∀ d : Direction, Direction.between dims a b = some d →
      d.neighbour dims a = some b ∧ ∀ d' : Direction, d'.neighbour dims a = some b → d' = d)
    ∧ (Direction.between dims a b = none ↔ ∀ d : Direction, d.neighbour dims a ≠ some b) := by
  constructor
  · intro d hd
    have hrt := neighbour_of_between dims a b hb d hd
    exact ⟨hrt, fun d' hd' => neighbour_inj dims a b d' d hd' hrt⟩
  · constructor
    · intro hn d hd
      have hs := between_isSome_of_neighbour dims a b d hd
      rw [hn] at hs
      simp at hs
    · intro hall
      cases hbet : Direction.between dims a b with
      | none => rfl
      | some d => exact absurd (neighbour_of_between dims a b hb d hbet) (hall d)

theorem C2_between_neighbour_inverse_witness :
    (∀ d : Direction, Direction.between (2, 2) 0 1 = some d →
      d.neighbour (2, 2) 0 = some 1 ∧ ∀ d' : Direction, d'.neighbour (2, 2) 0 = some 1 → d' = d)
    ∧ (Direction.between (2, 2) 0 1 = none ↔ ∀ d : Direction, d.neighbour (2, 2) 0 ≠ some 1) :=
  C2_between_neighbour_inverse (2, 2) 0 1 (by decide)

/-- `CellSolution` of `lib.rs`; the Rust fields `from`/`to` are spelled
`from_`/`to_` because `from` is a Lean keyword. -/
structure CellSolution where
  from_ : Bool := false
  to_ : Bool := false
  previous : Option Nat := none
  result : Bool := false
deriving DecidableEq, Repr

/-- The wall mask of `Cell::default`: fold of all direction bits. -/
def initialWalls : Nat := DIRECTIONS.foldl (fun acc d => acc + d.val) 0

/-- `Cell` of `lib.rs` with its `Default` values. -/
structure Cell where
  walls : Nat := initialWalls
  walk : Option Nat := none
  solution : CellSolution := {}
deriving DecidableEq, Repr

instance : Inhabited Cell := ⟨{}⟩

/-- `Cell::remove_wall`: `self.walls &= !(direction as u8)` on `u8`. -/
def Cell.remove_wall (c : Cell) (d : Direction) : Cell :=
  { c with walls := c.walls &&& (255 ^^^ d.val) }

/-- `Cell::has_wall`: `self.walls & direction as u8 > 0`. -/
def Cell.has_wall (c : Cell) (d : Direction) : Bool :=
  c.walls &&& d.val != 0

theorem has_wall_remove_wall (c : Cell) (d d' : Direction) :
    (c.remove_wall d).has_wall d' = (decide (d' ≠ d) && c.has_wall d') := by
  have e11 : 254 &&& 1 = (0 : Nat) := by decide
  have e12 : 254 &&& 2 = (2 : Nat) := by decide
  have e14 : 254 &&& 4 = (4 : Nat) := by decide
  have e18 : 254 &&& 8 = (8 : Nat) := by decide
  have e21 : 253 &&& 1 = (1 : Nat) := by decide
  have e22 : 253 &&& 2 = (0 : Nat) := by decide
  have e24 : 253 &&& 4 = (4 : Nat) := by decide
  have e28 : 253 &&& 8 = (8 : Nat) := by decide
  have e41 : 251 &&& 1 = (1 : Nat) := by decide
  have e42 : 251 &&& 2 = (2 : Nat) := by decide
  have e44 : 251 &&& 4 = (0 : Nat) := by decide
  have e48 : 251 &&& 8 = (8 : Nat) := by decide
  have e81 : 247 &&& 1 = (1 : Nat) := by decide
  have e82 : 247 &&& 2 = (2 : Nat) := by decide
  have e84 : 247 &&& 4 = (4 : Nat) := by decide
  have e88 : 247 &&& 8 = (0 : Nat) := by decide
  cases d <;> cases d' <;>
    simp [Cell.remove_wall, Cell.has_wall, Direction.val, Nat.land_assoc,
      e11, e12, e14, e18, e21, e22, e24, e28, e41, e42, e44, e48, e81, e82, e84, e88]

theorem walk_remove_wall (c : Cell) (d : Direction) : (c.remove_wall d).walk = c.walk := rfl

theorem solution_remove_wall (c : Cell) (d : Direction) :
    (c.remove_wall d).solution = c.solution := rfl

/-- The grid: `Vec<Cell>` becomes `List Cell`. -/
abbrev Cells := List Cell

/-- Total indexing; Rust indexing is only applied in range. -/
def getCell (cs : Cells) (i : Nat) : Cell := cs.getD i {}

/-- `cells[i].walk = w`. -/
def setWalk (cs : Cells) (i : Nat) (w : Option Nat) : Cells :=
  cs.set i { getCell cs i with walk := w }

/-- `cells[i].remove_wall(d)`. -/
def removeWallAt (cs : Cells) (i : Nat) (d : Direction) : Cells :=
  cs.set i ((getCell cs i).remove_wall d)

/-- `cells[i].solution.previous = p`. -/
def setPrevious (cs : Cells) (i : Nat) (p : Option Nat) : Cells :=
  cs.set i { getCell cs i with solution := { (getCell cs i).solution with previous := p } }

/-- `cells[i].solution.result = true`. -/
def setResult (cs : Cells) (i : Nat) : Cells :=
  cs.set i { getCell cs i with solution := { (getCell cs i).solution with result := true } }

/-- The fully-walled initial grid (`vec![Cell::default(); w*h]`). -/
def initGrid (n : Nat) : Cells := List.replicate n {}

theorem getCell_set (cs : Cells) (j : Nat) (c : Cell) (i : Nat) :
    getCell (cs.set j c) i = if j = i ∧ j < cs.length then c else getCell cs i := by
  unfold getCell
  rcases eq_or_ne j i with rfl | hne
  · rcases Nat.lt_or_ge j cs.length with hlt | hge
    · simp [List.getD_eq_getElem?_getD, List.getElem?_set_self', hlt]
    · simp [List.getD_eq_getElem?_getD, List.set_eq_of_length_le hge, Nat.not_lt.2 hge]
  · simp [List.getD_eq_getElem?_getD, List.getElem?_set_ne hne, hne]

theorem length_setWalk (cs : Cells) (i : Nat) (w : Option Nat) :
    (setWalk cs i w).length = cs.length := by
  simp [setWalk]

theorem length_removeWallAt (cs : Cells) (i : Nat) (d : Direction) :
    (removeWallAt cs i d).length = cs.length := by
  simp [removeWallAt]

theorem length_setPrevious (cs : Cells) (i : Nat) (p : Option Nat) :
    (setPrevious cs i p).length = cs.length := by
  simp [setPrevious]

theorem length_setResult (cs : Cells) (i : Nat) :
    (setResult cs i).length = cs.length := by
  simp [setResult]

theorem getCell_initGrid (n i : Nat) : getCell (initGrid n) i = {} := by
  unfold initGrid getCell
  rcases Nat.lt_or_ge i n with hlt | hge
  · simp [List.getD_eq_getElem?_getD, List.getElem?_replicate, hlt]
  · have hlen : (List.replicate n ({} : Cell)).length ≤ i := by simpa using hge
    simp [List.getD_eq_getElem?_getD, List.getElem?_eq_none hlen]

/-- `(random() * len as f64) as usize`: one draw from the injected stream. -/
def pick (ρ : Nat → Nat) (i len : Nat) : Nat := ρ i % len

/-- The in-grid neighbours of a cell, in `DIRECTIONS` order. -/
def allNeighbours (dims : Dimensions) (cell : Nat) : List Nat :=
  DIRECTIONS.filterMap (fun d => d.neighbour dims cell)

/-- The unvisited (`walk.is_none()`) in-grid neighbours of a cell. -/
def unvisitedNeighbours (dims : Dimensions) (cs : Cells) (cell : Nat) : List Nat :=
  (allNeighbours dims cell).filter (fun n => (getCell cs n).walk.isNone)

/-- The four-branch `match` both generators run after `Direction::between`:
remove the wall on `cell`'s side and the facing wall on `neighbour`'s side. -/
def removeWallPair (cs : Cells) (cell nbr : Nat) (d : Direction) : Cells :=
  match d with
  | .First => removeWallAt (removeWallAt cs cell .First) nbr .Third
  | .Second => removeWallAt (removeWallAt cs cell .Second) nbr .Forth
  | .Third => removeWallAt (removeWallAt cs cell .Third) nbr .First
  | .Forth => removeWallAt (removeWallAt cs cell .Forth) nbr .Second

theorem removeWallPair_eq (cs : Cells) (cell nbr : Nat) (d : Direction) :
    removeWallPair cs cell nbr d =
      removeWallAt (removeWallAt cs cell d) nbr d.opposite := by
  cases d <;> rfl

/-- Private state of the generating `RandomisedDepthFirstSearch`. -/
structure GenDFS where
  initialised : Bool := false
  stack : List Nat := []
deriving DecidableEq, Repr

/-- The backtracking loop of the DFS generator's `step`; the Lean list head is
the top of the Rust `Vec` stack.  `none` models the `unreachable!()` panic. -/
def dfsGenLoop (dims : Dimensions) (ρ : Nat → Nat) :
    List Nat → Nat → Cells → Option (Bool × GenDFS × Cells × Nat)
  | [], i, cs => some (false, {}, cs, i)
  | cell :: rest, i, cs =>
    match unvisitedNeighbours dims cs cell with
    | [] => dfsGenLoop dims ρ rest i cs
    | nb :: nbs =>
      let nbrs := nb :: nbs
      let neighbour := nbrs.getD (pick ρ i nbrs.length) 0
      let cs1 := setWalk cs neighbour (some 0)
      match Direction.between dims cell neighbour with
      | none => none
      | some d =>
        some (true, ⟨true, neighbour :: cell :: rest⟩, removeWallPair cs1 cell neighbour d, i + 1)

/-- `<RandomisedDepthFirstSearch as Generator>::step`. -/
def dfsGenStep (dims : Dimensions) (ρ : Nat → Nat) (g : GenDFS) (cs : Cells) (i : Nat) :
    Option (Bool × GenDFS × Cells × Nat) :=
  if g.initialised = false then
    let start := pick ρ i cs.length
    some (true, ⟨true, [start]⟩, setWalk cs start (some 0), i + 1)
  else
    dfsGenLoop dims ρ g.stack i cs

/-- Private state of the `Wilson` generator. -/
structure GenWilson where
  walk : Option Nat := none
  stack : List Nat := []
deriving DecidableEq, Repr

/-- Wilson's loop-erasure `while` loop: pop and untag until the stack top is
the struck cell.  `none` models the `last().unwrap()` panic on an empty stack. -/
def wilsonErase : List Nat → Nat → Cells → Option (List Nat × Cells)
  | [], _, _ => none
  | top :: rest, nbr, cs =>
    if top = nbr then some (top :: rest, cs)
    else wilsonErase rest nbr (setWalk cs top none)

/-- Wilson's walk-commit `while let` loop: connect each stack cell to the
previously connected cell, walking backward from the struck cell. -/
def wilsonCommit (dims : Dimensions) : List Nat → Nat → Cells → Option Cells
  | [], _, cs => some cs
  | last :: rest, nbr, cs =>
    match Direction.between dims last nbr with
    | none => none
    | some d => wilsonCommit dims rest last (removeWallPair cs last nbr d)

/-- `<Wilson as Generator>::step`. -/
def wilsonStep (dims : Dimensions) (ρ : Nat → Nat) (g : GenWilson) (cs : Cells) (i : Nat) :
    Option (Bool × GenWilson × Cells × Nat) :=
  match g.walk with
  | none =>
    let idx := pick ρ i cs.length
    some (true, ⟨some 1, g.stack⟩, setWalk cs idx (some 0), i + 1)
  | some w =>
    match g.stack.head? with
    | none =>
      match cs.findIdx? (fun c => c.walk.isNone) with
      | none => some (false, {}, cs, i)
      | some idx => some (true, ⟨some w, [idx]⟩, setWalk cs idx (some w), i)
    | some cell =>
      let nbrs := allNeighbours dims cell
      let neighbour := nbrs.getD (pick ρ i nbrs.length) 0
      match (getCell cs neighbour).walk with
      | none => some (true, ⟨some w, neighbour :: g.stack⟩, setWalk cs neighbour (some w), i + 1)
      | some nw =>
        if w = nw then
          match wilsonErase g.stack neighbour cs with
          | none => none
          | some (st, cs') => some (true, ⟨some w, st⟩, cs', i + 1)
        else
          match wilsonCommit dims g.stack neighbour cs with
          | none => none
          | some cs' => some (true, ⟨some (w + 1), []⟩, cs', i + 1)

/-- `geometry::row_and_col`. -/
def row_and_col (dims : Dimensions) (idx : Nat) : Nat × Nat :=
  (idx / dims.1, idx % dims.1)

/-- `geometry::taxicab_distance`. -/
def taxicab_distance (dims : Dimensions) (a b : Nat) : Nat :=
  (max (row_and_col dims a).1 (row_and_col dims b).1
      - min (row_and_col dims a).1 (row_and_col dims b).1)
    + (max (row_and_col dims a).2 (row_and_col dims b).2
      - min (row_and_col dims a).2 (row_and_col dims b).2)

/-- The `Zero` heuristic (Dijkstra degenerate case). -/
def zeroHeuristic (_dims : Dimensions) (_a _b : Nat) : Nat := 0

/-- The `TaxicabDistance` heuristic. -/
def taxicabHeuristic (dims : Dimensions) (a b : Nat) : Nat := taxicab_distance dims a b

/-- `AStarSearchState` of `a_star_search.rs`. -/
structure AState where
  cost : Nat
  cell : Nat
deriving DecidableEq, Repr

/-- The `Ord` impl of `AStarSearchState`: reversed on `cost`, then by `cell`
(`other.cost.cmp(&self.cost).then_with(|| self.cell.cmp(&other.cell))`). -/
def astateCmp (s o : AState) : Ordering :=
  (compare o.cost s.cost).then (compare s.cell o.cell)

/-- The greatest fringe entry in the `Ord` above: what `BinaryHeap::pop`
(a max-heap) returns. -/
def heapMax : List AState → Option AState
  | [] => none
  | s :: rest =>
    match heapMax rest with
    | none => some s
    | some m => if astateCmp s m = .lt then some m else some s

/-- `BinaryHeap::pop` modelled on the multiset of fringe entries. -/
def heapPop (l : List AState) : Option (AState × List AState) :=
  match heapMax l with
  | none => none
  | some m => some (m, l.erase m)

/-- Private state of `AStarSearch`. -/
structure AStar where
  initialised : Bool := false
  distances : List (Option Nat) := []
  fringe : List AState := []
deriving DecidableEq, Repr

/-- `Vec::resize(n, None)`. -/
def listResize (l : List (Option Nat)) (n : Nat) : List (Option Nat) :=
  l.take n ++ List.replicate (n - l.length) none

/-- The path-marking `while cell != from` loop every solver runs on
completion; `fuel` bounds the chase of `previous` pointers and `none`
models both the `expect` panic and a non-terminating chase. -/
def markResult (s : Nat) : Nat → Nat → Cells → Option Cells
  | 0, _, _ => none
  | fuel + 1, cell, cs =>
    if cell = s then some cs
    else
      match (getCell (setResult cs cell) cell).solution.previous with
      | none => none
      | some p => markResult s fuel p (setResult cs cell)

/-- The accessible (wall-free), unvisited (`previous.is_none()`), not-`from`
neighbours a solver relaxes, in `DIRECTIONS` order. -/
def solverNeighbours (dims : Dimensions) (cs : Cells) (s cell : Nat) : List Nat :=
  ((DIRECTIONS.filter (fun d => !(getCell cs cell).has_wall d)).filterMap
    (fun d => d.neighbour dims cell)).filter
    (fun n => n != s && (getCell cs n).solution.previous.isNone)

/-- The relaxation `for neighbour in neighbours` loop of `AStarSearch::step`;
`none` models the `distances[cell].unwrap()` panic. -/
def aStarRelax (h : Dimensions → Nat → Nat → Nat) (dims : Dimensions) (t cell : Nat) :
    List Nat → List (Option Nat) → List AState → Cells →
    Option (List (Option Nat) × List AState × Cells)
  | [], ds, fr, cs => some (ds, fr, cs)
  | n :: ns, ds, fr, cs =>
    match ds.getD cell none with
    | none => none
    | some dc =>
      let distance := dc + 1
      let improves := match ds.getD n none with
        | none => true
        | some v => distance < v
      if improves then
        aStarRelax h dims t cell ns (ds.set n (some distance))
          ({ cost := distance + h dims n t, cell := n } :: fr)
          (setPrevious cs n (some cell))
      else
        aStarRelax h dims t cell ns ds fr cs

/-- `<AStarSearch<T> as Solver>::step`, parameterised by the heuristic. -/
def aStarStep (h : Dimensions → Nat → Nat → Nat) (dims : Dimensions)
    (st : AStar) (cs : Cells) (s t : Nat) : Option (Bool × AStar × Cells) :=
  if st.initialised = false then
    let ds := (listResize st.distances cs.length).set s (some 0)
    some (true, ⟨true, ds, { cost := h dims s t, cell := s } :: st.fringe⟩, cs)
  else
    match heapPop st.fringe with
    | none => none
    | some (top, rest) =>
      if top.cell = t then
        match markResult s (cs.length + 1) t cs with
        | none => none
        | some cs' => some (false, {}, cs')
      else
        let rest2 := rest.filter (fun e => e.cell != top.cell)
        match aStarRelax h dims t top.cell (solverNeighbours dims cs s top.cell)
            st.distances rest2 cs with
        | none => none
        | some (ds', fr', cs') => some (true, ⟨true, ds', fr'⟩, cs')

/-- Private state of the solving `RandomisedDepthFirstSearch`. -/
structure SolveDFS where
  initialised : Bool := false
  stack : List Nat := []
deriving DecidableEq, Repr

/-- The backtracking loop of the DFS solver's `step`.  The empty-stack case
pushes `from` and continues, so the loop is not structurally decreasing and
takes fuel; `none` covers both panics and exhausted fuel. -/
def dfsSolveLoop (dims : Dimensions) (ρ : Nat → Nat) (s t : Nat) :
    Nat → List Nat → Nat → Cells → Option (Bool × SolveDFS × Cells × Nat)
  | 0, _, _, _ => none
  | fuel + 1, stack, i, cs =>
    match stack with
    | [] => dfsSolveLoop dims ρ s t fuel [s] i cs
    | cell :: rest =>
      if cell = t then
        match markResult s (cs.length + 1) t cs with
        | none => none
        | some cs' => some (false, {}, cs', i)
      else
        match solverNeighbours dims cs s cell with
        | [] => dfsSolveLoop dims ρ s t fuel rest i cs
        | nb :: nbs =>
          let nbrs := nb :: nbs
          let neighbour := nbrs.getD (pick ρ i nbrs.length) 0
          some (true, ⟨true, neighbour :: cell :: rest⟩,
            setPrevious cs neighbour (some cell), i + 1)

/-- `<RandomisedDepthFirstSearch as Solver>::step`. -/
def dfsSolveStep (dims : Dimensions) (ρ : Nat → Nat) (s t : Nat) (fuel : Nat)
    (sv : SolveDFS) (cs : Cells) (i : Nat) : Option (Bool × SolveDFS × Cells × Nat) :=
  if sv.initialised = false then some (true, ⟨true, sv.stack⟩, cs, i)
  else dfsSolveLoop dims ρ s t fuel sv.stack i cs

/-- A `WallFollowerSearchTurnDirection` strategy. -/
structure WFTurn where
  initial : Direction → Direction
  subsequent : Direction → Direction

/-- The `Right` turn strategy. -/
def wfRight : WFTurn := ⟨Direction.next, Direction.prev⟩

/-- The `Left` turn strategy. -/
def wfLeft : WFTurn := ⟨Direction.prev, Direction.next⟩

/-- Private state of `WallFollowerSearch`. -/
structure WFState where
  cellDir : Option (Nat × Direction) := none
deriving DecidableEq, Repr

/-- The wall-scanning inner `loop`: rotate until a wall-free direction is
found, then step through it.  Four tries cover the full rotation; a cell with
four walls makes the Rust loop spin forever, modelled as `none`, and `none`
also models the `expect("should have neighbour")` panic. -/
def wfScan (T : WFTurn) (dims : Dimensions) (cs : Cells) (cell : Nat) :
    Nat → Direction → Option (Nat × Direction)
  | 0, _ => none
  | tries + 1, d =>
    if (getCell cs cell).has_wall d then wfScan T dims cs cell tries (T.subsequent d)
    else
      match d.neighbour dims cell with
      | none => none
      | some n => some (n, d)

/-- The outer backtracking `loop` of `WallFollowerSearch::step`. -/
def wfLoop (T : WFTurn) (dims : Dimensions) (s t : Nat) :
    Nat → Option (Nat × Direction) → Cells → Option (Bool × WFState × Cells)
  | 0, _, _ => none
  | fuel + 1, cd, cs =>
    match cd with
    | none => some (true, ⟨some (s, Direction.First)⟩, cs)
    | some (cell, dir) =>
      if cell = t then
        match markResult s (cs.length + 1) t cs with
        | none => none
        | some cs' => some (false, ⟨none⟩, cs')
      else
        match wfScan T dims cs cell 4 (T.initial dir) with
        | none => none
        | some (neighbour, d) =>
          if (getCell cs neighbour).solution.previous.isNone then
            some (true, ⟨some (neighbour, d)⟩, setPrevious cs neighbour (some cell))
          else
            wfLoop T dims s t fuel (some (neighbour, d)) cs

/-- `<WallFollowerSearch<T> as Solver>::step`. -/
def wfStep (T : WFTurn) (dims : Dimensions) (s t : Nat) (fuel : Nat)
    (st : WFState) (cs : Cells) : Option (Bool × WFState × Cells) :=
  wfLoop T dims s t fuel st.cellDir cs

theorem astateCmp_eq_gt (s o : AState) :
    astateCmp s o = .gt ↔ (s.cost < o.cost ∨ (s.cost = o.cost ∧ o.cell < s.cell)) := by
  unfold astateCmp
  rcases hc : compare o.cost s.cost with _ | _ | _
  · rw [Nat.compare_eq_lt] at hc
    simp only [Ordering.then]
    constructor
    · intro h
      exact absurd h (by simp)
    · omega
  · rw [Nat.compare_eq_eq] at hc
    simp only [Ordering.then]
    rw [Nat.compare_eq_gt]
    omega
  · rw [Nat.compare_eq_gt] at hc
    simp only [Ordering.then]
    constructor
    · intro _
      omega
    · intro _
      trivial

theorem astateCmp_eq_lt (s o : AState) :
    astateCmp s o = .lt ↔ (o.cost < s.cost ∨ (o.cost = s.cost ∧ s.cell < o.cell)) := by
  unfold astateCmp
  rcases hc : compare o.cost s.cost with _ | _ | _
  · rw [Nat.compare_eq_lt] at hc
    simp only [Ordering.then]
    constructor
    · intro _
      omega
    · intro _
      trivial
  · rw [Nat.compare_eq_eq] at hc
    simp only [Ordering.then]
    rw [Nat.compare_eq_lt]
    omega
  · rw [Nat.compare_eq_gt] at hc
    simp only [Ordering.then]
    constructor
    · intro h
      exact absurd h (by simp)
    · omega

theorem heapMax_ne_none (x : AState) (xs : List AState) : heapMax (x :: xs) ≠ none := by
  unfold heapMax
  cases heapMax xs with
  | none => simp
  | some m => by_cases hc : astateCmp x m = .lt <;> simp [hc]

theorem heapMax_mem (l : List AState) (m : AState) (h : heapMax l = some m) : m ∈ l := by
  induction l generalizing m with
  | nil => simp [heapMax] at h
  | cons s rest ih =>
    unfold heapMax at h
    cases hr : heapMax rest with
    | none =>
      rw [hr] at h
      simp at h
      simp [h]
    | some m0 =>
      rw [hr] at h
      by_cases hc : astateCmp s m0 = .lt
      · simp [hc] at h
        subst h
        exact List.mem_cons_of_mem s (ih m0 hr)
      · simp [hc] at h
        simp [h]

theorem heapMax_top (l : List AState) (m : AState) (h : heapMax l = some m) :
    ∀ e ∈ l, astateCmp e m ≠ .gt := by
  induction l generalizing m with
  | nil => simp [heapMax] at h
  | cons s rest ih =>
    intro e he
    unfold heapMax at h
    cases hr : heapMax rest with
    | none =>
      rw [hr] at h
      dsimp only at h
      simp only [Option.some.injEq] at h
      subst h
      have hrest : rest = [] := by
        cases rest with
        | nil => rfl
        | cons x xs => exact absurd hr (heapMax_ne_none x xs)
      subst hrest
      simp only [List.mem_singleton] at he
      subst he
      simp only [ne_eq, astateCmp_eq_gt]
      omega
    | some m0 =>
      rw [hr] at h
      dsimp only at h
      by_cases hc : astateCmp s m0 = .lt
      · rw [if_pos hc] at h
        simp only [Option.some.injEq] at h
        subst h
        rcases List.mem_cons.1 he with rfl | hmem
        · rw [astateCmp_eq_lt] at hc
          simp only [ne_eq, astateCmp_eq_gt]
          omega
        · exact ih _ hr e hmem
      · rw [if_neg hc] at h
        simp only [Option.some.injEq] at h
        subst h
        rcases List.mem_cons.1 he with rfl | hmem
        · simp only [ne_eq, astateCmp_eq_gt]
          omega
        · have h1 := ih m0 hr e hmem
          simp only [ne_eq, astateCmp_eq_gt] at h1 ⊢
          rw [astateCmp_eq_lt] at hc
          omega

/-- C4 counterexample: with two equal-cost fringe entries for cells `1` and
`2`, the pop returns cell `2`, not the smaller index `1`. -/
theorem C4_tie_break_counterexample :
    heapPop [{ cost := 5, cell := 1 }, { cost := 5, cell := 2 }]
        = some ({ cost := 5, cell := 2 }, [{ cost := 5, cell := 1 }])
      ∧ (heapPop [{ cost := 5, cell := 1 }, { cost := 5, cell := 2 }]).map
          (fun p => p.1.cell) ≠ some 1 := by
  decide

/-- C4 (amended): the fringe pops entries in ascending order of cost
(`distance + h`), but equal-cost ties are broken by descending cell index —
the popped entry's cell index is the largest among the minimum-cost entries,
not the smallest. -/
theorem C4_pop_min_cost_max_cell (l : List AState) (top : AState) (rest : List AState)
    (h : heapPop l = some (top, rest)) :
    top ∈ l ∧ rest = l.erase top
      ∧ (∀ e ∈ l, top.cost ≤ e.cost)
      ∧ (∀ e ∈ l, e.cost = top.cost → e.cell ≤ top.cell) := by
  unfold heapPop at h
  cases hm : heapMax l with
  | none => rw [hm] at h; simp at h
  | some m =>
    rw [hm] at h
    simp only [Option.some.injEq, Prod.mk.injEq] at h
    obtain ⟨hm1, hm2⟩ := h
    subst hm1
    subst hm2
    refine ⟨heapMax_mem l m hm, rfl, ?_, ?_⟩
    · intro e he
      have h2 := heapMax_top l m hm e he
      simp only [ne_eq, astateCmp_eq_gt] at h2
      omega
    · intro e he hce
      have h2 := heapMax_top l m hm e he
      simp only [ne_eq, astateCmp_eq_gt] at h2
      omega

theorem C4_pop_min_cost_max_cell_witness :
    ({ cost := 5, cell := 2 } : AState) ∈
        [({ cost := 5, cell := 1 } : AState), { cost := 5, cell := 2 }]
      ∧ [({ cost := 5, cell := 1 } : AState)]
          = [({ cost := 5, cell := 1 } : AState), { cost := 5, cell := 2 }].erase
              { cost := 5, cell := 2 }
      ∧ (∀ e ∈ [({ cost := 5, cell := 1 } : AState), { cost := 5, cell := 2 }],
          ({ cost := 5, cell := 2 } : AState).cost ≤ e.cost)
      ∧ (∀ e ∈ [({ cost := 5, cell := 1 } : AState), { cost := 5, cell := 2 }],
          e.cost = ({ cost := 5, cell := 2 } : AState).cost →
            e.cell ≤ ({ cost := 5, cell := 2 } : AState).cell) :=
  C4_pop_min_cost_max_cell _ _ _ (by rfl)

/-- A carved 2×1 maze with `from = 0`, `to = 1`: both sides of the single
shared wall removed (`13 = 15 & !2`, `7 = 15 & !8`). -/
def mazeC5 : Cells :=
  [{ walls := 13, walk := some 0, solution := { from_ := true } },
   { walls := 7, walk := some 0, solution := { to_ := true } }]

/-- C5 counterexample: the randomised-DFS solver's step is called with its
stack empty (the state its own first call produces) and the destination not
yet reached, yet it returns `some (true, …)` — it silently continues instead
of surfacing a fatal fault. -/
theorem C5_empty_stack_counterexample :
    dfsSolveStep (2, 1) (fun _ => 0) 0 1 5 { initialised := true } mazeC5 0
        = some (true, { initialised := true, stack := [1, 0] },
          [{ walls := 13, walk := some 0, solution := { from_ := true } },
           { walls := 7, walk := some 0,
             solution := { to_ := true, previous := some 0 } }], 1)
      ∧ (getCell mazeC5 1).solution.previous = none := by
  decide

/-- C5 (amended): only the A*-family solver surfaces an exhausted fringe as a
fatal fault (`unreachable!`, modelled as `none`); the randomised DFS solver's
backtracking loop instead silently reseeds its empty stack with `from` and
continues (its deliberate start/exhaustion path), and the wall follower keeps
no fringe or stack at all. -/
theorem C5_exhaustion_behaviour :
    (∀ (hf : Dimensions → Nat → Nat → Nat) (dims : Dimensions) (ds : List (Option Nat))
        (cs : Cells) (s t : Nat),
      aStarStep hf dims { initialised := true, distances := ds, fringe := [] } cs s t = none)
    ∧ (∀ (dims : Dimensions) (ρ : Nat → Nat) (s t fuel i : Nat) (cs : Cells),
      dfsSolveLoop dims ρ s t (fuel + 1) [] i cs = dfsSolveLoop dims ρ s t fuel [s] i cs) := by
  exact ⟨fun _ _ _ _ _ _ => rfl, fun _ _ _ _ _ _ _ => rfl⟩

theorem getCell_setWalk (cs : Cells) (i : Nat) (w : Option Nat) (j : Nat) :
    getCell (setWalk cs i w) j =
      if i = j ∧ i < cs.length then { getCell cs i with walk := w } else getCell cs j := by
  unfold setWalk
  rw [getCell_set]

theorem getCell_removeWallAt (cs : Cells) (i : Nat) (d : Direction) (j : Nat) :
    getCell (removeWallAt cs i d) j =
      if i = j ∧ i < cs.length then (getCell cs i).remove_wall d else getCell cs j := by
  unfold removeWallAt
  rw [getCell_set]

theorem getCell_setPrevious (cs : Cells) (i : Nat) (p : Option Nat) (j : Nat) :
    getCell (setPrevious cs i p) j =
      if i = j ∧ i < cs.length then
        { getCell cs i with solution := { (getCell cs i).solution with previous := p } }
      else getCell cs j := by
  unfold setPrevious
  rw [getCell_set]

theorem getCell_setResult (cs : Cells) (i : Nat) (j : Nat) :
    getCell (setResult cs i) j =
      if i = j ∧ i < cs.length then
        { getCell cs i with solution := { (getCell cs i).solution with result := true } }
      else getCell cs j := by
  unfold setResult
  rw [getCell_set]

theorem solution_setWalk (cs : Cells) (i : Nat) (w : Option Nat) (j : Nat) :
    (getCell (setWalk cs i w) j).solution = (getCell cs j).solution := by
  rw [getCell_setWalk]
  split_ifs with h
  · rw [h.1]
  · rfl

theorem solution_removeWallAt (cs : Cells) (i : Nat) (d : Direction) (j : Nat) :
    (getCell (removeWallAt cs i d) j).solution = (getCell cs j).solution := by
  rw [getCell_removeWallAt]
  split_ifs with h
  · rw [← h.1, solution_remove_wall]
  · rfl

theorem solution_removeWallPair (cs : Cells) (a b : Nat) (d : Direction) (j : Nat) :
    (getCell (removeWallPair cs a b d) j).solution = (getCell cs j).solution := by
  rw [removeWallPair_eq]
  rw [solution_removeWallAt, solution_removeWallAt]

theorem length_removeWallPair (cs : Cells) (a b : Nat) (d : Direction) :
    (removeWallPair cs a b d).length = cs.length := by
  rw [removeWallPair_eq, length_removeWallAt, length_removeWallAt]

/-- The generator-side frame property: lengths and all solution metadata are
untouched. -/
def SolutionFrame (cs cs' : Cells) : Prop :=
  cs'.length = cs.length ∧ ∀ j, (getCell cs' j).solution = (getCell cs j).solution

theorem solutionFrame_refl (cs : Cells) : SolutionFrame cs cs :=
  ⟨rfl, fun _ => rfl⟩

theorem solutionFrame_trans {cs1 cs2 cs3 : Cells}
    (h1 : SolutionFrame cs1 cs2) (h2 : SolutionFrame cs2 cs3) : SolutionFrame cs1 cs3 :=
  ⟨h2.1.trans h1.1, fun j => (h2.2 j).trans (h1.2 j)⟩

theorem solutionFrame_setWalk (cs : Cells) (i : Nat) (w : Option Nat) :
    SolutionFrame cs (setWalk cs i w) :=
  ⟨length_setWalk cs i w, solution_setWalk cs i w⟩

theorem solutionFrame_removeWallPair (cs : Cells) (a b : Nat) (d : Direction) :
    SolutionFrame cs (removeWallPair cs a b d) :=
  ⟨length_removeWallPair cs a b d, solution_removeWallPair cs a b d⟩

theorem dfsGenLoop_frame (dims : Dimensions) (ρ : Nat → Nat) (stack : List Nat) (i : Nat)
    (cs : Cells) (more : Bool) (g' : GenDFS) (cs' : Cells) (i' : Nat)
    (h : dfsGenLoop dims ρ stack i cs = some (more, g', cs', i')) :
    SolutionFrame cs cs' := by
  induction stack with
  | nil =>
    unfold dfsGenLoop at h
    simp only [Option.some.injEq, Prod.mk.injEq] at h
    rw [← h.2.2.1]
    exact solutionFrame_refl cs
  | cons cell rest ih =>
    unfold dfsGenLoop at h
    cases hn : unvisitedNeighbours dims cs cell with
    | nil =>
      rw [hn] at h
      exact ih h
    | cons nb nbs =>
      rw [hn] at h
      dsimp only at h
      cases hb : Direction.between dims cell ((nb :: nbs).getD (pick ρ i (nb :: nbs).length) 0) with
      | none => rw [hb] at h; exact absurd h (by simp)
      | some d =>
        rw [hb] at h
        simp only [Option.some.injEq, Prod.mk.injEq] at h
        rw [← h.2.2.1]
        exact solutionFrame_trans
          (solutionFrame_setWalk cs _ (some 0))
          (solutionFrame_removeWallPair _ _ _ d)

theorem wilsonErase_frame (stack : List Nat) (nbr : Nat) (cs : Cells)
    (st' : List Nat) (cs' : Cells)
    (h : wilsonErase stack nbr cs = some (st', cs')) : SolutionFrame cs cs' := by
  induction stack generalizing cs with
  | nil => simp [wilsonErase] at h
  | cons top rest ih =>
    unfold wilsonErase at h
    split_ifs at h with ht
    · simp only [Option.some.injEq, Prod.mk.injEq] at h
      rw [← h.2]
      exact solutionFrame_refl cs
    · exact solutionFrame_trans (solutionFrame_setWalk cs top none) (ih _ h)

theorem wilsonCommit_frame (dims : Dimensions) (stack : List Nat) (nbr : Nat) (cs : Cells)
    (cs' : Cells) (h : wilsonCommit dims stack nbr cs = some cs') : SolutionFrame cs cs' := by
  induction stack generalizing nbr cs with
  | nil =>
    unfold wilsonCommit at h
    simp only [Option.some.injEq] at h
    rw [← h]
    exact solutionFrame_refl cs
  | cons last rest ih =>
    unfold wilsonCommit at h
    cases hb : Direction.between dims last nbr with
    | none => rw [hb] at h; exact absurd h (by simp)
    | some d =>
      rw [hb] at h
      exact solutionFrame_trans (solutionFrame_removeWallPair cs last nbr d) (ih _ _ h)

/-- C7: every step of either generator leaves every cell's solution metadata
(`from`/`to` flags, `previous` back-pointer, `result` flag) unchanged; only
wall bits and `walk` tags are mutated. -/
theorem C7_generator_solution_frame (dims : Dimensions) (ρ : Nat → Nat) (i : Nat)
    (cs : Cells) (more : Bool) (cs' : Cells) (i' : Nat) :
    (∀ (g : GenDFS) (g' : GenDFS),
      dfsGenStep dims ρ g cs i = some (more, g', cs', i') →
        cs'.length = cs.length ∧ ∀ j, (getCell cs' j).solution = (getCell cs j).solution)
    ∧ (∀ (g : GenWilson) (g' : GenWilson),
      wilsonStep dims ρ g cs i = some (more, g', cs', i') →
        cs'.length = cs.length ∧ ∀ j, (getCell cs' j).solution = (getCell cs j).solution) := by
  constructor
  · intro g g' h
    unfold dfsGenStep at h
    split_ifs at h with hi
    · simp only [Option.some.injEq, Prod.mk.injEq] at h
      rw [← h.2.2.1]
      exact solutionFrame_setWalk cs _ (some 0)
    · exact dfsGenLoop_frame dims ρ g.stack i cs more g' cs' i' h
  · intro g g' h
    unfold wilsonStep at h
    cases hw : g.walk with
    | none =>
      rw [hw] at h
      simp only [Option.some.injEq, Prod.mk.injEq] at h
      rw [← h.2.2.1]
      exact solutionFrame_setWalk cs _ (some 0)
    | some w =>
      rw [hw] at h
      cases hs : g.stack.head? with
      | none =>
        rw [hs] at h
        dsimp only at h
        cases hf : cs.findIdx? (fun c => c.walk.isNone) with
        | none =>
          rw [hf] at h
          simp only [Option.some.injEq, Prod.mk.injEq] at h
          rw [← h.2.2.1]
          exact solutionFrame_refl cs
        | some idx =>
          rw [hf] at h
          simp only [Option.some.injEq, Prod.mk.injEq] at h
          rw [← h.2.2.1]
          exact solutionFrame_setWalk cs idx (some w)
      | some cell =>
        rw [hs] at h
        dsimp only at h
        cases hcw : (getCell cs ((allNeighbours dims cell).getD
            (pick ρ i (allNeighbours dims cell).length) 0)).walk with
        | none =>
          rw [hcw] at h
          simp only [Option.some.injEq, Prod.mk.injEq] at h
          rw [← h.2.2.1]
          exact solutionFrame_setWalk cs _ (some w)
        | some nw =>
          rw [hcw] at h
          dsimp only at h
          split_ifs at h with heq
          · cases he : wilsonErase g.stack ((allNeighbours dims cell).getD
                (pick ρ i (allNeighbours dims cell).length) 0) cs with
            | none => rw [he] at h; exact absurd h (by simp)
            | some pr =>
              rw [he] at h
              obtain ⟨st', cse⟩ := pr
              simp only [Option.some.injEq, Prod.mk.injEq] at h
              rw [← h.2.2.1]
              exact wilsonErase_frame g.stack _ cs st' cse he
          · cases hc : wilsonCommit dims g.stack ((allNeighbours dims cell).getD
                (pick ρ i (allNeighbours dims cell).length) 0) cs with
            | none => rw [hc] at h; exact absurd h (by simp)
            | some csc =>
              rw [hc] at h
              simp only [Option.some.injEq, Prod.mk.injEq] at h
              rw [← h.2.2.1]
              exact wilsonCommit_frame dims g.stack _ cs csc hc

theorem C7_generator_solution_frame_witness :
    dfsGenStep (2, 2) (fun _ => 0) { initialised := false } (initGrid 4) 0
        = some (true, { initialised := true, stack := [0] },
            setWalk (initGrid 4) 0 (some 0), 1)
      ∧ ((setWalk (initGrid 4) 0 (some 0)).length = (initGrid 4).length
        ∧ ∀ j, (getCell (setWalk (initGrid 4) 0 (some 0)) j).solution
            = (getCell (initGrid 4) j).solution) := by
  refine ⟨by decide, (C7_generator_solution_frame (2, 2) (fun _ => 0) 0 (initGrid 4) true
    (setWalk (initGrid 4) 0 (some 0)) 1).1 { initialised := false }
    { initialised := true, stack := [0] } (by decide)⟩

theorem listGetD_mem {α : Type} {l : List α} {k : Nat} (d : α) (hk : k < l.length) :
    l.getD k d ∈ l := by
  have hg : l[k]? = some (l[k]) := List.getElem?_eq_getElem hk
  simp only [List.getD_eq_getElem?_getD, hg, Option.getD_some]
  exact List.getElem_mem hk

/-- Back-pointer preservation: every already-set `previous` survives. -/
def PrevFrame (cs cs' : Cells) : Prop :=
  ∀ j p, (getCell cs j).solution.previous = some p →
    (getCell cs' j).solution.previous = some p

theorem prevFrame_refl (cs : Cells) : PrevFrame cs cs := fun _ _ h => h

theorem prevFrame_trans {cs1 cs2 cs3 : Cells}
    (h1 : PrevFrame cs1 cs2) (h2 : PrevFrame cs2 cs3) : PrevFrame cs1 cs3 :=
  fun j p h => h2 j p (h1 j p h)

theorem previous_setResult (cs : Cells) (i j : Nat) :
    (getCell (setResult cs i) j).solution.previous = (getCell cs j).solution.previous := by
  rw [getCell_setResult]
  split_ifs with h
  · rw [h.1]
  · rfl

theorem prevFrame_setResult (cs : Cells) (i : Nat) : PrevFrame cs (setResult cs i) := by
  intro j p h
  rw [previous_setResult]
  exact h

theorem previous_setPrevious (cs : Cells) (i : Nat) (q : Option Nat) (j : Nat) :
    (getCell (setPrevious cs i q) j).solution.previous =
      if i = j ∧ i < cs.length then q else (getCell cs j).solution.previous := by
  rw [getCell_setPrevious]
  split_ifs with h
  · rfl
  · rfl

theorem prevFrame_setPrevious_of_none (cs : Cells) (n : Nat) (q : Option Nat)
    (hn : (getCell cs n).solution.previous = none) :
    PrevFrame cs (setPrevious cs n q) := by
  intro j p h
  rw [previous_setPrevious]
  split_ifs with hij
  · rw [hij.1] at hn
    rw [hn] at h
    exact absurd h (by simp)
  · exact h

theorem markResult_prevFrame (s : Nat) (fuel : Nat) (cell : Nat) (cs : Cells) (cs' : Cells)
    (h : markResult s fuel cell cs = some cs') : PrevFrame cs cs' := by
  induction fuel generalizing cell cs with
  | zero => simp [markResult] at h
  | succ fuel ih =>
    unfold markResult at h
    split_ifs at h with hc
    · simp only [Option.some.injEq] at h
      rw [← h]
      exact prevFrame_refl cs
    · cases hp : (getCell (setResult cs cell) cell).solution.previous with
      | none => rw [hp] at h; exact absurd h (by simp)
      | some p =>
        rw [hp] at h
        exact prevFrame_trans (prevFrame_setResult cs cell) (ih p _ h)

theorem solverNeighbours_previous_none (dims : Dimensions) (cs : Cells) (s cell n : Nat)
    (h : n ∈ solverNeighbours dims cs s cell) :
    (getCell cs n).solution.previous = none := by
  unfold solverNeighbours at h
  have hf := (List.mem_filter.1 h).2
  simp only [Bool.and_eq_true, bne_iff_ne, Option.isNone_iff_eq_none] at hf
  exact hf.2

theorem aStarRelax_prev_outside (h : Dimensions → Nat → Nat → Nat) (dims : Dimensions)
    (t cell : Nat) (ns : List Nat) (ds : List (Option Nat)) (fr : List AState) (cs : Cells)
    (ds' : List (Option Nat)) (fr' : List AState) (cs' : Cells)
    (hr : aStarRelax h dims t cell ns ds fr cs = some (ds', fr', cs')) :
    ∀ j, j ∉ ns → (getCell cs' j).solution.previous = (getCell cs j).solution.previous := by
  induction ns generalizing ds fr cs with
  | nil =>
    unfold aStarRelax at hr
    simp only [Option.some.injEq, Prod.mk.injEq] at hr
    rw [hr.2.2]
    intro j _
    rfl
  | cons n ns ih =>
    unfold aStarRelax at hr
    cases hd : ds.getD cell none with
    | none => rw [hd] at hr; exact absurd hr (by simp)
    | some dc =>
      rw [hd] at hr
      dsimp only at hr
      intro j hj
      have hjn : j ≠ n := fun he => hj (he ▸ List.mem_cons_self n ns)
      have hjns : j ∉ ns := fun he => hj (List.mem_cons_of_mem n he)
      split_ifs at hr with him
      · rw [ih _ _ _ hr j hjns, previous_setPrevious]
        split_ifs with hx
        · exact absurd hx.1.symm hjn
        · rfl
      · exact ih _ _ _ hr j hjns

/-- C10: back-pointers are write-once within a step: for the A*-family
solver, the randomised DFS solver and the wall follower (any turn strategy),
a cell whose `previous` is `some p` before a `step` call still has
`previous = some p` after it. -/
theorem C10_previous_write_once :
    (∀ (hf : Dimensions → Nat → Nat → Nat) (dims : Dimensions) (st : AStar) (cs : Cells)
        (s t : Nat) (more : Bool) (st' : AStar) (cs' : Cells),
      aStarStep hf dims st cs s t = some (more, st', cs') → PrevFrame cs cs')
    ∧ (∀ (dims : Dimensions) (ρ : Nat → Nat) (s t fuel : Nat) (sv : SolveDFS) (cs : Cells)
        (i : Nat) (more : Bool) (sv' : SolveDFS) (cs' : Cells) (i' : Nat),
      dfsSolveStep dims ρ s t fuel sv cs i = some (more, sv', cs', i') → PrevFrame cs cs')
    ∧ (∀ (T : WFTurn) (dims : Dimensions) (s t fuel : Nat) (st : WFState) (cs : Cells)
        (more : Bool) (st' : WFState) (cs' : Cells),
      wfStep T dims s t fuel st cs = some (more, st', cs') → PrevFrame cs cs') := by
  refine ⟨?_, ?_, ?_⟩
  · intro hf dims st cs s t more st' cs' h
    unfold aStarStep at h
    split_ifs at h with hi
    · simp only [Option.some.injEq, Prod.mk.injEq] at h
      rw [← h.2.2]
      exact prevFrame_refl cs
    · cases hp : heapPop st.fringe with
      | none => rw [hp] at h; exact absurd h (by simp)
      | some pr =>
        obtain ⟨top, rest⟩ := pr
        rw [hp] at h
        dsimp only at h
        split_ifs at h with ht
        · cases hm : markResult s (cs.length + 1) t cs with
          | none => rw [hm] at h; exact absurd h (by simp)
          | some csm =>
            rw [hm] at h
            simp only [Option.some.injEq, Prod.mk.injEq] at h
            rw [← h.2.2]
            exact markResult_prevFrame s _ t cs csm hm
        · cases hrel : aStarRelax hf dims t top.cell (solverNeighbours dims cs s top.cell)
              st.distances (rest.filter (fun e => e.cell != top.cell)) cs with
          | none => rw [hrel] at h; exact absurd h (by simp)
          | some out =>
            obtain ⟨ds', fr', csr⟩ := out
            rw [hrel] at h
            simp only [Option.some.injEq, Prod.mk.injEq] at h
            rw [← h.2.2]
            intro j p hj
            by_cases hmem : j ∈ solverNeighbours dims cs s top.cell
            · rw [solverNeighbours_previous_none dims cs s top.cell j hmem] at hj
              exact absurd hj (by simp)
            · rw [aStarRelax_prev_outside hf dims t top.cell _ _ _ _ _ _ _ hrel j hmem]
              exact hj
  · intro dims ρ s t fuel sv cs i more sv' cs' i' h
    unfold dfsSolveStep at h
    split_ifs at h with hi
    · simp only [Option.some.injEq, Prod.mk.injEq] at h
      rw [← h.2.2.1]
      exact prevFrame_refl cs
    · clear hi
      induction fuel generalizing sv cs i with
      | zero => simp [dfsSolveLoop] at h
      | succ fuel ih =>
        unfold dfsSolveLoop at h
        cases hst : sv.stack with
        | nil =>
          rw [hst] at h
          dsimp only at h
          exact ih { initialised := sv.initialised, stack := [s] } cs i (by exact h)
        | cons cell rest =>
          rw [hst] at h
          dsimp only at h
          split_ifs at h with hc
          · cases hm : markResult s (cs.length + 1) t cs with
            | none => rw [hm] at h; exact absurd h (by simp)
            | some csm =>
              rw [hm] at h
              simp only [Option.some.injEq, Prod.mk.injEq] at h
              rw [← h.2.2.1]
              exact markResult_prevFrame s _ t cs csm hm
          · cases hn : solverNeighbours dims cs s cell with
            | nil =>
              rw [hn] at h
              exact ih { initialised := sv.initialised, stack := rest } cs i (by exact h)
            | cons nb nbs =>
              rw [hn] at h
              dsimp only at h
              simp only [Option.some.injEq, Prod.mk.injEq] at h
              rw [← h.2.2.1]
              refine prevFrame_setPrevious_of_none cs _ (some cell) ?_
              refine solverNeighbours_previous_none dims cs s cell _ ?_
              rw [hn]
              exact listGetD_mem 0 (Nat.mod_lt _ (by simp))
  · intro T dims s t fuel st cs more st' cs' h
    unfold wfStep at h
    induction fuel generalizing st cs with
    | zero => simp [wfLoop] at h
    | succ fuel ih =>
      unfold wfLoop at h
      cases hcd : st.cellDir with
      | none =>
        rw [hcd] at h
        simp only [Option.some.injEq, Prod.mk.injEq] at h
        rw [← h.2.2]
        exact prevFrame_refl cs
      | some cd =>
        obtain ⟨cell, dir⟩ := cd
        rw [hcd] at h
        dsimp only at h
        split_ifs at h with hc
        · cases hm : markResult s (cs.length + 1) t cs with
          | none => rw [hm] at h; exact absurd h (by simp)
          | some csm =>
            rw [hm] at h
            simp only [Option.some.injEq, Prod.mk.injEq] at h
            rw [← h.2.2]
            exact markResult_prevFrame s _ t cs csm hm
        · cases hsc : wfScan T dims cs cell 4 (T.initial dir) with
          | none => rw [hsc] at h; exact absurd h (by simp)
          | some nd =>
            obtain ⟨neighbour, d⟩ := nd
            rw [hsc] at h
            dsimp only at h
            split_ifs at h with hpn
            · simp only [Option.some.injEq, Prod.mk.injEq] at h
              rw [← h.2.2]
              exact prevFrame_setPrevious_of_none cs neighbour (some cell)
                (Option.isNone_iff_eq_none.1 hpn)
            · exact ih { cellDir := some (neighbour, d) } cs (by exact h)

theorem C10_previous_write_once_witness :
    aStarStep zeroHeuristic (2, 1) {} mazeC5 0 1
        = some (true,
          { initialised := true, distances := [some 0, none],
            fringe := [{ cost := 0, cell := 0 }] }, mazeC5)
      ∧ PrevFrame mazeC5 mazeC5 :=
  ⟨by decide, C10_previous_write_once.1 zeroHeuristic (2, 1) {} mazeC5 0 1 true
    { initialised := true, distances := [some 0, none], fringe := [{ cost := 0, cell := 0 }] }
    mazeC5 (by decide)⟩

theorem opposite_opposite (d : Direction) : d.opposite.opposite = d := by
  cases d <;> rfl

theorem walls_setWalk (cs : Cells) (i : Nat) (w : Option Nat) (j : Nat) :
    (getCell (setWalk cs i w) j).walls = (getCell cs j).walls := by
  rw [getCell_setWalk]
  split_ifs with h
  · rw [h.1]
  · rfl

theorem has_wall_setWalk (cs : Cells) (i : Nat) (w : Option Nat) (j : Nat) (d : Direction) :
    (getCell (setWalk cs i w) j).has_wall d = (getCell cs j).has_wall d := by
  unfold Cell.has_wall
  rw [walls_setWalk]

/-- How one generator carve changes the wall bits: exactly the two facing
bits of the carved pair go absent, nothing else moves. -/
theorem has_wall_removeWallPair (cs : Cells) (a b : Nat) (d : Direction)
    (hab : a ≠ b) (x : Nat) (d' : Direction) :
    (getCell (removeWallPair cs a b d) x).has_wall d' = true ↔
      ((getCell cs x).has_wall d' = true ∧ ¬(x = a ∧ d' = d ∧ a < cs.length)
        ∧ ¬(x = b ∧ d' = d.opposite ∧ b < cs.length)) := by
  rw [removeWallPair_eq]
  rw [getCell_removeWallAt, length_removeWallAt]
  by_cases hb : b = x ∧ b < cs.length
  · rw [if_pos hb]
    rw [getCell_removeWallAt]
    rw [if_neg (fun hc : a = b ∧ a < cs.length => hab hc.1)]
    rw [has_wall_remove_wall]
    obtain ⟨rfl, hblen⟩ := hb
    constructor
    · intro h
      simp only [Bool.and_eq_true, decide_eq_true_eq] at h
      exact ⟨h.2, fun hc => hab hc.1.symm, fun hc => h.1 hc.2.1⟩
    · intro ⟨h1, _, h3⟩
      simp only [Bool.and_eq_true, decide_eq_true_eq]
      exact ⟨fun he => h3 ⟨rfl, he, hblen⟩, h1⟩
  · rw [if_neg hb]
    rw [getCell_removeWallAt]
    by_cases ha : a = x ∧ a < cs.length
    · rw [if_pos ha]
      rw [has_wall_remove_wall]
      obtain ⟨rfl, halen⟩ := ha
      constructor
      · intro h
        simp only [Bool.and_eq_true, decide_eq_true_eq] at h
        exact ⟨h.2, fun hc => h.1 hc.2.1, fun hc => hb ⟨hc.1.symm, hc.2.2⟩⟩
      · intro ⟨h1, h2, _⟩
        simp only [Bool.and_eq_true, decide_eq_true_eq]
        exact ⟨fun he => h2 ⟨rfl, he, halen⟩, h1⟩
    · rw [if_neg ha]
      constructor
      · intro h
        exact ⟨h, fun hc => ha ⟨hc.1.symm, hc.2.2⟩, fun hc => hb ⟨hc.1.symm, hc.2.2⟩⟩
      · intro ⟨h1, _, _⟩
        exact h1

/-- Wall symmetry (the C8 invariant): facing wall bits of adjacent cells
agree. -/
def WallSym (dims : Dimensions) (cs : Cells) : Prop :=
  ∀ a b (d : Direction), a < dims.1 * dims.2 → d.neighbour dims a = some b →
    (getCell cs a).has_wall d = (getCell cs b).has_wall d.opposite

/-- Boundary walls (the C9 invariant): wall bits facing off-grid stay set. -/
def BoundaryOK (dims : Dimensions) (cs : Cells) : Prop :=
  ∀ a (d : Direction), d.neighbour dims a = none → (getCell cs a).has_wall d = true

theorem wallSym_initGrid (dims : Dimensions) : WallSym dims (initGrid (dims.1 * dims.2)) := by
  intro a b d _ _
  rw [getCell_initGrid, getCell_initGrid]
  cases d <;> rfl

theorem boundaryOK_initGrid (dims : Dimensions) :
    BoundaryOK dims (initGrid (dims.1 * dims.2)) := by
  intro a d _
  rw [getCell_initGrid]
  cases d <;> rfl

theorem wallSym_setWalk (dims : Dimensions) (cs : Cells) (i : Nat) (w : Option Nat)
    (hs : WallSym dims cs) : WallSym dims (setWalk cs i w) := by
  intro a b d ha hnb
  rw [has_wall_setWalk, has_wall_setWalk]
  exact hs a b d ha hnb

theorem boundaryOK_setWalk (dims : Dimensions) (cs : Cells) (i : Nat) (w : Option Nat)
    (hs : BoundaryOK dims cs) : BoundaryOK dims (setWalk cs i w) := by
  intro a d hnb
  rw [has_wall_setWalk]
  exact hs a d hnb

theorem neighbour_ne (dims : Dimensions) (a b : Nat) (ha : a < dims.1 * dims.2)
    (d : Direction) (h : d.neighbour dims a = some b) : b ≠ a := by
  rcases Nat.eq_zero_or_pos dims.1 with h0 | h0
  · rw [h0, Nat.zero_mul] at ha
    omega
  · cases d <;>
      simp only [neighbour_first_iff, neighbour_second_iff, neighbour_third_iff,
        neighbour_forth_iff] at h <;> omega

theorem wallSym_removeWallPair (dims : Dimensions) (cs : Cells) (a b : Nat) (d : Direction)
    (hlen : cs.length = dims.1 * dims.2) (ha : a < dims.1 * dims.2)
    (hnb : d.neighbour dims a = some b) (hs : WallSym dims cs) :
    WallSym dims (removeWallPair cs a b d) := by
  have hb : b < dims.1 * dims.2 := neighbour_lt dims a b ha d hnb
  have hba : d.opposite.neighbour dims b = some a := neighbour_opposite dims a b ha d hnb
  have hab : a ≠ b := (neighbour_ne dims a b ha d hnb).symm
  intro x y d' hx hxy
  have hy : y < dims.1 * dims.2 := neighbour_lt dims x y hx d' hxy
  have hyx : d'.opposite.neighbour dims y = some x := neighbour_opposite dims x y hx d' hxy
  have hsym := hs x y d' hx hxy
  have key : (x = a ∧ d' = d) ∨ (x = b ∧ d' = d.opposite) ↔
      (y = a ∧ d'.opposite = d) ∨ (y = b ∧ d'.opposite = d.opposite) := by
    constructor
    · rintro (⟨rfl, rfl⟩ | ⟨rfl, rfl⟩)
      · exact Or.inr ⟨(Option.some.inj (hnb.symm.trans hxy)).symm, rfl⟩
      · exact Or.inl ⟨(Option.some.inj (hba.symm.trans hxy)).symm, opposite_opposite d⟩
    · rintro (⟨rfl, hd⟩ | ⟨rfl, hd⟩)
      · have hd' : d' = d.opposite := by rw [← hd, opposite_opposite]
        subst hd'
        rw [opposite_opposite] at hyx
        exact Or.inr ⟨(Option.some.inj (hnb.symm.trans hyx)).symm, rfl⟩
      · have hd' : d' = d := by
          have h2 := congrArg Direction.opposite hd
          rwa [opposite_opposite, opposite_opposite] at h2
        subst hd'
        exact Or.inl ⟨(Option.some.inj (hba.symm.trans hyx)).symm, rfl⟩
  rw [Bool.eq_iff_iff, has_wall_removeWallPair cs a b d hab,
    has_wall_removeWallPair cs a b d hab]
  rw [hlen]
  constructor
  · intro ⟨h1, h2, h3⟩
    refine ⟨hsym ▸ h1, ?_, ?_⟩
    · intro ⟨he, hde, _⟩
      rcases key.2 (Or.inl ⟨he, hde⟩) with ⟨hxa, hda⟩ | ⟨hxb, hdb⟩
      · exact h2 ⟨hxa, hda, hxa ▸ ha⟩
      · exact h3 ⟨hxb, hdb, hxb ▸ hb⟩
    · intro ⟨he, hde, _⟩
      rcases key.2 (Or.inr ⟨he, hde⟩) with ⟨hxa, hda⟩ | ⟨hxb, hdb⟩
      · exact h2 ⟨hxa, hda, hxa ▸ ha⟩
      · exact h3 ⟨hxb, hdb, hxb ▸ hb⟩
  · intro ⟨h1, h2, h3⟩
    refine ⟨hsym ▸ h1, ?_, ?_⟩
    · intro ⟨he, hde, _⟩
      rcases key.1 (Or.inl ⟨he, hde⟩) with ⟨hya, hda⟩ | ⟨hyb, hdb⟩
      · exact h2 ⟨hya, hda, hya ▸ ha⟩
      · exact h3 ⟨hyb, hdb, hyb ▸ hb⟩
    · intro ⟨he, hde, _⟩
      rcases key.1 (Or.inr ⟨he, hde⟩) with ⟨hya, hda⟩ | ⟨hyb, hdb⟩
      · exact h2 ⟨hya, hda, hya ▸ ha⟩
      · exact h3 ⟨hyb, hdb, hyb ▸ hb⟩

theorem boundaryOK_removeWallPair (dims : Dimensions) (cs : Cells) (a b : Nat) (d : Direction)
    (ha : a < dims.1 * dims.2) (hnb : d.neighbour dims a = some b)
    (hs : BoundaryOK dims cs) : BoundaryOK dims (removeWallPair cs a b d) := by
  have hba : d.opposite.neighbour dims b = some a := neighbour_opposite dims a b ha d hnb
  have hab : a ≠ b := (neighbour_ne dims a b ha d hnb).symm
  intro x d' hxd
  have hbool := hs x d' hxd
  rw [has_wall_removeWallPair cs a b d hab]
  refine ⟨hbool, ?_, ?_⟩
  · rintro ⟨rfl, rfl, -⟩
    rw [hnb] at hxd
    exact absurd hxd (by simp)
  · rintro ⟨rfl, rfl, -⟩
    rw [hba] at hxd
    exact absurd hxd (by simp)

theorem mem_DIRECTIONS (d : Direction) : d ∈ DIRECTIONS := by
  cases d <;> simp [DIRECTIONS]

theorem mem_allNeighbours (dims : Dimensions) (cell n : Nat) :
    n ∈ allNeighbours dims cell ↔ ∃ d : Direction, d.neighbour dims cell = some n := by
  unfold allNeighbours
  simp only [List.mem_filterMap]
  constructor
  · rintro ⟨d, -, hd⟩
    exact ⟨d, hd⟩
  · rintro ⟨d, hd⟩
    exact ⟨d, mem_DIRECTIONS d, hd⟩

theorem mem_unvisitedNeighbours (dims : Dimensions) (cs : Cells) (cell n : Nat)
    (h : n ∈ unvisitedNeighbours dims cs cell) :
    (∃ d : Direction, d.neighbour dims cell = some n) ∧ (getCell cs n).walk = none := by
  unfold unvisitedNeighbours at h
  have h1 := (List.mem_filter.1 h).1
  have h2 := (List.mem_filter.1 h).2
  rw [Option.isNone_iff_eq_none] at h2
  exact ⟨(mem_allNeighbours dims cell n).1 h1, h2⟩

/-- The wall-shape invariant both generators preserve. -/
structure GenInvariant (dims : Dimensions) (cs : Cells) : Prop where
  len : cs.length = dims.1 * dims.2
  sym : WallSym dims cs
  boundary : BoundaryOK dims cs

theorem genInvariant_init (dims : Dimensions) :
    GenInvariant dims (initGrid (dims.1 * dims.2)) :=
  ⟨by simp [initGrid], wallSym_initGrid dims, boundaryOK_initGrid dims⟩

theorem genInvariant_setWalk (dims : Dimensions) (cs : Cells) (i : Nat) (w : Option Nat)
    (h : GenInvariant dims cs) : GenInvariant dims (setWalk cs i w) :=
  ⟨(length_setWalk cs i w).trans h.len, wallSym_setWalk dims cs i w h.sym,
    boundaryOK_setWalk dims cs i w h.boundary⟩

theorem genInvariant_removeWallPair (dims : Dimensions) (cs : Cells) (a b : Nat)
    (d : Direction) (ha : a < dims.1 * dims.2) (hnb : d.neighbour dims a = some b)
    (h : GenInvariant dims cs) : GenInvariant dims (removeWallPair cs a b d) :=
  ⟨(length_removeWallPair cs a b d).trans h.len,
    wallSym_removeWallPair dims cs a b d h.len ha hnb h.sym,
    boundaryOK_removeWallPair dims cs a b d ha hnb h.boundary⟩

/-- The carve inside `dfsGenLoop` keeps the invariant and in-range stacks. -/
theorem dfsGenLoop_inv (dims : Dimensions) (ρ : Nat → Nat) (stack : List Nat) (i : Nat)
    (cs : Cells) (more : Bool) (g' : GenDFS) (cs' : Cells) (i' : Nat)
    (hstack : ∀ c ∈ stack, c < dims.1 * dims.2) (hInv : GenInvariant dims cs)
    (h : dfsGenLoop dims ρ stack i cs = some (more, g', cs', i')) :
    GenInvariant dims cs' ∧ ∀ c ∈ g'.stack, c < dims.1 * dims.2 := by
  induction stack generalizing cs with
  | nil =>
    unfold dfsGenLoop at h
    simp only [Option.some.injEq, Prod.mk.injEq] at h
    rw [← h.2.2.1, ← h.2.1]
    exact ⟨hInv, by simp⟩
  | cons cell rest ih =>
    have hcell : cell < dims.1 * dims.2 := hstack cell (List.mem_cons_self cell rest)
    have hrest : ∀ c ∈ rest, c < dims.1 * dims.2 :=
      fun c hc => hstack c (List.mem_cons_of_mem cell hc)
    unfold dfsGenLoop at h
    cases hn : unvisitedNeighbours dims cs cell with
    | nil =>
      rw [hn] at h
      exact ih cs hrest hInv h
    | cons nb nbs =>
      rw [hn] at h
      dsimp only at h
      have hmem : (nb :: nbs).getD (pick ρ i (nb :: nbs).length) 0
          ∈ unvisitedNeighbours dims cs cell := by
        rw [hn]
        exact listGetD_mem 0 (Nat.mod_lt _ (by simp))
      obtain ⟨⟨d0, hd0⟩, -⟩ := mem_unvisitedNeighbours dims cs cell _ hmem
      have hlt : (nb :: nbs).getD (pick ρ i (nb :: nbs).length) 0 < dims.1 * dims.2 :=
        neighbour_lt dims cell _ hcell d0 hd0
      cases hb : Direction.between dims cell ((nb :: nbs).getD (pick ρ i (nb :: nbs).length) 0) with
      | none => rw [hb] at h; exact absurd h (by simp)
      | some d =>
        rw [hb] at h
        simp only [Option.some.injEq, Prod.mk.injEq] at h
        have hdn := neighbour_of_between dims cell _ (hInv.len ▸ hInv.len.symm ▸ hlt) d hb
        rw [← h.2.2.1, ← h.2.1]
        constructor
        · exact genInvariant_removeWallPair dims _ cell _ d hcell hdn
            (genInvariant_setWalk dims cs _ (some 0) hInv)
        · intro c hc
          simp only at hc
          rcases List.mem_cons.1 hc with rfl | hc2
          · exact hlt
          · rcases List.mem_cons.1 hc2 with rfl | hc3
            · exact hcell
            · exact hrest c hc3

theorem wilsonErase_inv (dims : Dimensions) (stack : List Nat) (nbr : Nat) (cs : Cells)
    (st' : List Nat) (cs' : Cells) (hInv : GenInvariant dims cs)
    (h : wilsonErase stack nbr cs = some (st', cs')) :
    GenInvariant dims cs' ∧ ∀ c ∈ st', c ∈ stack := by
  induction stack generalizing cs with
  | nil => simp [wilsonErase] at h
  | cons top rest ih =>
    unfold wilsonErase at h
    split_ifs at h with ht
    · simp only [Option.some.injEq, Prod.mk.injEq] at h
      rw [← h.1, ← h.2]
      exact ⟨hInv, fun c hc => hc⟩
    · have := ih (setWalk cs top none) (genInvariant_setWalk dims cs top none hInv) h
      exact ⟨this.1, fun c hc => List.mem_cons_of_mem top (this.2 c hc)⟩

theorem wilsonCommit_inv (dims : Dimensions) (stack : List Nat) (nbr : Nat) (cs : Cells)
    (cs' : Cells) (hstack : ∀ c ∈ stack, c < dims.1 * dims.2) (hnbr : nbr < dims.1 * dims.2)
    (hInv : GenInvariant dims cs) (h : wilsonCommit dims stack nbr cs = some cs') :
    GenInvariant dims cs' := by
  induction stack generalizing nbr cs with
  | nil =>
    unfold wilsonCommit at h
    simp only [Option.some.injEq] at h
    rw [← h]
    exact hInv
  | cons last rest ih =>
    have hlast : last < dims.1 * dims.2 := hstack last (List.mem_cons_self last rest)
    have hrest : ∀ c ∈ rest, c < dims.1 * dims.2 :=
      fun c hc => hstack c (List.mem_cons_of_mem last hc)
    unfold wilsonCommit at h
    cases hb : Direction.between dims last nbr with
    | none => rw [hb] at h; exact absurd h (by simp)
    | some d =>
      rw [hb] at h
      have hdn := neighbour_of_between dims last nbr hnbr d hb
      exact ih last (removeWallPair cs last nbr d) hrest hlast
        (genInvariant_removeWallPair dims cs last nbr d hlast hdn hInv) h

theorem findIdx?_lt_length {α : Type} {p : α → Bool} {l : List α} {i : Nat}
    (h : l.findIdx? p = some i) : i < l.length :=
  (List.findIdx?_eq_some_iff_findIdx_eq.1 h).1

theorem dfsGenStep_inv (dims : Dimensions) (ρ : Nat → Nat) (g : GenDFS) (cs : Cells)
    (i : Nat) (more : Bool) (g' : GenDFS) (cs' : Cells) (i' : Nat)
    (hN : 1 ≤ dims.1 * dims.2)
    (hstack : ∀ c ∈ g.stack, c < dims.1 * dims.2) (hInv : GenInvariant dims cs)
    (h : dfsGenStep dims ρ g cs i = some (more, g', cs', i')) :
    GenInvariant dims cs' ∧ ∀ c ∈ g'.stack, c < dims.1 * dims.2 := by
  unfold dfsGenStep at h
  split_ifs at h with hi
  · simp only [Option.some.injEq, Prod.mk.injEq] at h
    rw [← h.2.2.1, ← h.2.1]
    refine ⟨genInvariant_setWalk dims cs _ (some 0) hInv, ?_⟩
    intro c hc
    simp only [List.mem_singleton] at hc
    subst hc
    rw [hInv.len]
    exact Nat.mod_lt _ (by omega)
  · exact dfsGenLoop_inv dims ρ g.stack i cs more g' cs' i' hstack hInv h

theorem wilsonStep_inv (dims : Dimensions) (ρ : Nat → Nat) (g : GenWilson) (cs : Cells)
    (i : Nat) (more : Bool) (g' : GenWilson) (cs' : Cells) (i' : Nat)
    (hN : 1 ≤ dims.1 * dims.2)
    (hstack : ∀ c ∈ g.stack, c < dims.1 * dims.2) (hInv : GenInvariant dims cs)
    (h : wilsonStep dims ρ g cs i = some (more, g', cs', i')) :
    GenInvariant dims cs' ∧ ∀ c ∈ g'.stack, c < dims.1 * dims.2 := by
  unfold wilsonStep at h
  cases hw : g.walk with
  | none =>
    rw [hw] at h
    simp only [Option.some.injEq, Prod.mk.injEq] at h
    rw [← h.2.2.1, ← h.2.1]
    exact ⟨genInvariant_setWalk dims cs _ (some 0) hInv, hstack⟩
  | some w =>
    rw [hw] at h
    cases hs : g.stack.head? with
    | none =>
      rw [hs] at h
      dsimp only at h
      cases hf : cs.findIdx? (fun c => c.walk.isNone) with
      | none =>
        rw [hf] at h
        simp only [Option.some.injEq, Prod.mk.injEq] at h
        rw [← h.2.2.1, ← h.2.1]
        exact ⟨hInv, by simp⟩
      | some idx =>
        rw [hf] at h
        simp only [Option.some.injEq, Prod.mk.injEq] at h
        rw [← h.2.2.1, ← h.2.1]
        refine ⟨genInvariant_setWalk dims cs idx (some w) hInv, ?_⟩
        intro c hc
        simp only [List.mem_singleton] at hc
        subst hc
        have hlt := findIdx?_lt_length hf
        rw [hInv.len] at hlt
        exact hlt
    | some cell =>
      have hcell : cell < dims.1 * dims.2 := by
        apply hstack
        exact List.mem_of_mem_head? hs
      have hnblt : (allNeighbours dims cell).getD (pick ρ i (allNeighbours dims cell).length) 0
          < dims.1 * dims.2 := by
        cases hne : allNeighbours dims cell with
        | nil => exact hN
        | cons x xs =>
          have hmem : (x :: xs).getD (pick ρ i (x :: xs).length) 0 ∈ x :: xs :=
            listGetD_mem 0 (Nat.mod_lt _ (by simp))
          rw [← hne] at hmem
          obtain ⟨d0, hd0⟩ := (mem_allNeighbours dims cell _).1 hmem
          rw [← hne]
          exact neighbour_lt dims cell _ hcell d0 hd0
      rw [hs] at h
      dsimp only at h
      cases hcw : (getCell cs ((allNeighbours dims cell).getD
          (pick ρ i (allNeighbours dims cell).length) 0)).walk with
      | none =>
        rw [hcw] at h
        simp only [Option.some.injEq, Prod.mk.injEq] at h
        rw [← h.2.2.1, ← h.2.1]
        refine ⟨genInvariant_setWalk dims cs _ (some w) hInv, ?_⟩
        intro c hc
        rcases List.mem_cons.1 hc with rfl | hc2
        · exact hnblt
        · exact hstack c hc2
      | some nw =>
        rw [hcw] at h
        dsimp only at h
        split_ifs at h with heq
        · cases he : wilsonErase g.stack ((allNeighbours dims cell).getD
              (pick ρ i (allNeighbours dims cell).length) 0) cs with
          | none => rw [he] at h; exact absurd h (by simp)
          | some pr =>
            obtain ⟨st', cse⟩ := pr
            rw [he] at h
            simp only [Option.some.injEq, Prod.mk.injEq] at h
            rw [← h.2.2.1, ← h.2.1]
            have := wilsonErase_inv dims g.stack _ cs st' cse hInv he
            exact ⟨this.1, fun c hc => hstack c (this.2 c hc)⟩
        · cases hc : wilsonCommit dims g.stack ((allNeighbours dims cell).getD
              (pick ρ i (allNeighbours dims cell).length) 0) cs with
          | none => rw [hc] at h; exact absurd h (by simp)
          | some csc =>
            rw [hc] at h
            simp only [Option.some.injEq, Prod.mk.injEq] at h
            rw [← h.2.2.1, ← h.2.1]
            exact ⟨wilsonCommit_inv dims g.stack _ cs csc hstack hnblt hInv hc, by simp⟩

/-- Grid states reachable from the fully-walled initial grid by any sequence
of generator `step` calls (either algorithm, arbitrary randomness). -/
inductive ReachableGen (dims : Dimensions) : GenDFS → GenWilson → Cells → Prop
  | init (h1 : 1 ≤ dims.1) (h2 : 1 ≤ dims.2) :
      ReachableGen dims {} {} (initGrid (dims.1 * dims.2))
  | dfs {gd gw cs} (ρ : Nat → Nat) (i : Nat) {more gd' cs' i'} :
      ReachableGen dims gd gw cs →
      dfsGenStep dims ρ gd cs i = some (more, gd', cs', i') →
      ReachableGen dims gd' gw cs'
  | wilson {gd gw cs} (ρ : Nat → Nat) (i : Nat) {more gw' cs' i'} :
      ReachableGen dims gd gw cs →
      wilsonStep dims ρ gw cs i = some (more, gw', cs', i') →
      ReachableGen dims gd gw' cs'

theorem reachableGen_pos {dims : Dimensions} {gd gw cs}
    (h : ReachableGen dims gd gw cs) : 1 ≤ dims.1 * dims.2 := by
  induction h with
  | init h1 h2 => exact Nat.mul_pos h1 h2
  | dfs ρ i _ _ ih => exact ih
  | wilson ρ i _ _ ih => exact ih

theorem reachableGen_inv {dims : Dimensions} {gd gw cs}
    (h : ReachableGen dims gd gw cs) :
    GenInvariant dims cs ∧ (∀ c ∈ gd.stack, c < dims.1 * dims.2)
      ∧ (∀ c ∈ gw.stack, c < dims.1 * dims.2) := by
  induction h with
  | init h1 h2 => exact ⟨genInvariant_init dims, by simp, by simp⟩
  | dfs ρ i hreach hstep ih =>
    rename_i gd gw cs more gd' cs' i'
    have hN := reachableGen_pos hreach
    have hout := dfsGenStep_inv dims ρ gd cs i more gd' cs' i' hN ih.2.1 ih.1 hstep
    exact ⟨hout.1, hout.2, ih.2.2⟩
  | wilson ρ i hreach hstep ih =>
    rename_i gd gw cs more gw' cs' i'
    have hN := reachableGen_pos hreach
    have hout := wilsonStep_inv dims ρ gw cs i more gw' cs' i' hN ih.2.2 ih.1 hstep
    exact ⟨hout.1, ih.2.1, hout.2⟩

/-- C8: wall symmetry is an invariant of generation: in every grid reachable
from the fully-walled initial grid by generator steps, adjacent cells carry
matching facing wall bits. -/
theorem C8_wall_symmetry {dims : Dimensions} {gd gw cs}
    (h : ReachableGen dims gd gw cs) :
    ∀ a b (d : Direction), a < dims.1 * dims.2 → d.neighbour dims a = some b →
      ((getCell cs a).has_wall d = true ↔ (getCell cs b).has_wall d.opposite = true) := by
  intro a b d ha hnb
  rw [(reachableGen_inv h).1.sym a b d ha hnb]

theorem C8_wall_symmetry_witness :
    (0 : Nat) < (2, 2).1 * (2, 2).2
    ∧ Direction.neighbour .Second (2, 2) 0 = some 1
    ∧ ((getCell (initGrid 4) 0).has_wall .Second = true
        ↔ (getCell (initGrid 4) 1).has_wall (Direction.opposite .Second) = true) := by
  have h4 : (2, 2).1 * (2, 2).2 = 4 := by decide
  exact ⟨by decide, by decide,
    C8_wall_symmetry (h4 ▸ ReachableGen.init (by decide) (by decide)) 0 1 .Second
      (by decide) (by decide)⟩

/-- C9: boundary walls are never removed in any reachable grid; consequently
a direction with no wall always has an in-grid neighbour, so the wall
follower's `expect("should have neighbour")` cannot fire. -/
theorem C9_boundary_walls {dims : Dimensions} {gd gw cs}
    (h : ReachableGen dims gd gw cs) :
    (∀ a (d : Direction), d.neighbour dims a = none → (getCell cs a).has_wall d = true)
    ∧ ∀ a (d : Direction), (getCell cs a).has_wall d = false →
        (d.neighbour dims a).isSome := by
  have hb := (reachableGen_inv h).1.boundary
  refine ⟨hb, ?_⟩
  intro a d hw
  cases hn : d.neighbour dims a with
  | none => rw [hb a d hn] at hw; exact absurd hw (by simp)
  | some n => rfl

theorem C9_boundary_walls_witness :
    ((∀ a (d : Direction), d.neighbour (2, 2) a = none →
        (getCell (initGrid 4) a).has_wall d = true)
      ∧ ∀ a (d : Direction), (getCell (initGrid 4) a).has_wall d = false →
          (d.neighbour (2, 2) a).isSome) := by
  have h4 : (2, 2).1 * (2, 2).2 = 4 := by decide
  exact C9_boundary_walls (h4 ▸ ReachableGen.init (by decide) (by decide))

/-- Grid adjacency (ignoring walls): some direction leads from `a` to `b`. -/
def gridAdj (dims : Dimensions) (a b : Nat) : Prop :=
  ∃ d : Direction, d.neighbour dims a = some b

/-- `a` can pass to `b`: they are adjacent and `a`'s wall towards `b` is
absent. -/
def openTo (dims : Dimensions) (cs : Cells) (a b : Nat) : Bool :=
  DIRECTIONS.any (fun d => d.neighbour dims a == some b && !(getCell cs a).has_wall d)

theorem openTo_iff (dims : Dimensions) (cs : Cells) (a b : Nat) :
    openTo dims cs a b = true ↔
      ∃ d : Direction, d.neighbour dims a = some b ∧ (getCell cs a).has_wall d = false := by
  unfold openTo
  rw [List.any_eq_true]
  constructor
  · rintro ⟨d, -, hd⟩
    simp only [Bool.and_eq_true, beq_iff_eq, Bool.not_eq_true'] at hd
    exact ⟨d, hd.1, hd.2⟩
  · rintro ⟨d, h1, h2⟩
    refine ⟨d, mem_DIRECTIONS d, ?_⟩
    simp only [Bool.and_eq_true, beq_iff_eq, Bool.not_eq_true']
    exact ⟨h1, h2⟩

/-- The wall graph's edge set: unordered pairs of adjacent cells whose shared
wall is absent (both facing bits). -/
def wallEdges (dims : Dimensions) (cs : Cells) : Finset (Nat × Nat) :=
  (Finset.range (dims.1 * dims.2) ×ˢ Finset.range (dims.1 * dims.2)).filter
    (fun p => p.1 < p.2 ∧ openTo dims cs p.1 p.2 = true ∧ openTo dims cs p.2 p.1 = true)

/-- The cells already carved into the maze (`walk` tag set). -/
def visitedF (dims : Dimensions) (cs : Cells) : Finset Nat :=
  (Finset.range (dims.1 * dims.2)).filter (fun a => (getCell cs a).walk.isSome = true)

theorem openTo_setWalk (dims : Dimensions) (cs : Cells) (i : Nat) (w : Option Nat)
    (a b : Nat) : openTo dims (setWalk cs i w) a b = openTo dims cs a b := by
  rw [Bool.eq_iff_iff, openTo_iff, openTo_iff]
  constructor
  · rintro ⟨d, h1, h2⟩
    rw [has_wall_setWalk] at h2
    exact ⟨d, h1, h2⟩
  · rintro ⟨d, h1, h2⟩
    exact ⟨d, h1, (has_wall_setWalk cs i w a d).trans h2⟩

theorem wallEdges_setWalk (dims : Dimensions) (cs : Cells) (i : Nat) (w : Option Nat) :
    wallEdges dims (setWalk cs i w) = wallEdges dims cs := by
  unfold wallEdges
  apply Finset.filter_congr
  intro p _
  simp only [openTo_setWalk]

theorem walk_removeWallPair (cs : Cells) (a b : Nat) (d : Direction) (j : Nat) :
    (getCell (removeWallPair cs a b d) j).walk = (getCell cs j).walk := by
  rw [removeWallPair_eq, getCell_removeWallAt, length_removeWallAt]
  split_ifs with h1
  · rw [walk_remove_wall, getCell_removeWallAt]
    split_ifs with h2
    · rw [walk_remove_wall, h2.1, h1.1]
    · rw [h1.1]
  · rw [getCell_removeWallAt]
    split_ifs with h2
    · rw [walk_remove_wall, h2.1]
    · rfl

theorem visitedF_removeWallPair (dims : Dimensions) (cs : Cells) (a b : Nat) (d : Direction) :
    visitedF dims (removeWallPair cs a b d) = visitedF dims cs := by
  unfold visitedF
  apply Finset.filter_congr
  intro x _
  simp only [walk_removeWallPair]

theorem visitedF_setWalk_some (dims : Dimensions) (cs : Cells) (n k : Nat)
    (hlen : cs.length = dims.1 * dims.2) (hn : n < dims.1 * dims.2) :
    visitedF dims (setWalk cs n (some k)) = insert n (visitedF dims cs) := by
  unfold visitedF
  ext a
  simp only [Finset.mem_insert, Finset.mem_filter, Finset.mem_range]
  rw [getCell_setWalk]
  rcases eq_or_ne a n with rfl | hne
  · rw [if_pos ⟨rfl, hlen ▸ hn⟩]
    simp [hn]
  · rw [if_neg (fun hc => hne hc.1.symm)]
    simp only [hne, false_or]

theorem visitedF_setWalk_none (dims : Dimensions) (cs : Cells) (n : Nat)
    (hlen : cs.length = dims.1 * dims.2) (hn : n < dims.1 * dims.2) :
    visitedF dims (setWalk cs n none) = (visitedF dims cs).erase n := by
  unfold visitedF
  ext a
  simp only [Finset.mem_erase, Finset.mem_filter, Finset.mem_range]
  rw [getCell_setWalk]
  rcases eq_or_ne a n with rfl | hne
  · rw [if_pos ⟨rfl, hlen ▸ hn⟩]
    simp
  · rw [if_neg (fun hc => hne hc.1.symm)]
    simp only [hne, ne_eq, not_false_eq_true, true_and]

theorem openTo_lt (dims : Dimensions) (cs : Cells) (a b : Nat)
    (hlen : cs.length = dims.1 * dims.2) (h : openTo dims cs a b = true) :
    a < dims.1 * dims.2 ∧ b < dims.1 * dims.2 := by
  obtain ⟨d, h1, h2⟩ := (openTo_iff dims cs a b).1 h
  have ha : a < dims.1 * dims.2 := by
    by_contra hge
    have : getCell cs a = {} := by
      unfold getCell
      have hlen2 : cs.length ≤ a := by omega
      rw [List.getD_eq_getElem?_getD, List.getElem?_eq_none hlen2]
      rfl
    rw [this] at h2
    revert h2
    cases d <;> decide
  exact ⟨ha, neighbour_lt dims a b ha d h1⟩

theorem openTo_symm (dims : Dimensions) (cs : Cells) (a b : Nat)
    (hlen : cs.length = dims.1 * dims.2) (hsym : WallSym dims cs)
    (h : openTo dims cs a b = true) : openTo dims cs b a = true := by
  obtain ⟨ha, hb⟩ := openTo_lt dims cs a b hlen h
  obtain ⟨d, h1, h2⟩ := (openTo_iff dims cs a b).1 h
  rw [openTo_iff]
  refine ⟨d.opposite, neighbour_opposite dims a b ha d h1, ?_⟩
  rw [← hsym a b d ha h1]
  exact h2

theorem openTo_removeWallPair_iff (dims : Dimensions) (cs : Cells) (a b : Nat)
    (d : Direction) (hlen : cs.length = dims.1 * dims.2) (ha : a < dims.1 * dims.2)
    (hnb : d.neighbour dims a = some b) (x y : Nat) :
    openTo dims (removeWallPair cs a b d) x y = true ↔
      (openTo dims cs x y = true ∨ (x = a ∧ y = b) ∨ (x = b ∧ y = a)) := by
  have hb : b < dims.1 * dims.2 := neighbour_lt dims a b ha d hnb
  have hba : d.opposite.neighbour dims b = some a := neighbour_opposite dims a b ha d hnb
  have hab : a ≠ b := (neighbour_ne dims a b ha d hnb).symm
  rw [openTo_iff, openTo_iff]
  constructor
  · rintro ⟨d', h1, h2⟩
    rw [← Bool.not_eq_true, has_wall_removeWallPair cs a b d hab] at h2
    by_cases hw : (getCell cs x).has_wall d' = true
    · have hpq : (x = a ∧ d' = d ∧ a < cs.length)
          ∨ (x = b ∧ d' = d.opposite ∧ b < cs.length) := by
        by_contra hno
        exact h2 ⟨hw, (not_or.1 hno).1, (not_or.1 hno).2⟩
      rcases hpq with ⟨rfl, rfl, -⟩ | ⟨rfl, rfl, -⟩
      · exact Or.inr (Or.inl ⟨rfl, (Option.some.inj (hnb.symm.trans h1)).symm⟩)
      · exact Or.inr (Or.inr ⟨rfl, (Option.some.inj (hba.symm.trans h1)).symm⟩)
    · rw [Bool.not_eq_true] at hw
      exact Or.inl ⟨d', h1, hw⟩
  · rintro (⟨d', h1, h2⟩ | ⟨hxa, hyb⟩ | ⟨hxb, hya⟩)
    · refine ⟨d', h1, ?_⟩
      rw [← Bool.not_eq_true, has_wall_removeWallPair cs a b d hab]
      rintro ⟨hc1, -, -⟩
      rw [h2] at hc1
      exact absurd hc1 (by simp)
    · rw [hxa, hyb]
      refine ⟨d, hnb, ?_⟩
      rw [← Bool.not_eq_true, has_wall_removeWallPair cs a b d hab]
      rintro ⟨-, hc2, -⟩
      exact hc2 ⟨rfl, rfl, hlen ▸ ha⟩
    · rw [hxb, hya]
      refine ⟨d.opposite, hba, ?_⟩
      rw [← Bool.not_eq_true, has_wall_removeWallPair cs a b d hab]
      rintro ⟨-, -, hc3⟩
      exact hc3 ⟨rfl, rfl, hlen ▸ hb⟩

theorem mem_wallEdges (dims : Dimensions) (cs : Cells) (x y : Nat) :
    (x, y) ∈ wallEdges dims cs ↔
      x < dims.1 * dims.2 ∧ y < dims.1 * dims.2 ∧ x < y
        ∧ openTo dims cs x y = true ∧ openTo dims cs y x = true := by
  unfold wallEdges
  simp only [Finset.mem_filter, Finset.mem_product, Finset.mem_range]
  tauto

theorem wallEdges_removeWallPair (dims : Dimensions) (cs : Cells) (a b : Nat)
    (d : Direction) (hlen : cs.length = dims.1 * dims.2) (ha : a < dims.1 * dims.2)
    (hnb : d.neighbour dims a = some b) :
    wallEdges dims (removeWallPair cs a b d) =
      insert (min a b, max a b) (wallEdges dims cs) := by
  have hb : b < dims.1 * dims.2 := neighbour_lt dims a b ha d hnb
  have hab : a ≠ b := (neighbour_ne dims a b ha d hnb).symm
  ext p
  obtain ⟨x, y⟩ := p
  rw [Finset.mem_insert, mem_wallEdges, mem_wallEdges, Prod.mk.injEq]
  rw [openTo_removeWallPair_iff dims cs a b d hlen ha hnb x y,
    openTo_removeWallPair_iff dims cs a b d hlen ha hnb y x]
  constructor
  · rintro ⟨hx, hy, hxy, h1, h2⟩
    rcases h1 with h1 | ⟨rfl, rfl⟩ | ⟨rfl, rfl⟩
    · rcases h2 with h2 | ⟨rfl, rfl⟩ | ⟨rfl, rfl⟩
      · exact Or.inr ⟨hx, hy, hxy, h1, h2⟩
      · exact Or.inl ⟨by omega, by omega⟩
      · exact Or.inl ⟨by omega, by omega⟩
    · exact Or.inl ⟨by omega, by omega⟩
    · exact Or.inl ⟨by omega, by omega⟩
  · rintro (⟨hx, hy⟩ | ⟨hx, hy, hxy, h1, h2⟩)
    · rcases Nat.lt_or_ge a b with hlt | hge
      · have hxa : x = a := by omega
        have hyb : y = b := by omega
        subst hxa
        subst hyb
        exact ⟨ha, hb, hlt, Or.inr (Or.inl ⟨rfl, rfl⟩), Or.inr (Or.inr ⟨rfl, rfl⟩)⟩
      · have hxb : x = b := by omega
        have hya : y = a := by omega
        subst hxb
        subst hya
        have hlt : x < y := by omega
        exact ⟨hb, ha, hlt, Or.inr (Or.inr ⟨rfl, rfl⟩), Or.inr (Or.inl ⟨rfl, rfl⟩)⟩
    · exact ⟨hx, hy, hxy, Or.inl h1, Or.inl h2⟩

theorem wallEdges_initGrid (dims : Dimensions) :
    wallEdges dims (initGrid (dims.1 * dims.2)) = ∅ := by
  ext p
  obtain ⟨x, y⟩ := p
  rw [mem_wallEdges]
  simp only [Finset.not_mem_empty, iff_false]
  rintro ⟨-, -, -, h1, -⟩
  obtain ⟨d, -, hw⟩ := (openTo_iff _ _ _ _).1 h1
  rw [getCell_initGrid] at hw
  revert hw
  cases d <;> decide

/-- \"Tree grown by leaves\": the shape in which both generators build their
spanning tree — start from one root and repeatedly attach a fresh cell to a
tree cell along a grid adjacency.  The edge set collects the normalised
carved pairs. -/
inductive TreeOn (adj : Nat → Nat → Prop) : Finset Nat → Finset (Nat × Nat) → Prop
  | single (r : Nat) : TreeOn adj {r} ∅
  | extend {V E} (x v : Nat) : TreeOn adj V E → v ∈ V → x ∉ V → adj x v →
      TreeOn adj (insert x V) (insert (min x v, max x v) E)

theorem TreeOn.edge_mem {adj : Nat → Nat → Prop} {V : Finset Nat} {E : Finset (Nat × Nat)}
    (h : TreeOn adj V E) : ∀ e ∈ E, e.1 ∈ V ∧ e.2 ∈ V ∧ e.1 < e.2 := by
  induction h with
  | single r => simp
  | @extend V' E' x v htree hv hx hadj ih =>
    intro e he
    rcases Finset.mem_insert.1 he with rfl | he2
    · have hxv : x ≠ v := fun hc => hx (hc ▸ hv)
      refine ⟨?_, ?_, ?_⟩
      · rcases Nat.le_total x v with hle | hle
        · rw [Nat.min_eq_left hle]
          exact Finset.mem_insert_self x V'
        · rw [Nat.min_eq_right hle]
          exact Finset.mem_insert_of_mem hv
      · rcases Nat.le_total x v with hle | hle
        · rw [Nat.max_eq_right hle]
          exact Finset.mem_insert_of_mem hv
        · rw [Nat.max_eq_left hle]
          exact Finset.mem_insert_self x V'
      · show min x v < max x v
        omega
    · have hm := ih e he2
      exact ⟨Finset.mem_insert_of_mem hm.1, Finset.mem_insert_of_mem hm.2.1, hm.2.2⟩

theorem TreeOn.vertex_nonempty {adj : Nat → Nat → Prop} {V : Finset Nat}
    {E : Finset (Nat × Nat)} (h : TreeOn adj V E) : V.Nonempty := by
  induction h with
  | single r => exact ⟨r, Finset.mem_singleton_self r⟩
  | @extend V' E' x v htree hv hx hadj ih => exact ⟨x, Finset.mem_insert_self x V'⟩

theorem TreeOn.card_eq {adj : Nat → Nat → Prop} {V : Finset Nat} {E : Finset (Nat × Nat)}
    (h : TreeOn adj V E) : E.card + 1 = V.card := by
  induction h with
  | single r => simp
  | @extend V' E' x v htree hv hx hadj ih =>
    have hnot : (min x v, max x v) ∉ E' := by
      intro hc
      have hm := htree.edge_mem _ hc
      rcases Nat.le_total x v with hle | hle
      · rw [Nat.min_eq_left hle] at hm
        exact hx hm.1
      · rw [Nat.max_eq_left hle] at hm
        exact hx hm.2.1
    rw [Finset.card_insert_of_not_mem hnot, Finset.card_insert_of_not_mem hx]
    omega

/-- The symmetric step relation generated by an edge set. -/
def erel (E : Finset (Nat × Nat)) (a b : Nat) : Prop := (a, b) ∈ E ∨ (b, a) ∈ E

theorem erel_symm {E : Finset (Nat × Nat)} {a b : Nat} (h : erel E a b) : erel E b a :=
  h.symm

theorem erel_mono {E E' : Finset (Nat × Nat)} (hsub : E ⊆ E') {a b : Nat}
    (h : erel E a b) : erel E' a b := by
  rcases h with h | h
  · exact Or.inl (hsub h)
  · exact Or.inr (hsub h)

theorem TreeOn.connected {adj : Nat → Nat → Prop} {V : Finset Nat} {E : Finset (Nat × Nat)}
    (h : TreeOn adj V E) :
    ∀ a ∈ V, ∀ b ∈ V, Relation.ReflTransGen (erel E) a b := by
  induction h with
  | single r =>
    intro a ha b hb
    simp only [Finset.mem_singleton] at ha hb
    rw [ha, hb]
  | @extend V' E' x v htree hv hx hadj ih =>
    have hstep : Relation.ReflTransGen (erel (insert (min x v, max x v) E')) x v := by
      apply Relation.ReflTransGen.single
      rcases Nat.le_total x v with hle | hle
      · exact Or.inl (by rw [Nat.min_eq_left hle, Nat.max_eq_right hle]; exact
          Finset.mem_insert_self _ _)
      · exact Or.inr (by rw [Nat.min_eq_right hle, Nat.max_eq_left hle]; exact
          Finset.mem_insert_self _ _)
    intro a ha b hb
    have lift : ∀ {c e : Nat}, Relation.ReflTransGen (erel E') c e →
        Relation.ReflTransGen (erel (insert (min x v, max x v) E')) c e := by
      intro c e hce
      exact Relation.ReflTransGen.mono (fun p q hpq =>
        erel_mono (Finset.subset_insert _ E') hpq) hce
    rcases Finset.mem_insert.1 ha with hax | ha2
    · subst hax
      rcases Finset.mem_insert.1 hb with hbx | hb2
      · subst hbx
        exact Relation.ReflTransGen.refl
      · exact hstep.trans (lift (ih v hv b hb2))
    · rcases Finset.mem_insert.1 hb with hbx | hb2
      · rw [hbx]
        exact (lift (ih a ha2 v hv)).trans
          (by
            apply Relation.ReflTransGen.single
            rcases Nat.le_total x v with hle | hle
            · exact Or.inr (by rw [Nat.min_eq_left hle, Nat.max_eq_right hle]; exact
                Finset.mem_insert_self _ _)
            · exact Or.inl (by rw [Nat.min_eq_right hle, Nat.max_eq_left hle]; exact
                Finset.mem_insert_self _ _))
      · exact lift (ih a ha2 b hb2)

/-- A simple path between two cells: nonempty vertex list, ends at the two
cells, consecutive entries related, no repeats. -/
def IsPathL (R : Nat → Nat → Prop) (p : List Nat) (a b : Nat) : Prop :=
  p.head? = some a ∧ p.getLast? = some b ∧ List.Chain' R p ∧ p.Nodup

/-- A simple cycle: at least three distinct cells, consecutive entries
related, and an edge closing last to first. -/
def IsCycleL (R : Nat → Nat → Prop) (p : List Nat) : Prop :=
  3 ≤ p.length ∧ p.Nodup ∧ List.Chain' R p ∧
    ∃ l ∈ p.getLast?, ∃ h ∈ p.head?, R l h

theorem chain'_restrict {R S : Nat → Nat → Prop} {p : List Nat}
    (himp : ∀ a ∈ p, ∀ b ∈ p, R a b → S a b) (h : List.Chain' R p) :
    List.Chain' S p := by
  rw [List.chain'_iff_get] at h ⊢
  intro i hi
  exact himp _ (List.get_mem p _ _) _ (List.get_mem p _ _) (h i hi)

theorem isPathL_reverse {R : Nat → Nat → Prop} (hsymm : ∀ a b, R a b → R b a)
    {p : List Nat} {a b : Nat} (h : IsPathL R p a b) : IsPathL R p.reverse b a := by
  obtain ⟨h1, h2, h3, h4⟩ := h
  refine ⟨?_, ?_, ?_, List.nodup_reverse.2 h4⟩
  · rw [List.head?_reverse]
    exact h2
  · rw [List.getLast?_eq_head?_reverse, List.reverse_reverse]
    exact h1
  · rw [List.chain'_reverse]
    exact h3.imp (fun a b hab => hsymm a b hab)

theorem get_zero_of_head? {p : List Nat} {a : Nat} (h : p.head? = some a)
    (hn : 0 < p.length) : p.get ⟨0, hn⟩ = a := by
  cases p with
  | nil => simp at h
  | cons hd t =>
    simp only [List.head?_cons, Option.some.injEq] at h
    simpa using h

theorem get_last_of_getLast? {p : List Nat} {b : Nat} (h : p.getLast? = some b)
    (hn : p.length - 1 < p.length) : p.get ⟨p.length - 1, hn⟩ = b := by
  rw [List.getLast?_eq_getElem?] at h
  rw [List.getElem?_eq_getElem hn] at h
  simpa using h

theorem isPathL_eq_singleton {R : Nat → Nat → Prop} {p : List Nat} {x : Nat}
    (h : IsPathL R p x x) : p = [x] := by
  obtain ⟨h1, h2, h3, h4⟩ := h
  have hn : 0 < p.length := by
    cases p with
    | nil => simp at h1
    | cons hd t => simp
  rcases Nat.eq_or_lt_of_le hn with h1len | h2len
  · obtain ⟨c, hc⟩ := List.length_eq_one.1 h1len.symm
    subst hc
    simp only [List.head?_cons, Option.some.injEq] at h1
    rw [h1]
  · exfalso
    have hb1 : p.length - 1 < p.length := by omega
    have hz := get_zero_of_head? h1 hn
    have hl := get_last_of_getLast? h2 hb1
    have hinj := List.nodup_iff_injective_get.1 h4
    have hgeteq : p.get ⟨0, hn⟩ = p.get ⟨p.length - 1, hb1⟩ := by rw [hz, hl]
    have hval : 0 = p.length - 1 := congrArg Fin.val (hinj hgeteq)
    omega

theorem isPathL_cons_decomp {R : Nat → Nat → Prop} {p : List Nat} {a b : Nat}
    (h : IsPathL R p a b) (hab : a ≠ b) :
    ∃ c t, p = a :: t ∧ t.head? = some c ∧ R a c ∧ IsPathL R t c b ∧ a ∉ t := by
  obtain ⟨h1, h2, h3, h4⟩ := h
  cases p with
  | nil => simp at h1
  | cons hd t =>
    simp only [List.head?_cons, Option.some.injEq] at h1
    subst h1
    cases t with
    | nil =>
      simp only [List.getLast?_singleton, Option.some.injEq] at h2
      exact absurd h2 hab
    | cons c t' =>
      rw [List.chain'_cons] at h3
      rw [List.getLast?_cons_cons] at h2
      have hnc := List.nodup_cons.1 h4
      exact ⟨c, c :: t', rfl, rfl, h3.1, ⟨rfl, h2, h3.2, hnc.2⟩, hnc.1⟩

theorem erel_insert_leaf {adj : Nat → Nat → Prop} {V : Finset Nat} {E : Finset (Nat × Nat)}
    (htree : TreeOn adj V E) {x v : Nat} (hx : x ∉ V) (hxv : x ≠ v) :
    ∀ y, erel (insert (min x v, max x v) E) x y → y = v := by
  intro y h
  rcases h with h | h
  · rcases Finset.mem_insert.1 h with heq | hmem
    · rcases Nat.le_total x v with hle | hle
      · rw [Nat.min_eq_left hle, Nat.max_eq_right hle] at heq
        exact (Prod.mk.inj heq).2
      · rw [Nat.min_eq_right hle, Nat.max_eq_left hle] at heq
        exact absurd (Prod.mk.inj heq).1 hxv
    · exact absurd (htree.edge_mem _ hmem).1 hx
  · rcases Finset.mem_insert.1 h with heq | hmem
    · rcases Nat.le_total x v with hle | hle
      · rw [Nat.min_eq_left hle, Nat.max_eq_right hle] at heq
        exact absurd (Prod.mk.inj heq).2 hxv
      · rw [Nat.min_eq_right hle, Nat.max_eq_left hle] at heq
        exact (Prod.mk.inj heq).1
    · exact absurd (htree.edge_mem _ hmem).2.1 hx

theorem erel_insert_down {E : Finset (Nat × Nat)} {x v c e : Nat}
    (hc : c ≠ x) (he : e ≠ x) (h : erel (insert (min x v, max x v) E) c e) :
    erel E c e := by
  rcases h with h | h
  · rcases Finset.mem_insert.1 h with heq | hmem
    · exfalso
      rcases Nat.le_total x v with hle | hle
      · rw [Nat.min_eq_left hle] at heq
        exact hc (Prod.mk.inj heq).1
      · rw [Nat.max_eq_left hle] at heq
        exact he (Prod.mk.inj heq).2
    · exact Or.inl hmem
  · rcases Finset.mem_insert.1 h with heq | hmem
    · exfalso
      rcases Nat.le_total x v with hle | hle
      · rw [Nat.min_eq_left hle] at heq
        exact he (Prod.mk.inj heq).1
      · rw [Nat.max_eq_left hle] at heq
        exact hc (Prod.mk.inj heq).2
    · exact Or.inr hmem

set_option maxHeartbeats 1000000 in
theorem isPathL_not_interior {E'' : Finset (Nat × Nat)} {x v : Nat}
    (huniq : ∀ y, erel E'' x y → y = v) {p : List Nat} {a b : Nat}
    (hp : IsPathL (erel E'') p a b) (hx : x ∈ p) : x = a ∨ x = b := by
  obtain ⟨h1, h2, h3, h4⟩ := hp
  obtain ⟨i, hi⟩ := List.mem_iff_get.1 hx
  have hilt := i.isLt
  have hn : 0 < p.length := Nat.lt_of_le_of_lt (Nat.zero_le _) i.isLt
  by_cases hi0 : i.val = 0
  · left
    rw [← hi, ← get_zero_of_head? h1 hn]
    congr 1
    exact Fin.ext hi0
  · by_cases hiN : i.val = p.length - 1
    · right
      rw [← hi, ← get_last_of_getLast? h2 (by omega)]
      congr 1
      exact Fin.ext hiN
    · exfalso
      have hgets := List.chain'_iff_get.1 h3
      have hR1 := hgets (i.val - 1) (by omega)
      have hR2 := hgets i.val (by omega)
      have hfix : (⟨i.val - 1 + 1, by omega⟩ : Fin p.length) = i :=
        Fin.ext (by show i.val - 1 + 1 = i.val; omega)
      rw [hfix, hi] at hR1
      have hfix2 : (⟨i.val, by omega⟩ : Fin p.length) = i := Fin.ext rfl
      rw [hfix2, hi] at hR2
      have hb1 : i.val - 1 < p.length := by omega
      have hb2 : i.val + 1 < p.length := by omega
      have hv1 : p.get ⟨i.val - 1, hb1⟩ = v := huniq _ (erel_symm hR1)
      have hv2 : p.get ⟨i.val + 1, hb2⟩ = v := huniq _ hR2
      have hinj := List.nodup_iff_injective_get.1 h4
      have hgeteq : p.get ⟨i.val - 1, hb1⟩ = p.get ⟨i.val + 1, hb2⟩ := by rw [hv1, hv2]
      have hval : i.val - 1 = i.val + 1 := congrArg Fin.val (hinj hgeteq)
      omega

theorem TreeOn.path_unique {adj : Nat → Nat → Prop} {V : Finset Nat} {E : Finset (Nat × Nat)}
    (h : TreeOn adj V E) :
    ∀ a b p q, IsPathL (erel E) p a b → IsPathL (erel E) q a b → p = q := by
  induction h with
  | single r =>
    intro a b p q hp hq
    have hempty : ∀ c e : Nat, ¬erel (∅ : Finset (Nat × Nat)) c e := by
      rintro c e (hmem | hmem) <;> simp at hmem
    have hform : ∀ r' : List Nat, IsPathL (erel (∅ : Finset (Nat × Nat))) r' a b → r' = [a] := by
      intro r' hr
      obtain ⟨h1, h2, h3, h4⟩ := hr
      cases r' with
      | nil => simp at h1
      | cons hd t =>
        simp only [List.head?_cons, Option.some.injEq] at h1
        subst h1
        cases t with
        | nil => rfl
        | cons c t' =>
          rw [List.chain'_cons] at h3
          exact absurd h3.1 (hempty hd c)
    rw [hform p hp, hform q hq]
  | @extend V' E' x v htree hv hx hadj ih =>
    intro a b p q hp hq
    have hxv : x ≠ v := fun hc => hx (hc ▸ hv)
    have huniq : ∀ y, erel (insert (min x v, max x v) E') x y → y = v :=
      erel_insert_leaf htree hx hxv
    have hdown : ∀ {r' : List Nat} {c e : Nat}, x ∉ r' →
        IsPathL (erel (insert (min x v, max x v) E')) r' c e → IsPathL (erel E') r' c e := by
      intro r' c e hxr hr
      obtain ⟨h1, h2, h3, h4⟩ := hr
      refine ⟨h1, h2, ?_, h4⟩
      refine chain'_restrict ?_ h3
      intro a1 ha1 b1 hb1 hab1
      have ha1x : a1 ≠ x := fun heq => hxr (heq ▸ ha1)
      have hb1x : b1 ≠ x := fun heq => hxr (heq ▸ hb1)
      exact erel_insert_down ha1x hb1x hab1
    have main2 : ∀ b' p' q', IsPathL (erel (insert (min x v, max x v) E')) p' x b' →
        IsPathL (erel (insert (min x v, max x v) E')) q' x b' → p' = q' := by
      intro b' p' q' hp' hq'
      by_cases hbx : b' = x
      · rw [hbx] at hp' hq'
        rw [isPathL_eq_singleton hp', isPathL_eq_singleton hq']
      · obtain ⟨c1, t1, he1, hh1, hr1, ht1, hnx1⟩ :=
          isPathL_cons_decomp hp' (fun heq => hbx heq.symm)
        obtain ⟨c2, t2, he2, hh2, hr2, ht2, hnx2⟩ :=
          isPathL_cons_decomp hq' (fun heq => hbx heq.symm)
        have hc1 : c1 = v := huniq c1 hr1
        have hc2 : c2 = v := huniq c2 hr2
        have hq1 : IsPathL (erel E') t1 v b' := hdown hnx1 (hc1 ▸ ht1)
        have hq2 : IsPathL (erel E') t2 v b' := hdown hnx2 (hc2 ▸ ht2)
        rw [he1, he2, ih v b' t1 t2 hq1 hq2]
    by_cases hax : a = x
    · rw [hax] at hp hq
      exact main2 b p q hp hq
    · by_cases hbx : b = x
      · have hp' := isPathL_reverse (fun c e hce => erel_symm hce) hp
        have hq' := isPathL_reverse (fun c e hce => erel_symm hce) hq
        rw [hbx] at hp' hq'
        exact List.reverse_injective (main2 a _ _ hp' hq')
      · have hxp : x ∉ p := by
          intro hmem
          rcases isPathL_not_interior huniq hp hmem with heq | heq
          · exact hax heq.symm
          · exact hbx heq.symm
        have hxq : x ∉ q := by
          intro hmem
          rcases isPathL_not_interior huniq hq hmem with heq | heq
          · exact hax heq.symm
          · exact hbx heq.symm
        exact ih a b p q (hdown hxp hp) (hdown hxq hq)

theorem TreeOn.acyclic {adj : Nat → Nat → Prop} {V : Finset Nat} {E : Finset (Nat × Nat)}
    (h : TreeOn adj V E) : ∀ p, ¬IsCycleL (erel E) p := by
  intro p hcyc
  obtain ⟨hlen, hnodup, hchain, l', hl', h', hh', hedge⟩ := hcyc
  rw [Option.mem_def] at hl' hh'
  have hn : 0 < p.length := by omega
  have hz := get_zero_of_head? hh' hn
  have hl := get_last_of_getLast? hl' (by omega)
  have hne : h' ≠ l' := by
    intro heq
    have hb1 : p.length - 1 < p.length := by omega
    have hinj := List.nodup_iff_injective_get.1 hnodup
    have hgeteq : p.get ⟨0, hn⟩ = p.get ⟨p.length - 1, hb1⟩ := by
      rw [hz]
      rw [get_last_of_getLast? hl' hb1]
      exact heq
    have hval : 0 = p.length - 1 := congrArg Fin.val (hinj hgeteq)
    omega
  have hp1 : IsPathL (erel E) p h' l' := ⟨hh', hl', hchain, hnodup⟩
  have hp2 : IsPathL (erel E) [h', l'] h' l' := by
    refine ⟨rfl, rfl, ?_, ?_⟩
    · rw [List.chain'_cons]
      exact ⟨erel_symm hedge, List.chain'_singleton l'⟩
    · simp [hne]
  have := h.path_unique h' l' p [h', l'] hp1 hp2
  rw [this] at hlen
  simp at hlen

theorem gridAdj_down (dims : Dimensions) (a : Nat) (ha : a < dims.1 * dims.2)
    (hpos : 1 ≤ a) : (a % dims.1 ≠ 0 → gridAdj dims a (a - 1))
      ∧ (a % dims.1 = 0 → dims.1 ≤ a ∧ gridAdj dims a (a - dims.1)) := by
  constructor
  · intro hmod
    exact ⟨.Forth, by rw [neighbour_forth_iff]; exact ⟨⟨hpos, hmod⟩, rfl⟩⟩
  · intro hmod
    have hdvd : dims.1 ∣ a := Nat.dvd_of_mod_eq_zero hmod
    have hle : dims.1 ≤ a := Nat.le_of_dvd (by omega) hdvd
    exact ⟨hle, .First, by rw [neighbour_first_iff]; exact ⟨hle, rfl⟩⟩

theorem gridAdj_up (dims : Dimensions) (b : Nat) (hb : b < dims.1 * dims.2)
    (hpos : 1 ≤ b) : (b % dims.1 ≠ 0 → gridAdj dims (b - 1) b)
      ∧ (b % dims.1 = 0 → dims.1 ≤ b ∧ gridAdj dims (b - dims.1) b) := by
  constructor
  · intro hmod
    refine ⟨.Second, ?_⟩
    rw [neighbour_second_iff]
    constructor
    · rw [Nat.sub_add_cancel hpos]
      exact hmod
    · omega
  · intro hmod
    have hdvd : dims.1 ∣ b := Nat.dvd_of_mod_eq_zero hmod
    have hle : dims.1 ≤ b := Nat.le_of_dvd (by omega) hdvd
    refine ⟨hle, .Third, ?_⟩
    rw [neighbour_third_iff]
    omega

/-- A nonempty set of cells closed under grid adjacency is the whole grid. -/
theorem closed_eq_range (dims : Dimensions) (S : Finset Nat)
    (hne : S.Nonempty) (hsub : ∀ c ∈ S, c < dims.1 * dims.2)
    (hclosed : ∀ c ∈ S, ∀ n, gridAdj dims c n → n ∈ S) :
    ∀ b < dims.1 * dims.2, b ∈ S := by
  have hzero : (0 : Nat) ∈ S := by
    obtain ⟨a, hamem⟩ := hne
    have hlt := hsub a hamem
    induction a using Nat.strong_induction_on with
    | _ a ih =>
      rcases Nat.eq_zero_or_pos a with rfl | hpos
      · exact hamem
      · by_cases hmod : a % dims.1 = 0
        · obtain ⟨hle, hadj⟩ := (gridAdj_down dims a hlt hpos).2 hmod
          have hmem2 := hclosed a hamem _ hadj
          have hpos1 : 1 ≤ dims.1 := by
            by_contra hc
            have h0 : dims.1 = 0 := by omega
            rw [h0, Nat.zero_mul] at hlt
            omega
          exact ih (a - dims.1) (by omega) hmem2 (hsub _ hmem2)
        · have hadj := (gridAdj_down dims a hlt hpos).1 hmod
          have hmem2 := hclosed a hamem _ hadj
          exact ih (a - 1) (by omega) hmem2 (hsub _ hmem2)
  intro b hb
  induction b using Nat.strong_induction_on with
  | _ b ih =>
    rcases Nat.eq_zero_or_pos b with rfl | hpos
    · exact hzero
    · by_cases hmod : b % dims.1 = 0
      · obtain ⟨hle, hadj⟩ := (gridAdj_up dims b hb hpos).2 hmod
        have hpos1 : 1 ≤ dims.1 := by
          by_contra hc
          have h0 : dims.1 = 0 := by omega
          rw [h0, Nat.zero_mul] at hb
          omega
        have hmem2 := ih (b - dims.1) (by omega) (by omega)
        exact hclosed _ hmem2 b hadj
      · have hadj := (gridAdj_up dims b hb hpos).1 hmod
        have hmem2 := ih (b - 1) (by omega) (by omega)
        exact hclosed _ hmem2 b hadj

/-- Run a generator to completion: iterate `step` until it returns false,
yielding the final grid.  `none`: panic or out of fuel. -/
def dfsGenRun (dims : Dimensions) (ρ : Nat → Nat) : Nat → GenDFS → Cells → Nat → Option Cells
  | 0, _, _, _ => none
  | fuel + 1, g, cs, i =>
    match dfsGenStep dims ρ g cs i with
    | none => none
    | some (more, g', cs', i') => if more then dfsGenRun dims ρ fuel g' cs' i' else some cs'

/-- Run Wilson's generator to completion. -/
def wilsonRun (dims : Dimensions) (ρ : Nat → Nat) : Nat → GenWilson → Cells → Nat → Option Cells
  | 0, _, _, _ => none
  | fuel + 1, g, cs, i =>
    match wilsonStep dims ρ g cs i with
    | none => none
    | some (more, g', cs', i') => if more then wilsonRun dims ρ fuel g' cs' i' else some cs'

theorem mem_visitedF (dims : Dimensions) (cs : Cells) (a : Nat) :
    a ∈ visitedF dims cs ↔ a < dims.1 * dims.2 ∧ (getCell cs a).walk.isSome = true := by
  unfold visitedF
  simp [Finset.mem_filter, Finset.mem_range]

theorem visitedF_initGrid (dims : Dimensions) :
    visitedF dims (initGrid (dims.1 * dims.2)) = ∅ := by
  ext a
  rw [mem_visitedF, getCell_initGrid]
  simp

/-- The mid-run invariant of the DFS generator. -/
structure DFSInv (dims : Dimensions) (g : GenDFS) (cs : Cells) : Prop where
  base : GenInvariant dims cs
  tree : TreeOn (gridAdj dims) (visitedF dims cs) (wallEdges dims cs)
  stack_mem : ∀ c ∈ g.stack, c ∈ visitedF dims cs
  closed : ∀ c ∈ visitedF dims cs, c ∉ g.stack → ∀ n, gridAdj dims c n → n ∈ visitedF dims cs
  init_true : g.initialised = true

theorem dfsGenLoop_inv_full (dims : Dimensions) (ρ : Nat → Nat) (stack : List Nat)
    (i : Nat) (cs : Cells) (more : Bool) (g' : GenDFS) (cs' : Cells) (i' : Nat)
    (hstack_mem : ∀ c ∈ stack, c ∈ visitedF dims cs)
    (hclosed : ∀ c ∈ visitedF dims cs, c ∉ stack → ∀ n, gridAdj dims c n → n ∈ visitedF dims cs)
    (hbase : GenInvariant dims cs)
    (htree : TreeOn (gridAdj dims) (visitedF dims cs) (wallEdges dims cs))
    (h : dfsGenLoop dims ρ stack i cs = some (more, g', cs', i')) :
    (more = true → DFSInv dims g' cs')
    ∧ (more = false → cs' = cs ∧
        ∀ c ∈ visitedF dims cs, ∀ n, gridAdj dims c n → n ∈ visitedF dims cs) := by
  induction stack generalizing cs with
  | nil =>
    unfold dfsGenLoop at h
    simp only [Option.some.injEq, Prod.mk.injEq] at h
    obtain ⟨hmore, -, hcs, -⟩ := h
    constructor
    · intro ht
      rw [ht] at hmore
      exact absurd hmore.symm (by simp)
    · intro _
      rw [← hcs]
      exact ⟨rfl, fun c hc n hadj => hclosed c hc (by simp) n hadj⟩
  | cons cell rest ih =>
    have hcellv : cell ∈ visitedF dims cs := hstack_mem cell (List.mem_cons_self cell rest)
    have hcell : cell < dims.1 * dims.2 := ((mem_visitedF dims cs cell).1 hcellv).1
    have hrest_mem : ∀ c ∈ rest, c ∈ visitedF dims cs :=
      fun c hc => hstack_mem c (List.mem_cons_of_mem cell hc)
    unfold dfsGenLoop at h
    cases hn : unvisitedNeighbours dims cs cell with
    | nil =>
      rw [hn] at h
      have hclosed2 : ∀ c ∈ visitedF dims cs, c ∉ rest →
          ∀ n, gridAdj dims c n → n ∈ visitedF dims cs := by
        intro c hc hcr n hadj
        by_cases hceq : c = cell
        · subst hceq
          obtain ⟨d0, hd0⟩ := hadj
          have hnmem : n ∈ allNeighbours dims c := (mem_allNeighbours dims c n).2 ⟨d0, hd0⟩
          rw [mem_visitedF]
          refine ⟨neighbour_lt dims c n hcell d0 hd0, ?_⟩
          by_contra hwn
          have : n ∈ unvisitedNeighbours dims cs c := by
            unfold unvisitedNeighbours
            rw [List.mem_filter]
            refine ⟨hnmem, ?_⟩
            simp only [Option.isNone_iff_eq_none]
            cases hcase : (getCell cs n).walk with
            | none => rfl
            | some k => exact absurd (by rw [hcase]; rfl) hwn
          rw [hn] at this
          simp at this
        · exact hclosed c hc (by
            intro hmem
            rcases List.mem_cons.1 hmem with heq | hmem2
            · exact hceq heq
            · exact hcr hmem2) n hadj
      exact ih cs hrest_mem hclosed2 hbase htree h
    | cons nb nbs =>
      rw [hn] at h
      dsimp only at h
      have hmem : (nb :: nbs).getD (pick ρ i (nb :: nbs).length) 0
          ∈ unvisitedNeighbours dims cs cell := by
        rw [hn]
        exact listGetD_mem 0 (Nat.mod_lt _ (by simp))
      obtain ⟨⟨d0, hd0⟩, hwalk0⟩ := mem_unvisitedNeighbours dims cs cell _ hmem
      have hlt : (nb :: nbs).getD (pick ρ i (nb :: nbs).length) 0 < dims.1 * dims.2 :=
        neighbour_lt dims cell _ hcell d0 hd0
      cases hb : Direction.between dims cell ((nb :: nbs).getD (pick ρ i (nb :: nbs).length) 0) with
      | none => rw [hb] at h; exact absurd h (by simp)
      | some d =>
        rw [hb] at h
        simp only [Option.some.injEq, Prod.mk.injEq] at h
        obtain ⟨hmore, hg, hcs, -⟩ := h
        have hdn := neighbour_of_between dims cell _ hlt d hb
        constructor
        swap
        · intro hf
          rw [hf] at hmore
          exact absurd hmore.symm (by simp)
        intro _
        set nbr := (nb :: nbs).getD (pick ρ i (nb :: nbs).length) 0 with hnbr
        have hnotv : nbr ∉ visitedF dims cs := by
          rw [mem_visitedF]
          intro hc
          rw [hwalk0] at hc
          simp at hc
        have hvis' : visitedF dims cs' = insert nbr (visitedF dims cs) := by
          rw [← hcs, visitedF_removeWallPair,
            visitedF_setWalk_some dims cs nbr 0 hbase.len hlt]
        have hlen1 : (setWalk cs nbr (some 0)).length = dims.1 * dims.2 :=
          (length_setWalk cs nbr (some 0)).trans hbase.len
        have hedge' : wallEdges dims cs' = insert (min cell nbr, max cell nbr)
            (wallEdges dims cs) := by
          rw [← hcs, wallEdges_removeWallPair dims _ cell nbr d hlen1 hcell hdn,
            wallEdges_setWalk]
        refine ⟨?_, ?_, ?_, ?_, ?_⟩
        · rw [← hcs]
          exact genInvariant_removeWallPair dims _ cell nbr d hcell hdn
            (genInvariant_setWalk dims cs nbr (some 0) hbase)
        · rw [hvis', hedge']
          have hadjx : gridAdj dims nbr cell :=
            ⟨d0.opposite, neighbour_opposite dims cell nbr hcell d0 hd0⟩
          have := TreeOn.extend nbr cell htree hcellv hnotv hadjx
          rwa [Nat.min_comm nbr cell, Nat.max_comm nbr cell] at this
        · rw [← hg]
          intro c hc
          rw [hvis']
          simp only [Finset.mem_insert]
          rcases List.mem_cons.1 hc with heq | hc2
          · exact Or.inl heq
          · rcases List.mem_cons.1 hc2 with heq | hc3
            · exact Or.inr (heq ▸ hcellv)
            · exact Or.inr (hrest_mem c hc3)
        · rw [← hg]
          intro c hc hcs2 n hadj
          rw [hvis'] at hc ⊢
          simp only [Finset.mem_insert] at hc
          rcases hc with heq | hc2
          · exfalso
            apply hcs2
            rw [heq]
            exact List.mem_cons_self nbr _
          · refine Finset.mem_insert_of_mem ?_
            refine hclosed c hc2 ?_ n hadj
            intro hmem
            rcases List.mem_cons.1 hmem with heq | hmem2
            · exact hcs2 (by rw [← hg] at *; exact (by
                simp only [List.mem_cons]
                exact Or.inr (Or.inl heq)))
            · exact hcs2 (by
                simp only [List.mem_cons]
                exact Or.inr (Or.inr hmem2))
        · rw [← hg]

theorem openTo_erel (dims : Dimensions) (cs : Cells) (hlen : cs.length = dims.1 * dims.2)
    (hsym : WallSym dims cs) {x y : Nat} (h : openTo dims cs x y = true) :
    erel (wallEdges dims cs) x y := by
  obtain ⟨hx, hy⟩ := openTo_lt dims cs x y hlen h
  have hyx := openTo_symm dims cs x y hlen hsym h
  have hne : y ≠ x := by
    obtain ⟨d, hd, -⟩ := (openTo_iff dims cs x y).1 h
    exact neighbour_ne dims x y hx d hd
  rcases Nat.lt_or_ge x y with hlt | hge
  · exact Or.inl ((mem_wallEdges dims cs x y).2 ⟨hx, hy, hlt, h, hyx⟩)
  · have hlt : y < x := by omega
    exact Or.inr ((mem_wallEdges dims cs y x).2 ⟨hy, hx, hlt, hyx, h⟩)

theorem erel_openTo (dims : Dimensions) (cs : Cells) {x y : Nat}
    (h : erel (wallEdges dims cs) x y) : openTo dims cs x y = true := by
  rcases h with h | h
  · exact ((mem_wallEdges dims cs x y).1 h).2.2.2.1
  · exact ((mem_wallEdges dims cs y x).1 h).2.2.2.2

/-- A full-grid leaf-grown tree yields the C1 conclusions: connectivity,
edge count, and acyclicity of the wall graph. -/
theorem spanningOutcome (dims : Dimensions) (cs : Cells) (hInv : GenInvariant dims cs)
    (htree : TreeOn (gridAdj dims) (visitedF dims cs) (wallEdges dims cs))
    (hall : ∀ b, b < dims.1 * dims.2 → b ∈ visitedF dims cs) :
    (∀ a b, a < dims.1 * dims.2 → b < dims.1 * dims.2 →
      Relation.ReflTransGen (fun x y => openTo dims cs x y = true) a b)
    ∧ (wallEdges dims cs).card + 1 = dims.1 * dims.2
    ∧ (∀ p, ¬IsCycleL (fun x y => openTo dims cs x y = true) p) := by
  have hvis : visitedF dims cs = Finset.range (dims.1 * dims.2) := by
    ext a
    rw [Finset.mem_range]
    constructor
    · intro ha
      exact ((mem_visitedF dims cs a).1 ha).1
    · exact hall a
  refine ⟨?_, ?_, ?_⟩
  · intro a b ha hb
    have hpath := htree.connected a (hall a ha) b (hall b hb)
    exact Relation.ReflTransGen.mono (fun x y hxy => erel_openTo dims cs hxy) hpath
  · have := htree.card_eq
    rw [hvis, Finset.card_range] at this
    exact this
  · intro p hcyc
    apply htree.acyclic p
    obtain ⟨h1, h2, h3, l', hl', h', hh', hedge⟩ := hcyc
    refine ⟨h1, h2, ?_, l', hl', h', hh', ?_⟩
    · exact chain'_restrict
        (fun a _ b _ hab => openTo_erel dims cs hInv.len hInv.sym hab) h3
    · exact openTo_erel dims cs hInv.len hInv.sym hedge

theorem dfsGenRun_spanning (dims : Dimensions) (ρ : Nat → Nat) (fuel : Nat)
    (g : GenDFS) (cs : Cells) (i : Nat) (cs' : Cells)
    (hInv : DFSInv dims g cs)
    (h : dfsGenRun dims ρ fuel g cs i = some cs') :
    GenInvariant dims cs'
      ∧ TreeOn (gridAdj dims) (visitedF dims cs') (wallEdges dims cs')
      ∧ ∀ c ∈ visitedF dims cs', ∀ n, gridAdj dims c n → n ∈ visitedF dims cs' := by
  induction fuel generalizing g cs i with
  | zero => simp [dfsGenRun] at h
  | succ fuel ih =>
    unfold dfsGenRun at h
    cases hstep : dfsGenStep dims ρ g cs i with
    | none => rw [hstep] at h; exact absurd h (by simp)
    | some out =>
      obtain ⟨more, g2, cs2, i2⟩ := out
      rw [hstep] at h
      dsimp only at h
      unfold dfsGenStep at hstep
      rw [hInv.init_true] at hstep
      simp only [Bool.true_eq_false, if_false] at hstep
      have hloop := dfsGenLoop_inv_full dims ρ g.stack i cs more g2 cs2 i2
        hInv.stack_mem hInv.closed hInv.base hInv.tree hstep
      cases more with
      | true =>
        rw [if_pos rfl] at h
        exact ih g2 cs2 i2 (hloop.1 rfl) h
      | false =>
        rw [if_neg (by simp)] at h
        have hdone := hloop.2 rfl
        simp only [Option.some.injEq] at h
        rw [← h, hdone.1]
        exact ⟨hInv.base, hInv.tree, hdone.2⟩

/-- From the fully-walled grid, a completed DFS-generator run leaves a
spanning tree. -/
theorem dfs_run_spanning (dims : Dimensions) (ρ : Nat → Nat) (fuel : Nat) (cs' : Cells)
    (hw : 1 ≤ dims.1) (hh : 1 ≤ dims.2)
    (h : dfsGenRun dims ρ fuel {} (initGrid (dims.1 * dims.2)) 0 = some cs') :
    (∀ a b, a < dims.1 * dims.2 → b < dims.1 * dims.2 →
      Relation.ReflTransGen (fun x y => openTo dims cs' x y = true) a b)
    ∧ (wallEdges dims cs').card + 1 = dims.1 * dims.2
    ∧ (∀ p, ¬IsCycleL (fun x y => openTo dims cs' x y = true) p) := by
  have hN : 1 ≤ dims.1 * dims.2 := Nat.mul_pos hw hh
  cases fuel with
  | zero => simp [dfsGenRun] at h
  | succ fuel =>
    unfold dfsGenRun at h
    rw [show dfsGenStep dims ρ {} (initGrid (dims.1 * dims.2)) 0
        = some (true, ⟨true, [pick ρ 0 (initGrid (dims.1 * dims.2)).length]⟩,
          setWalk (initGrid (dims.1 * dims.2))
            (pick ρ 0 (initGrid (dims.1 * dims.2)).length) (some 0), 1) from rfl] at h
    dsimp only at h
    rw [if_pos rfl] at h
    have hlen0 : (initGrid (dims.1 * dims.2)).length = dims.1 * dims.2 := by
      simp [initGrid]
    have hstart : pick ρ 0 (initGrid (dims.1 * dims.2)).length < dims.1 * dims.2 := by
      rw [hlen0]
      exact Nat.mod_lt _ (by omega)
    have hbase1 : GenInvariant dims (setWalk (initGrid (dims.1 * dims.2))
        (pick ρ 0 (initGrid (dims.1 * dims.2)).length) (some 0)) :=
      genInvariant_setWalk dims _ _ (some 0) (genInvariant_init dims)
    have hvis1 : visitedF dims (setWalk (initGrid (dims.1 * dims.2))
        (pick ρ 0 (initGrid (dims.1 * dims.2)).length) (some 0))
        = {pick ρ 0 (initGrid (dims.1 * dims.2)).length} := by
      rw [visitedF_setWalk_some dims _ _ 0 (by simp [initGrid]) hstart, visitedF_initGrid]
      rfl
    have hedges1 : wallEdges dims (setWalk (initGrid (dims.1 * dims.2))
        (pick ρ 0 (initGrid (dims.1 * dims.2)).length) (some 0))
        = ∅ := by
      rw [wallEdges_setWalk, wallEdges_initGrid]
    have hInv1 : DFSInv dims ⟨true, [pick ρ 0 (initGrid (dims.1 * dims.2)).length]⟩
        (setWalk (initGrid (dims.1 * dims.2))
          (pick ρ 0 (initGrid (dims.1 * dims.2)).length) (some 0)) := by
      refine ⟨hbase1, ?_, ?_, ?_, rfl⟩
      · rw [hvis1, hedges1]
        exact TreeOn.single _
      · intro c hc
        simp only [List.mem_singleton] at hc
        subst hc
        rw [hvis1]
        exact Finset.mem_singleton_self _
      · intro c hc hcs n hadj
        exfalso
        rw [hvis1] at hc
        simp only [Finset.mem_singleton] at hc
        apply hcs
        rw [hc]
        exact List.mem_cons_self _ _
    have hrun := dfsGenRun_spanning dims ρ fuel _ _ 1 cs' hInv1 h
    refine spanningOutcome dims cs' hrun.1 hrun.2.1 ?_
    have hclosed := hrun.2.2
    have hne : (visitedF dims cs').Nonempty := hrun.2.1.vertex_nonempty
    intro b hb
    exact closed_eq_range dims (visitedF dims cs') hne
      (fun c hc => ((mem_visitedF dims cs' c).1 hc).1) hclosed b hb

/-! ### Wilson's generator: the committed-cells invariant -/

/-- Whether a cell's walk tag predates walk number `w` (the cell belongs to a
committed, already-connected walk). -/
def tagLt (c : Cell) (w : Nat) : Bool :=
  match c.walk with
  | none => false
  | some k => decide (k < w)

/-- The cells committed to the tree before walk `w` began. -/
def committedF (dims : Dimensions) (w : Nat) (cs : Cells) : Finset Nat :=
  (Finset.range (dims.1 * dims.2)).filter (fun a => tagLt (getCell cs a) w = true)

theorem tagLt_iff (c : Cell) (w : Nat) :
    tagLt c w = true ↔ ∃ k, c.walk = some k ∧ k < w := by
  unfold tagLt
  cases c.walk <;> simp

theorem mem_committedF (dims : Dimensions) (w : Nat) (cs : Cells) (a : Nat) :
    a ∈ committedF dims w cs ↔
      a < dims.1 * dims.2 ∧ ∃ k, (getCell cs a).walk = some k ∧ k < w := by
  unfold committedF
  rw [Finset.mem_filter, Finset.mem_range, tagLt_iff]

theorem walk_setWalk (cs : Cells) (i : Nat) (w : Option Nat) (j : Nat) :
    (getCell (setWalk cs i w) j).walk =
      if i = j ∧ i < cs.length then w else (getCell cs j).walk := by
  rw [getCell_setWalk]
  split_ifs <;> rfl

theorem committedF_congr (dims : Dimensions) (w : Nat) {cs cs' : Cells}
    (h : ∀ a, (getCell cs' a).walk = (getCell cs a).walk) :
    committedF dims w cs' = committedF dims w cs := by
  unfold committedF
  apply Finset.filter_congr
  intro x _
  unfold tagLt
  rw [h]

theorem committedF_removeWallPair (dims : Dimensions) (w : Nat) (cs : Cells)
    (a b : Nat) (d : Direction) :
    committedF dims w (removeWallPair cs a b d) = committedF dims w cs :=
  committedF_congr dims w (fun j => walk_removeWallPair cs a b d j)

theorem committedF_setWalk_irrel (dims : Dimensions) (w : Nat) (cs : Cells) (n : Nat)
    (v : Option Nat) (hv : ∀ k, v = some k → ¬k < w)
    (hold : ∀ k, (getCell cs n).walk = some k → ¬k < w) :
    committedF dims w (setWalk cs n v) = committedF dims w cs := by
  ext a
  rw [mem_committedF, mem_committedF, walk_setWalk]
  split_ifs with hcond
  · obtain ⟨rfl, -⟩ := hcond
    constructor
    · rintro ⟨ha, k, hk, hkw⟩
      exact absurd hkw (hv k hk)
    · rintro ⟨ha, k, hk, hkw⟩
      exact absurd hkw (hold k hk)
  · exact Iff.rfl

theorem getCell_eq_getElem (cs : Cells) (i : Nat) (h : i < cs.length) :
    getCell cs i = cs[i] := by
  unfold getCell
  rw [List.getD_eq_getElem?_getD, List.getElem?_eq_getElem h]
  rfl

/-- In a grid with at least two cells, every cell has an in-grid neighbour. -/
theorem exists_neighbour (dims : Dimensions) (cell : Nat)
    (hcell : cell < dims.1 * dims.2) (hN : 2 ≤ dims.1 * dims.2) :
    ∃ d : Direction, ∃ n, d.neighbour dims cell = some n := by
  obtain ⟨w, h⟩ := dims
  dsimp only at hcell hN
  rcases w with _ | _ | w
  · omega
  · rcases Nat.lt_or_ge cell 1 with h0 | h1
    · refine ⟨.Third, cell + 1, ?_⟩
      rw [neighbour_third_iff]
      dsimp only
      omega
    · refine ⟨.First, cell - 1, ?_⟩
      rw [neighbour_first_iff]
      dsimp only
      omega
  · by_cases hm : cell % (w + 1 + 1) = 0
    · refine ⟨.Second, cell + 1, ?_⟩
      rw [neighbour_second_iff]
      dsimp only
      have hmod : (cell + 1) % (w + 1 + 1) = 1 := by
        rw [Nat.add_mod, hm]
        simp [Nat.mod_eq_of_lt (show 1 < w + 1 + 1 by omega)]
      omega
    · refine ⟨.Forth, cell - 1, ?_⟩
      rw [neighbour_forth_iff]
      dsimp only
      have h1 : 1 ≤ cell := by
        rcases Nat.eq_zero_or_pos cell with rfl | h
        · exact absurd (Nat.zero_mod _) hm
        · exact h
      omega

/-- In a grid with at least two cells, the neighbour list is never empty. -/
theorem allNeighbours_ne_nil (dims : Dimensions) (cell : Nat)
    (hcell : cell < dims.1 * dims.2) (hN : 2 ≤ dims.1 * dims.2) :
    allNeighbours dims cell ≠ [] := by
  obtain ⟨d, n, hd⟩ := exists_neighbour dims cell hcell hN
  intro hnil
  have : n ∈ allNeighbours dims cell := (mem_allNeighbours dims cell n).2 ⟨d, hd⟩
  rw [hnil] at this
  simp at this

/-- The mid-run invariant of Wilson's generator, parameterised by the current
walk number `w` and the current walk's stack. -/
structure WilsonInv (dims : Dimensions) (w : Nat) (stack : List Nat) (cs : Cells) : Prop where
  base : GenInvariant dims cs
  tree : TreeOn (gridAdj dims) (committedF dims w cs) (wallEdges dims cs)
  stack_tag : ∀ c ∈ stack, c < dims.1 * dims.2 ∧ (getCell cs c).walk = some w
  tag_stack : ∀ a, a < dims.1 * dims.2 → (getCell cs a).walk = some w → a ∈ stack
  tag_le : ∀ a k, a < dims.1 * dims.2 → (getCell cs a).walk = some k → k ≤ w
  nodup : stack.Nodup
  chain : List.Chain' (gridAdj dims) stack

/-- Loop erasure keeps the Wilson invariant: popped cells are untagged, so the
current walk's stack and tag set shrink together and the committed tree is
untouched. -/
theorem wilsonErase_inv_full (dims : Dimensions) (w : Nat) (stack : List Nat) (nbr : Nat)
    (cs : Cells) (st' : List Nat) (cs' : Cells)
    (hInv : WilsonInv dims w stack cs)
    (h : wilsonErase stack nbr cs = some (st', cs')) :
    WilsonInv dims w st' cs' := by
  induction stack generalizing cs with
  | nil => simp [wilsonErase] at h
  | cons top rest ih =>
    unfold wilsonErase at h
    split_ifs at h with ht
    · simp only [Option.some.injEq, Prod.mk.injEq] at h
      rw [← h.1, ← h.2]
      exact hInv
    · obtain ⟨htoplt, htopw⟩ := hInv.stack_tag top (List.mem_cons_self top rest)
      have hlen : top < cs.length := hInv.base.len ▸ htoplt
      have hwalk' : ∀ j, (getCell (setWalk cs top none) j).walk =
          if top = j then none else (getCell cs j).walk := by
        intro j
        rw [walk_setWalk]
        split_ifs with h1 h2 <;> first | rfl | omega | exact absurd ⟨h2, hlen⟩ h1
      have hcom : committedF dims w (setWalk cs top none) = committedF dims w cs := by
        refine committedF_setWalk_irrel dims w cs top none (by simp) ?_
        intro k hk
        rw [htopw] at hk
        simp only [Option.some.injEq] at hk
        omega
      refine ih (setWalk cs top none) ?_ h
      refine ⟨genInvariant_setWalk dims cs top none hInv.base, ?_, ?_, ?_, ?_, ?_, ?_⟩
      · rw [hcom, wallEdges_setWalk]
        exact hInv.tree
      · intro c hc
        have hcne : c ≠ top := by
          intro heq
          exact (List.nodup_cons.1 hInv.nodup).1 (heq ▸ hc)
        obtain ⟨hlt2, hw2⟩ := hInv.stack_tag c (List.mem_cons_of_mem top hc)
        refine ⟨hlt2, ?_⟩
        rw [hwalk', if_neg (fun he => hcne he.symm)]
        exact hw2
      · intro a ha hwa
        rw [hwalk'] at hwa
        split_ifs at hwa with he
        rcases List.mem_cons.1 (hInv.tag_stack a ha hwa) with heq | hmem
        · exact absurd heq.symm he
        · exact hmem
      · intro a k ha hwa
        rw [hwalk'] at hwa
        split_ifs at hwa with he
        exact hInv.tag_le a k ha hwa
      · exact (List.nodup_cons.1 hInv.nodup).2
      · exact (List.chain'_cons'.1 hInv.chain).2

/-- Committing a walk grows the leaf-built tree cell by cell: each stack cell
is attached to the previously attached cell, starting from the struck
committed cell `nbr`. -/
theorem wilsonCommit_tree (dims : Dimensions) (stack : List Nat) (nbr : Nat)
    (cs cs₂ : Cells) (V : Finset Nat)
    (hbase : GenInvariant dims cs)
    (htree : TreeOn (gridAdj dims) V (wallEdges dims cs))
    (hnbr : nbr ∈ V)
    (hnbrlt : nbr < dims.1 * dims.2)
    (hstack : ∀ c ∈ stack, c < dims.1 * dims.2 ∧ c ∉ V)
    (hnd : stack.Nodup)
    (hchain : List.Chain' (gridAdj dims) stack)
    (hadj : ∀ c, stack.head? = some c → gridAdj dims c nbr)
    (h : wilsonCommit dims stack nbr cs = some cs₂) :
    GenInvariant dims cs₂
      ∧ TreeOn (gridAdj dims) (stack.toFinset ∪ V) (wallEdges dims cs₂)
      ∧ ∀ j, (getCell cs₂ j).walk = (getCell cs j).walk := by
  induction stack generalizing nbr cs V with
  | nil =>
    unfold wilsonCommit at h
    simp only [Option.some.injEq] at h
    rw [← h]
    refine ⟨hbase, ?_, fun j => rfl⟩
    simpa using htree
  | cons last rest ih =>
    obtain ⟨hlastlt, hlastV⟩ := hstack last (List.mem_cons_self last rest)
    have hadjln : gridAdj dims last nbr := hadj last rfl
    obtain ⟨d0, hd0⟩ := hadjln
    unfold wilsonCommit at h
    cases hb : Direction.between dims last nbr with
    | none =>
      have := between_isSome_of_neighbour dims last nbr d0 hd0
      rw [hb] at this
      simp at this
    | some d =>
      rw [hb] at h
      have hdn : d.neighbour dims last = some nbr :=
        neighbour_of_between dims last nbr hnbrlt d hb
      have hedge : wallEdges dims (removeWallPair cs last nbr d) =
          insert (min last nbr, max last nbr) (wallEdges dims cs) :=
        wallEdges_removeWallPair dims cs last nbr d hbase.len hlastlt hdn
      have htree3 : TreeOn (gridAdj dims) (insert last V)
          (wallEdges dims (removeWallPair cs last nbr d)) := by
        rw [hedge]
        exact TreeOn.extend last nbr htree hnbr hlastV ⟨d0, hd0⟩
      have hnd' := List.nodup_cons.1 hnd
      have hrec := ih last (removeWallPair cs last nbr d) (insert last V)
        (genInvariant_removeWallPair dims cs last nbr d hlastlt hdn hbase)
        htree3 (Finset.mem_insert_self last V) hlastlt
        (by
          intro c hc
          obtain ⟨hlt2, hV2⟩ := hstack c (List.mem_cons_of_mem last hc)
          refine ⟨hlt2, ?_⟩
          rw [Finset.mem_insert]
          rintro (rfl | hmem)
          · exact hnd'.1 hc
          · exact hV2 hmem)
        hnd'.2 (List.chain'_cons'.1 hchain).2
        (by
          intro c hc
          have := (List.chain'_cons'.1 hchain).1 c hc
          obtain ⟨dd, hdd⟩ := this
          exact ⟨dd.opposite, neighbour_opposite dims last c hlastlt dd hdd⟩)
        h
      refine ⟨hrec.1, ?_, ?_⟩
      · have heq : (last :: rest).toFinset ∪ V = rest.toFinset ∪ insert last V := by
          rw [List.toFinset_cons, Finset.insert_union, Finset.union_insert]
        rw [heq]
        exact hrec.2.1
      · intro j
        rw [hrec.2.2 j, walk_removeWallPair]

/-- One mid-run Wilson step preserves the invariant (possibly bumping the walk
number); the completing step leaves the grid unchanged with every cell
committed. -/
theorem wilsonStep_inv_full (dims : Dimensions) (ρ : Nat → Nat) (w : Nat) (g : GenWilson)
    (cs : Cells) (i : Nat) (more : Bool) (g' : GenWilson) (cs' : Cells) (i' : Nat)
    (hN : 2 ≤ dims.1 * dims.2)
    (hg : g.walk = some w)
    (hInv : WilsonInv dims w g.stack cs)
    (h : wilsonStep dims ρ g cs i = some (more, g', cs', i')) :
    (more = true → ∃ w', g'.walk = some w' ∧ WilsonInv dims w' g'.stack cs')
    ∧ (more = false → cs' = cs ∧ committedF dims w cs = Finset.range (dims.1 * dims.2)) := by
  unfold wilsonStep at h
  rw [hg] at h
  cases hgs : g.stack with
  | nil =>
    rw [hgs] at h hInv
    dsimp only [List.head?] at h
    cases hf : cs.findIdx? (fun c => c.walk.isNone) with
    | none =>
      rw [hf] at h
      simp only [Option.some.injEq, Prod.mk.injEq] at h
      obtain ⟨hmore, -, hcs, -⟩ := h
      constructor
      · intro ht
        rw [ht] at hmore
        exact absurd hmore.symm (by simp)
      · intro _
        refine ⟨hcs.symm, ?_⟩
        ext a
        rw [mem_committedF, Finset.mem_range]
        constructor
        · rintro ⟨ha, -⟩
          exact ha
        · intro ha
          refine ⟨ha, ?_⟩
          have halen : a < cs.length := hInv.base.len ▸ ha
          have hmem : cs[a] ∈ cs := List.getElem_mem halen
          have hfalse := List.findIdx?_eq_none_iff.1 hf cs[a] hmem
          rw [← getCell_eq_getElem cs a halen] at hfalse
          cases hk : (getCell cs a).walk with
          | none => rw [hk] at hfalse; simp at hfalse
          | some k =>
            refine ⟨k, rfl, ?_⟩
            have hle := hInv.tag_le a k ha hk
            have hne : k ≠ w := by
              intro heq
              subst heq
              exact absurd (hInv.tag_stack a ha hk) (by simp)
            omega
    | some idx =>
      rw [hf] at h
      simp only [Option.some.injEq, Prod.mk.injEq] at h
      obtain ⟨hmore, hg', hcs, -⟩ := h
      constructor
      swap
      · intro hfm
        rw [hfm] at hmore
        exact absurd hmore.symm (by simp)
      intro _
      refine ⟨w, by rw [← hg'], ?_⟩
      rw [← hg', ← hcs]
      have hlen := findIdx?_lt_length hf
      have hidxN : idx < dims.1 * dims.2 := hInv.base.len ▸ hlen
      have hidxwalk : (getCell cs idx).walk = none := by
        obtain ⟨hl, hp, -⟩ := List.findIdx?_eq_some_iff_getElem.1 hf
        rw [getCell_eq_getElem cs idx hl]
        exact Option.isNone_iff_eq_none.1 hp
      have hcom : committedF dims w (setWalk cs idx (some w)) = committedF dims w cs := by
        refine committedF_setWalk_irrel dims w cs idx (some w) ?_ ?_
        · intro k hk
          simp only [Option.some.injEq] at hk
          omega
        · intro k hk
          rw [hidxwalk] at hk
          exact absurd hk (by simp)
      refine ⟨genInvariant_setWalk dims cs idx (some w) hInv.base, ?_, ?_, ?_, ?_, ?_, ?_⟩
      · rw [hcom, wallEdges_setWalk]
        exact hInv.tree
      · intro c hc
        simp only [List.mem_singleton] at hc
        subst hc
        refine ⟨hidxN, ?_⟩
        rw [walk_setWalk, if_pos ⟨rfl, hlen⟩]
      · intro a ha hwa
        rw [walk_setWalk] at hwa
        split_ifs at hwa with hcond
        · simp [← hcond.1]
        · exact absurd (hInv.tag_stack a ha hwa) (by simp)
      · intro a k ha hwa
        rw [walk_setWalk] at hwa
        split_ifs at hwa with hcond
        · simp only [Option.some.injEq] at hwa
          omega
        · exact hInv.tag_le a k ha hwa
      · simp
      · simp
  | cons cell rest =>
    rw [hgs] at h hInv
    dsimp only [List.head?] at h
    obtain ⟨hcelllt, hcellw⟩ := hInv.stack_tag cell (List.mem_cons_self cell rest)
    have hne : allNeighbours dims cell ≠ [] := allNeighbours_ne_nil dims cell hcelllt hN
    have hmem : (allNeighbours dims cell).getD
        (pick ρ i (allNeighbours dims cell).length) 0 ∈ allNeighbours dims cell :=
      listGetD_mem 0 (Nat.mod_lt _ (List.length_pos.2 hne))
    obtain ⟨d0, hd0⟩ := (mem_allNeighbours dims cell _).1 hmem
    set nbr := (allNeighbours dims cell).getD
      (pick ρ i (allNeighbours dims cell).length) 0 with hnbrdef
    have hnbrlt : nbr < dims.1 * dims.2 := neighbour_lt dims cell nbr hcelllt d0 hd0
    have hadj_cn : gridAdj dims cell nbr := ⟨d0, hd0⟩
    have hadj_nc : gridAdj dims nbr cell :=
      ⟨d0.opposite, neighbour_opposite dims cell nbr hcelllt d0 hd0⟩
    cases hcw : (getCell cs nbr).walk with
    | none =>
      rw [hcw] at h
      simp only [Option.some.injEq, Prod.mk.injEq] at h
      obtain ⟨hmore, hg', hcs, -⟩ := h
      constructor
      swap
      · intro hfm
        rw [hfm] at hmore
        exact absurd hmore.symm (by simp)
      intro _
      refine ⟨w, by rw [← hg'], ?_⟩
      rw [← hg', ← hcs]
      have hnbrlen : nbr < cs.length := hInv.base.len ▸ hnbrlt
      have hnotstack : nbr ∉ cell :: rest := by
        intro hmem2
        have := (hInv.stack_tag nbr hmem2).2
        rw [hcw] at this
        exact absurd this (by simp)
      have hcom : committedF dims w (setWalk cs nbr (some w)) = committedF dims w cs := by
        refine committedF_setWalk_irrel dims w cs nbr (some w) ?_ ?_
        · intro k hk
          simp only [Option.some.injEq] at hk
          omega
        · intro k hk
          rw [hcw] at hk
          exact absurd hk (by simp)
      refine ⟨genInvariant_setWalk dims cs nbr (some w) hInv.base, ?_, ?_, ?_, ?_, ?_, ?_⟩
      · rw [hcom, wallEdges_setWalk]
        exact hInv.tree
      · intro c hc
        rcases List.mem_cons.1 hc with rfl | hc2
        · refine ⟨hnbrlt, ?_⟩
          rw [walk_setWalk, if_pos ⟨rfl, hnbrlen⟩]
        · obtain ⟨hlt2, hw2⟩ := hInv.stack_tag c hc2
          refine ⟨hlt2, ?_⟩
          rw [walk_setWalk, if_neg ?_]
          · exact hw2
          · rintro ⟨rfl, -⟩
            exact hnotstack hc2
      · intro a ha hwa
        rw [walk_setWalk] at hwa
        split_ifs at hwa with hcond
        · rw [← hcond.1]
          exact List.mem_cons_self nbr (cell :: rest)
        · exact List.mem_cons_of_mem nbr (hInv.tag_stack a ha hwa)
      · intro a k ha hwa
        rw [walk_setWalk] at hwa
        split_ifs at hwa with hcond
        · simp only [Option.some.injEq] at hwa
          omega
        · exact hInv.tag_le a k ha hwa
      · exact List.nodup_cons.2 ⟨hnotstack, hInv.nodup⟩
      · exact List.chain'_cons.2 ⟨hadj_nc, hInv.chain⟩
    | some nw =>
      rw [hcw] at h
      dsimp only at h
      split_ifs at h with heq
      · cases he : wilsonErase (cell :: rest) nbr cs with
        | none => rw [he] at h; exact absurd h (by simp)
        | some pr =>
          obtain ⟨st, cs₁⟩ := pr
          rw [he] at h
          simp only [Option.some.injEq, Prod.mk.injEq] at h
          obtain ⟨hmore, hg', hcs, -⟩ := h
          constructor
          swap
          · intro hfm
            rw [hfm] at hmore
            exact absurd hmore.symm (by simp)
          intro _
          refine ⟨w, by rw [← hg'], ?_⟩
          rw [← hg', ← hcs]
          exact wilsonErase_inv_full dims w (cell :: rest) nbr cs st cs₁ hInv he
      · cases hc : wilsonCommit dims (cell :: rest) nbr cs with
        | none => rw [hc] at h; exact absurd h (by simp)
        | some cs₂ =>
          rw [hc] at h
          simp only [Option.some.injEq, Prod.mk.injEq] at h
          obtain ⟨hmore, hg', hcs, -⟩ := h
          constructor
          swap
          · intro hfm
            rw [hfm] at hmore
            exact absurd hmore.symm (by simp)
          intro _
          refine ⟨w + 1, by rw [← hg'], ?_⟩
          rw [← hg', ← hcs]
          have hnwlt : nw < w := by
            have hle := hInv.tag_le nbr nw hnbrlt hcw
            omega
          have hnbrC : nbr ∈ committedF dims w cs :=
            (mem_committedF dims w cs nbr).2 ⟨hnbrlt, nw, hcw, hnwlt⟩
          have hcomm := wilsonCommit_tree dims (cell :: rest) nbr cs cs₂
            (committedF dims w cs) hInv.base hInv.tree hnbrC hnbrlt
            (by
              intro c hc2
              obtain ⟨hlt2, hw2⟩ := hInv.stack_tag c hc2
              refine ⟨hlt2, ?_⟩
              rw [mem_committedF]
              rintro ⟨-, k, hk, hklt⟩
              rw [hw2] at hk
              simp only [Option.some.injEq] at hk
              omega)
            hInv.nodup hInv.chain
            (by
              intro c hc2
              simp only [List.head?_cons, Option.some.injEq] at hc2
              rw [← hc2]
              exact hadj_cn)
            hc
          have hcomEq : committedF dims (w + 1) cs₂ =
              (cell :: rest).toFinset ∪ committedF dims w cs := by
            ext a
            rw [mem_committedF, Finset.mem_union, List.mem_toFinset, mem_committedF]
            constructor
            · rintro ⟨ha, k, hk, hklt⟩
              rw [hcomm.2.2 a] at hk
              rcases Nat.lt_or_ge k w with hkw | hkw
              · exact Or.inr ⟨ha, k, hk, hkw⟩
              · have hkeq : k = w := by
                  have := hInv.tag_le a k ha hk
                  omega
                subst hkeq
                exact Or.inl (hInv.tag_stack a ha hk)
            · rintro (hstk | ⟨ha, k, hk, hklt⟩)
              · obtain ⟨hlt2, hw2⟩ := hInv.stack_tag a hstk
                refine ⟨hlt2, w, ?_, by omega⟩
                rw [hcomm.2.2 a]
                exact hw2
              · refine ⟨ha, k, ?_, by omega⟩
                rw [hcomm.2.2 a]
                exact hk
          refine ⟨hcomm.1, ?_, ?_, ?_, ?_, ?_, ?_⟩
          · rw [hcomEq]
            exact hcomm.2.1
          · intro c hc2
            simp at hc2
          · intro a ha hwa
            rw [hcomm.2.2 a] at hwa
            have := hInv.tag_le a (w + 1) ha hwa
            omega
          · intro a k ha hwa
            rw [hcomm.2.2 a] at hwa
            have := hInv.tag_le a k ha hwa
            omega
          · simp
          · simp

/-- Running Wilson's generator to completion from any invariant state leaves a
leaf-grown tree over the whole grid. -/
theorem wilsonRun_spanning (dims : Dimensions) (ρ : Nat → Nat) (fuel : Nat)
    (g : GenWilson) (cs : Cells) (i : Nat) (cs' : Cells) (w : Nat)
    (hN : 2 ≤ dims.1 * dims.2)
    (hg : g.walk = some w)
    (hInv : WilsonInv dims w g.stack cs)
    (h : wilsonRun dims ρ fuel g cs i = some cs') :
    GenInvariant dims cs'
      ∧ TreeOn (gridAdj dims) (Finset.range (dims.1 * dims.2)) (wallEdges dims cs') := by
  induction fuel generalizing g cs i w with
  | zero => simp [wilsonRun] at h
  | succ fuel ih =>
    unfold wilsonRun at h
    cases hstep : wilsonStep dims ρ g cs i with
    | none => rw [hstep] at h; exact absurd h (by simp)
    | some out =>
      obtain ⟨more, g2, cs2, i2⟩ := out
      rw [hstep] at h
      dsimp only at h
      have hfull := wilsonStep_inv_full dims ρ w g cs i more g2 cs2 i2 hN hg hInv hstep
      cases more with
      | true =>
        rw [if_pos rfl] at h
        obtain ⟨w2, hg2, hInv2⟩ := hfull.1 rfl
        exact ih g2 cs2 i2 w2 hg2 hInv2 h
      | false =>
        rw [if_neg (by simp)] at h
        simp only [Option.some.injEq] at h
        obtain ⟨hcs, hcom⟩ := hfull.2 rfl
        rw [← h, hcs]
        refine ⟨hInv.base, ?_⟩
        rw [← hcom]
        exact hInv.tree

/-- A full-range leaf-grown tree yields the C1 conclusions. -/
theorem spanningOutcomeRange (dims : Dimensions) (cs : Cells) (hInv : GenInvariant dims cs)
    (htree : TreeOn (gridAdj dims) (Finset.range (dims.1 * dims.2)) (wallEdges dims cs)) :
    (∀ a b, a < dims.1 * dims.2 → b < dims.1 * dims.2 →
      Relation.ReflTransGen (fun x y => openTo dims cs x y = true) a b)
    ∧ (wallEdges dims cs).card + 1 = dims.1 * dims.2
    ∧ (∀ p, ¬IsCycleL (fun x y => openTo dims cs x y = true) p) := by
  refine ⟨?_, ?_, ?_⟩
  · intro a b ha hb
    have hpath := htree.connected a (Finset.mem_range.2 ha) b (Finset.mem_range.2 hb)
    exact Relation.ReflTransGen.mono (fun x y hxy => erel_openTo dims cs hxy) hpath
  · have := htree.card_eq
    rwa [Finset.card_range] at this
  · intro p hcyc
    apply htree.acyclic p
    obtain ⟨h1, h2, h3, l', hl', h', hh', hedge⟩ := hcyc
    refine ⟨h1, h2, ?_, l', hl', h', hh', ?_⟩
    · exact chain'_restrict
        (fun a _ b _ hab => openTo_erel dims cs hInv.len hInv.sym hab) h3
    · exact openTo_erel dims cs hInv.len hInv.sym hedge

/-- From the fully-walled grid, a completed Wilson run leaves a spanning
tree. -/
theorem wilson_run_spanning (dims : Dimensions) (ρ : Nat → Nat) (fuel : Nat) (cs' : Cells)
    (hN : 2 ≤ dims.1 * dims.2)
    (h : wilsonRun dims ρ fuel {} (initGrid (dims.1 * dims.2)) 0 = some cs') :
    (∀ a b, a < dims.1 * dims.2 → b < dims.1 * dims.2 →
      Relation.ReflTransGen (fun x y => openTo dims cs' x y = true) a b)
    ∧ (wallEdges dims cs').card + 1 = dims.1 * dims.2
    ∧ (∀ p, ¬IsCycleL (fun x y => openTo dims cs' x y = true) p) := by
  cases fuel with
  | zero => simp [wilsonRun] at h
  | succ fuel =>
    unfold wilsonRun at h
    rw [show wilsonStep dims ρ {} (initGrid (dims.1 * dims.2)) 0
        = some (true, ⟨some 1, []⟩, setWalk (initGrid (dims.1 * dims.2))
          (pick ρ 0 (initGrid (dims.1 * dims.2)).length) (some 0), 1) from rfl] at h
    dsimp only at h
    rw [if_pos rfl] at h
    have hlen0 : (initGrid (dims.1 * dims.2)).length = dims.1 * dims.2 := by
      simp [initGrid]
    have hidx : pick ρ 0 (initGrid (dims.1 * dims.2)).length < dims.1 * dims.2 := by
      rw [hlen0]
      exact Nat.mod_lt _ (by omega)
    have hidxlen : pick ρ 0 (initGrid (dims.1 * dims.2)).length
        < (initGrid (dims.1 * dims.2)).length := by
      unfold pick
      rw [hlen0]
      exact Nat.mod_lt _ (by omega)
    have hcom1 : committedF dims 1 (setWalk (initGrid (dims.1 * dims.2))
        (pick ρ 0 (initGrid (dims.1 * dims.2)).length) (some 0))
        = {pick ρ 0 (initGrid (dims.1 * dims.2)).length} := by
      ext a
      rw [mem_committedF, Finset.mem_singleton, walk_setWalk]
      split_ifs with hcond
      · obtain ⟨heq, -⟩ := hcond
        constructor
        · rintro -
          exact heq.symm
        · rintro rfl
          exact ⟨hidx, 0, rfl, by omega⟩
      · rw [getCell_initGrid]
        constructor
        · rintro ⟨-, k, hk, -⟩
          exact absurd hk (by simp)
        · rintro rfl
          exact absurd ⟨rfl, hidxlen⟩ hcond
    have hInv1 : WilsonInv dims 1 [] (setWalk (initGrid (dims.1 * dims.2))
        (pick ρ 0 (initGrid (dims.1 * dims.2)).length) (some 0)) := by
      refine ⟨genInvariant_setWalk dims _ _ (some 0) (genInvariant_init dims),
        ?_, by simp, ?_, ?_, by simp, by simp⟩
      · rw [hcom1, wallEdges_setWalk, wallEdges_initGrid]
        exact TreeOn.single _
      · intro a ha hwa
        rw [walk_setWalk] at hwa
        split_ifs at hwa with hcond
        · exact absurd hwa (by simp)
        · rw [getCell_initGrid] at hwa
          exact absurd hwa (by simp)
      · intro a k ha hwa
        rw [walk_setWalk] at hwa
        split_ifs at hwa with hcond
        · simp only [Option.some.injEq] at hwa
          omega
        · rw [getCell_initGrid] at hwa
          exact absurd hwa (by simp)
    have hrun := wilsonRun_spanning dims ρ fuel ⟨some 1, []⟩ _ 1 cs' 1 hN rfl hInv1 h
    exact spanningOutcomeRange dims cs' hrun.1 hrun.2

/-- **C1.** For every dimensions (w,h) with w,h ≥ 2, starting from the
fully-walled initial grid, running either generator's `step` until it returns
false yields a wall graph that is a spanning tree over all w·h cells:
connected, with exactly w·h−1 edges, and acyclic. -/
theorem C1_generators_spanning_tree (dims : Dimensions) (ρD ρW : Nat → Nat)
    (fD fW : Nat) (csD csW : Cells)
    (hw : 2 ≤ dims.1) (hh : 2 ≤ dims.2)
    (hD : dfsGenRun dims ρD fD {} (initGrid (dims.1 * dims.2)) 0 = some csD)
    (hW : wilsonRun dims ρW fW {} (initGrid (dims.1 * dims.2)) 0 = some csW) :
    ((∀ a b, a < dims.1 * dims.2 → b < dims.1 * dims.2 →
        Relation.ReflTransGen (fun x y => openTo dims csD x y = true) a b)
      ∧ (wallEdges dims csD).card + 1 = dims.1 * dims.2
      ∧ (∀ p, ¬IsCycleL (fun x y => openTo dims csD x y = true) p))
    ∧ ((∀ a b, a < dims.1 * dims.2 → b < dims.1 * dims.2 →
        Relation.ReflTransGen (fun x y => openTo dims csW x y = true) a b)
      ∧ (wallEdges dims csW).card + 1 = dims.1 * dims.2
      ∧ (∀ p, ¬IsCycleL (fun x y => openTo dims csW x y = true) p)) := by
  have hN : 2 ≤ dims.1 * dims.2 := by
    have := Nat.mul_le_mul hw hh
    omega
  exact ⟨dfs_run_spanning dims ρD fD csD (by omega) (by omega) hD,
    wilson_run_spanning dims ρW fW csW hN hW⟩

/-- The 2×2 maze the DFS generator carves under the all-zero random stream. -/
def mazeC1D : Cells :=
  [{ walls := 13, walk := some 0 }, { walls := 3, walk := some 0 },
   { walls := 13, walk := some 0 }, { walls := 6, walk := some 0 }]

/-- The 2×2 maze Wilson's algorithm carves under the identity random stream. -/
def mazeC1W : Cells :=
  [{ walls := 9, walk := some 0 }, { walls := 7, walk := some 1 },
   { walls := 12, walk := some 2 }, { walls := 7, walk := some 3 }]

theorem C1_generators_spanning_tree_witness :
    dfsGenRun (2, 2) (fun _ => 0) 10 {} (initGrid (2 * 2)) 0 = some mazeC1D
    ∧ wilsonRun (2, 2) (fun i => i) 30 {} (initGrid (2 * 2)) 0 = some mazeC1W
    ∧ (((∀ a b, a < 2 * 2 → b < 2 * 2 →
          Relation.ReflTransGen (fun x y => openTo (2, 2) mazeC1D x y = true) a b)
        ∧ (wallEdges (2, 2) mazeC1D).card + 1 = 2 * 2
        ∧ (∀ p, ¬IsCycleL (fun x y => openTo (2, 2) mazeC1D x y = true) p))
      ∧ ((∀ a b, a < 2 * 2 → b < 2 * 2 →
          Relation.ReflTransGen (fun x y => openTo (2, 2) mazeC1W x y = true) a b)
        ∧ (wallEdges (2, 2) mazeC1W).card + 1 = 2 * 2
        ∧ (∀ p, ¬IsCycleL (fun x y => openTo (2, 2) mazeC1W x y = true) p))) :=
  ⟨by decide, by decide,
    C1_generators_spanning_tree (2, 2) (fun _ => 0) (fun i => i) 10 30 mazeC1D mazeC1W
      (by decide) (by decide) (by decide) (by decide)⟩

/-- The DFS generator's backtracking loop only answers `false` after draining
its stack, leaving the grid untouched and the state reset to the default. -/
theorem dfsGenLoop_false (dims : Dimensions) (ρ : Nat → Nat) (stack : List Nat) (i : Nat)
    (cs : Cells) (g' : GenDFS) (cs' : Cells) (i' : Nat)
    (h : dfsGenLoop dims ρ stack i cs = some (false, g', cs', i')) :
    g' = {} ∧ cs' = cs ∧ i' = i := by
  induction stack with
  | nil =>
    unfold dfsGenLoop at h
    simp only [Option.some.injEq, Prod.mk.injEq] at h
    exact ⟨h.2.1.symm, h.2.2.1.symm, h.2.2.2.symm⟩
  | cons cell rest ih =>
    unfold dfsGenLoop at h
    cases hn : unvisitedNeighbours dims cs cell with
    | nil =>
      rw [hn] at h
      exact ih h
    | cons nb nbs =>
      rw [hn] at h
      dsimp only at h
      cases hb : Direction.between dims cell ((nb :: nbs).getD (pick ρ i (nb :: nbs).length) 0) with
      | none => rw [hb] at h; exact absurd h (by simp)
      | some d =>
        rw [hb] at h
        simp only [Option.some.injEq, Prod.mk.injEq] at h
        exact absurd h.1.symm (by simp)

theorem dfsGenStep_false (dims : Dimensions) (ρ : Nat → Nat) (g : GenDFS) (cs : Cells)
    (i : Nat) (g' : GenDFS) (cs' : Cells) (i' : Nat)
    (h : dfsGenStep dims ρ g cs i = some (false, g', cs', i')) :
    g' = {} ∧ cs' = cs ∧ i' = i := by
  unfold dfsGenStep at h
  split_ifs at h with hinit
  · simp only [Option.some.injEq, Prod.mk.injEq] at h
    exact absurd h.1.symm (by simp)
  · exact dfsGenLoop_false dims ρ g.stack i cs g' cs' i' h

/-- Wilson's `step` only answers `false` from the completion branch, leaving
the grid untouched and the state reset to the default. -/
theorem wilsonStep_false (dims : Dimensions) (ρ : Nat → Nat) (g : GenWilson) (cs : Cells)
    (i : Nat) (g' : GenWilson) (cs' : Cells) (i' : Nat)
    (h : wilsonStep dims ρ g cs i = some (false, g', cs', i')) :
    g' = {} ∧ cs' = cs ∧ i' = i := by
  unfold wilsonStep at h
  cases hw : g.walk with
  | none =>
    rw [hw] at h
    simp only [Option.some.injEq, Prod.mk.injEq] at h
    exact absurd h.1.symm (by simp)
  | some w =>
    rw [hw] at h
    cases hs : g.stack.head? with
    | none =>
      rw [hs] at h
      dsimp only at h
      cases hf : cs.findIdx? (fun c => c.walk.isNone) with
      | none =>
        rw [hf] at h
        simp only [Option.some.injEq, Prod.mk.injEq] at h
        exact ⟨h.2.1.symm, h.2.2.1.symm, h.2.2.2.symm⟩
      | some idx =>
        rw [hf] at h
        simp only [Option.some.injEq, Prod.mk.injEq] at h
        exact absurd h.1.symm (by simp)
    | some cell =>
      rw [hs] at h
      dsimp only at h
      cases hcw : (getCell cs ((allNeighbours dims cell).getD
          (pick ρ i (allNeighbours dims cell).length) 0)).walk with
      | none =>
        rw [hcw] at h
        simp only [Option.some.injEq, Prod.mk.injEq] at h
        exact absurd h.1.symm (by simp)
      | some nw =>
        rw [hcw] at h
        dsimp only at h
        split_ifs at h with heq
        · cases he : wilsonErase g.stack ((allNeighbours dims cell).getD
              (pick ρ i (allNeighbours dims cell).length) 0) cs with
          | none => rw [he] at h; exact absurd h (by simp)
          | some pr =>
            obtain ⟨st, cs₁⟩ := pr
            rw [he] at h
            simp only [Option.some.injEq, Prod.mk.injEq] at h
            exact absurd h.1.symm (by simp)
        · cases hc : wilsonCommit dims g.stack ((allNeighbours dims cell).getD
              (pick ρ i (allNeighbours dims cell).length) 0) cs with
          | none => rw [hc] at h; exact absurd h (by simp)
          | some cs₂ =>
            rw [hc] at h
            simp only [Option.some.injEq, Prod.mk.injEq] at h
            exact absurd h.1.symm (by simp)

/-- **C6.** For both generators, the `step` call that returns false resets the
private state to the \"not started\" default and leaves the grid as the final
mutation left it; the very next call behaves exactly as an initial first call;
and a fresh completed run from the default state again produces a spanning
tree rather than replaying the stale one. -/
theorem C6_completion_resets_state (dims : Dimensions) (ρD ρW : Nat → Nat) :
    (∀ g cs i g' cs' i', dfsGenStep dims ρD g cs i = some (false, g', cs', i') →
      g' = {} ∧ cs' = cs)
    ∧ (∀ g cs i g' cs' i', wilsonStep dims ρW g cs i = some (false, g', cs', i') →
      g' = {} ∧ cs' = cs)
    ∧ (∀ cs i, dfsGenStep dims ρD {} cs i = some (true, ⟨true, [pick ρD i cs.length]⟩,
        setWalk cs (pick ρD i cs.length) (some 0), i + 1))
    ∧ (∀ cs i, wilsonStep dims ρW {} cs i = some (true, ⟨some 1, []⟩,
        setWalk cs (pick ρW i cs.length) (some 0), i + 1))
    ∧ (2 ≤ dims.1 → 2 ≤ dims.2 →
        (∀ fuel cs', dfsGenRun dims ρD fuel {} (initGrid (dims.1 * dims.2)) 0 = some cs' →
          (∀ a b, a < dims.1 * dims.2 → b < dims.1 * dims.2 →
            Relation.ReflTransGen (fun x y => openTo dims cs' x y = true) a b)
          ∧ (wallEdges dims cs').card + 1 = dims.1 * dims.2
          ∧ (∀ p, ¬IsCycleL (fun x y => openTo dims cs' x y = true) p))
        ∧ (∀ fuel cs', wilsonRun dims ρW fuel {} (initGrid (dims.1 * dims.2)) 0 = some cs' →
          (∀ a b, a < dims.1 * dims.2 → b < dims.1 * dims.2 →
            Relation.ReflTransGen (fun x y => openTo dims cs' x y = true) a b)
          ∧ (wallEdges dims cs').card + 1 = dims.1 * dims.2
          ∧ (∀ p, ¬IsCycleL (fun x y => openTo dims cs' x y = true) p))) := by
  refine ⟨?_, ?_, ?_, ?_, ?_⟩
  · intro g cs i g' cs' i' h
    obtain ⟨h1, h2, -⟩ := dfsGenStep_false dims ρD g cs i g' cs' i' h
    exact ⟨h1, h2⟩
  · intro g cs i g' cs' i' h
    obtain ⟨h1, h2, -⟩ := wilsonStep_false dims ρW g cs i g' cs' i' h
    exact ⟨h1, h2⟩
  · intro cs i
    rfl
  · intro cs i
    rfl
  · intro hw hh
    have hN : 2 ≤ dims.1 * dims.2 := by
      have := Nat.mul_le_mul hw hh
      omega
    exact ⟨fun fuel cs' h => dfs_run_spanning dims ρD fuel cs' (by omega) (by omega) h,
      fun fuel cs' h => wilson_run_spanning dims ρW fuel cs' hN h⟩

/-- The 2×2 maze a fresh DFS run carves under the all-one random stream. -/
def mazeC6D : Cells :=
  [{ walls := 9, walk := some 0 }, { walls := 7, walk := some 0 },
   { walls := 12, walk := some 0 }, { walls := 7, walk := some 0 }]

/-- The 2×2 maze a fresh Wilson run carves under the successor random
stream. -/
def mazeC6W : Cells :=
  [{ walls := 13, walk := some 1 }, { walls := 3, walk := some 0 },
   { walls := 13, walk := some 2 }, { walls := 6, walk := some 2 }]

theorem C6_completion_resets_state_witness :
    dfsGenStep (2, 2) (fun _ => 1) ⟨true, []⟩ (initGrid (2 * 2)) 7
        = some (false, {}, initGrid (2 * 2), 7)
    ∧ wilsonStep (2, 2) (fun i => i + 1) ⟨some 1, []⟩ (List.replicate 4 { walk := some 0 }) 3
        = some (false, {}, List.replicate 4 { walk := some 0 }, 3)
    ∧ dfsGenRun (2, 2) (fun _ => 1) 12 {} (initGrid (2 * 2)) 0 = some mazeC6D
    ∧ wilsonRun (2, 2) (fun i => i + 1) 40 {} (initGrid (2 * 2)) 0 = some mazeC6W
    ∧ (({} : GenDFS) = {} ∧ initGrid (2 * 2) = initGrid (2 * 2))
    ∧ (({} : GenWilson) = {} ∧ List.replicate 4 { walk := some 0 } = List.replicate 4
        ({ walk := some 0 } : Cell))
    ∧ ((∀ a b, a < 2 * 2 → b < 2 * 2 →
          Relation.ReflTransGen (fun x y => openTo (2, 2) mazeC6D x y = true) a b)
        ∧ (wallEdges (2, 2) mazeC6D).card + 1 = 2 * 2
        ∧ (∀ p, ¬IsCycleL (fun x y => openTo (2, 2) mazeC6D x y = true) p))
    ∧ ((∀ a b, a < 2 * 2 → b < 2 * 2 →
          Relation.ReflTransGen (fun x y => openTo (2, 2) mazeC6W x y = true) a b)
        ∧ (wallEdges (2, 2) mazeC6W).card + 1 = 2 * 2
        ∧ (∀ p, ¬IsCycleL (fun x y => openTo (2, 2) mazeC6W x y = true) p)) :=
  ⟨by decide, by decide, by decide, by decide,
    (C6_completion_resets_state (2, 2) (fun _ => 1) (fun i => i + 1)).1
      ⟨true, []⟩ (initGrid (2 * 2)) 7 {} (initGrid (2 * 2)) 7 (by decide),
    (C6_completion_resets_state (2, 2) (fun _ => 1) (fun i => i + 1)).2.1
      ⟨some 1, []⟩ (List.replicate 4 { walk := some 0 }) 3 {}
      (List.replicate 4 { walk := some 0 }) 3 (by decide),
    ((C6_completion_resets_state (2, 2) (fun _ => 1) (fun i => i + 1)).2.2.2.2
      (by decide) (by decide)).1 12 mazeC6D (by decide),
    ((C6_completion_resets_state (2, 2) (fun _ => 1) (fun i => i + 1)).2.2.2.2
      (by decide) (by decide)).2 40 mazeC6W (by decide)⟩

theorem walls_setResult (cs : Cells) (i j : Nat) :
    (getCell (setResult cs i) j).walls = (getCell cs j).walls := by
  rw [getCell_setResult]
  split_ifs with h
  · rw [h.1]
  · rfl

theorem mem_of_getLast?_eq {l : List Nat} {x : Nat} (h : l.getLast? = some x) : x ∈ l := by
  obtain ⟨hne, heq⟩ := List.mem_getLast?_eq_getLast (show x ∈ l.getLast? from h)
  rw [heq]
  exact List.getLast_mem hne

theorem nodup_length_le (p : List Nat) (n : Nat) (hnd : p.Nodup) (hr : ∀ c ∈ p, c < n) :
    p.length ≤ n := by
  have h1 : p.toFinset.card = p.length := List.toFinset_card_of_nodup hnd
  have h2 : p.toFinset ⊆ Finset.range n := by
    intro x hx
    rw [Finset.mem_range]
    exact hr x (List.mem_toFinset.1 hx)
  have h3 := Finset.card_le_card h2
  rw [h1, Finset.card_range] at h3
  exact h3

/-- The back-pointer marking loop sets the result flag on exactly the chain's
cells other than `s` (the chase stops at `s` before marking it). -/
theorem markResult_spec (s : Nat) (p : List Nat) :
    ∀ (fuel t : Nat) (cs : Cells),
    p.head? = some t → p.getLast? = some s →
    List.Chain' (fun a b => (getCell cs a).solution.previous = some b) p →
    p.Nodup → (∀ c ∈ p, c < cs.length) → p.length ≤ fuel →
    ∃ cs', markResult s fuel t cs = some cs'
      ∧ ∀ j, ((getCell cs' j).solution.result = true ↔
          ((getCell cs j).solution.result = true ∨ (j ∈ p ∧ j ≠ s))) := by
  induction p with
  | nil =>
    intro fuel t cs hh
    simp at hh
  | cons c0 tail ih =>
    intro fuel t cs hh hl hchain hnd hrange hlen
    have hc0 : c0 = t := by simpa using hh
    subst hc0
    cases fuel with
    | zero => simp at hlen
    | succ f =>
      cases tail with
      | nil =>
        have hcs : c0 = s := by simpa using hl
        subst hcs
        refine ⟨cs, ?_, ?_⟩
        · unfold markResult
          rw [if_pos rfl]
        · intro j
          constructor
          · exact Or.inl
          · rintro (h | ⟨hm, hne⟩)
            · exact h
            · exact absurd (List.mem_singleton.1 hm) hne
      | cons c1 tail2 =>
        have hltail : (c1 :: tail2).getLast? = some s := by
          rw [← hl]
          exact (List.getLast?_cons_cons).symm
        have hne_s : c0 ≠ s := by
          intro heq
          exact (List.nodup_cons.1 hnd).1 (heq ▸ mem_of_getLast?_eq hltail)
        have hprev : (getCell cs c0).solution.previous = some c1 :=
          (List.chain'_cons.1 hchain).1
        have hc0len : c0 < cs.length := hrange c0 (List.mem_cons_self c0 _)
        have hstep : markResult s (f + 1) c0 cs = markResult s f c1 (setResult cs c0) := by
          conv_lhs => unfold markResult
          rw [if_neg hne_s, previous_setResult, hprev]
        have hchain2 : List.Chain'
            (fun a b => (getCell (setResult cs c0) a).solution.previous = some b)
            (c1 :: tail2) := by
          refine ((List.chain'_cons.1 hchain).2).imp ?_
          intro a b hab
          rw [previous_setResult]
          exact hab
        obtain ⟨cs', hmark, hflag⟩ := ih f c1 (setResult cs c0) rfl
          hltail hchain2 (List.nodup_cons.1 hnd).2
          (by
            intro c hc
            rw [length_setResult]
            exact hrange c (List.mem_cons_of_mem c0 hc))
          (by
            simp only [List.length_cons] at hlen ⊢
            omega)
        refine ⟨cs', by rw [hstep]; exact hmark, ?_⟩
        intro j
        rw [hflag j]
        have hres : ((getCell (setResult cs c0) j).solution.result = true) ↔
            ((getCell cs j).solution.result = true ∨ j = c0) := by
          rw [getCell_setResult]
          split_ifs with hcond
          · constructor
            · intro _
              exact Or.inr hcond.1.symm
            · intro _
              rfl
          · have hne : c0 ≠ j := fun he => hcond ⟨he, hc0len⟩
            constructor
            · exact Or.inl
            · rintro (h | rfl)
              · exact h
              · exact absurd rfl hne
        rw [hres]
        constructor
        · rintro ((h | rfl) | ⟨hm, hnej⟩)
          · exact Or.inl h
          · exact Or.inr ⟨List.mem_cons_self _ _, hne_s⟩
          · exact Or.inr ⟨List.mem_cons_of_mem c0 hm, hnej⟩
        · rintro (h | ⟨hm, hnej⟩)
          · exact Or.inl (Or.inl h)
          · rcases List.mem_cons.1 hm with rfl | hm2
            · exact Or.inl (Or.inr rfl)
            · exact Or.inr ⟨hm2, hnej⟩

/-- The A*-family `step` returns false only from the completion branch, in
which case the output grid is the back-pointer marking of the input grid. -/
theorem aStarStep_false (h : Dimensions → Nat → Nat → Nat) (dims : Dimensions)
    (st : AStar) (cs : Cells) (s t : Nat) (st' : AStar) (cs' : Cells)
    (hstep : aStarStep h dims st cs s t = some (false, st', cs')) :
    markResult s (cs.length + 1) t cs = some cs' ∧ st' = {} := by
  unfold aStarStep at hstep
  split_ifs at hstep with hinit
  · simp only [Option.some.injEq, Prod.mk.injEq] at hstep
    exact absurd hstep.1.symm (by simp)
  · cases hp : heapPop st.fringe with
    | none => rw [hp] at hstep; exact absurd hstep (by simp)
    | some pr =>
      obtain ⟨top, rest⟩ := pr
      rw [hp] at hstep
      dsimp only at hstep
      split_ifs at hstep with htc
      · cases hm : markResult s (cs.length + 1) t cs with
        | none => rw [hm] at hstep; exact absurd hstep (by simp)
        | some cs₂ =>
          rw [hm] at hstep
          simp only [Option.some.injEq, Prod.mk.injEq] at hstep
          exact ⟨by rw [hstep.2.2], hstep.2.1.symm⟩
      · cases hr : aStarRelax h dims t top.cell (solverNeighbours dims cs s top.cell)
            st.distances (rest.filter (fun e => e.cell != top.cell)) cs with
        | none => rw [hr] at hstep; exact absurd hstep (by simp)
        | some out =>
          obtain ⟨ds', fr', cs₂⟩ := out
          rw [hr] at hstep
          simp only [Option.some.injEq, Prod.mk.injEq] at hstep
          exact absurd hstep.1.symm (by simp)

/-- The DFS solver's loop returns false only from the completion branch. -/
theorem dfsSolveLoop_false (dims : Dimensions) (ρ : Nat → Nat) (s t : Nat) :
    ∀ (fuel : Nat) (stack : List Nat) (i : Nat) (cs : Cells) (sv' : SolveDFS)
      (cs' : Cells) (i' : Nat),
    dfsSolveLoop dims ρ s t fuel stack i cs = some (false, sv', cs', i') →
    markResult s (cs.length + 1) t cs = some cs' ∧ sv' = {} := by
  intro fuel
  induction fuel with
  | zero =>
    intro stack i cs sv' cs' i' h
    simp [dfsSolveLoop] at h
  | succ f ih =>
    intro stack i cs sv' cs' i' h
    unfold dfsSolveLoop at h
    cases stack with
    | nil => exact ih [s] i cs sv' cs' i' h
    | cons cell rest =>
      dsimp only at h
      split_ifs at h with hct
      · subst hct
        cases hm : markResult s (cs.length + 1) cell cs with
        | none => rw [hm] at h; exact absurd h (by simp)
        | some cs₂ =>
          rw [hm] at h
          simp only [Option.some.injEq, Prod.mk.injEq] at h
          exact ⟨by rw [h.2.2.1], h.2.1.symm⟩
      · cases hn : solverNeighbours dims cs s cell with
        | nil =>
          rw [hn] at h
          exact ih rest i cs sv' cs' i' h
        | cons nb nbs =>
          rw [hn] at h
          dsimp only at h
          simp only [Option.some.injEq, Prod.mk.injEq] at h
          exact absurd h.1.symm (by simp)

theorem dfsSolveStep_false (dims : Dimensions) (ρ : Nat → Nat) (s t : Nat) (fuel : Nat)
    (sv : SolveDFS) (cs : Cells) (i : Nat) (sv' : SolveDFS) (cs' : Cells) (i' : Nat)
    (h : dfsSolveStep dims ρ s t fuel sv cs i = some (false, sv', cs', i')) :
    markResult s (cs.length + 1) t cs = some cs' ∧ sv' = {} := by
  unfold dfsSolveStep at h
  split_ifs at h with hinit
  · simp only [Option.some.injEq, Prod.mk.injEq] at h
    exact absurd h.1.symm (by simp)
  · exact dfsSolveLoop_false dims ρ s t fuel sv.stack i cs sv' cs' i' h

/-- The wall-follower's loop returns false only from the completion branch. -/
theorem wfLoop_false (T : WFTurn) (dims : Dimensions) (s t : Nat) :
    ∀ (fuel : Nat) (cd : Option (Nat × Direction)) (cs : Cells) (st' : WFState)
      (cs' : Cells),
    wfLoop T dims s t fuel cd cs = some (false, st', cs') →
    markResult s (cs.length + 1) t cs = some cs' ∧ st' = ⟨none⟩ := by
  intro fuel
  induction fuel with
  | zero =>
    intro cd cs st' cs' h
    simp [wfLoop] at h
  | succ f ih =>
    intro cd cs st' cs' h
    unfold wfLoop at h
    cases cd with
    | none =>
      dsimp only at h
      simp only [Option.some.injEq, Prod.mk.injEq] at h
      exact absurd h.1.symm (by simp)
    | some pr =>
      obtain ⟨cell, dir⟩ := pr
      dsimp only at h
      split_ifs at h with hct
      · subst hct
        cases hm : markResult s (cs.length + 1) cell cs with
        | none => rw [hm] at h; exact absurd h (by simp)
        | some cs₂ =>
          rw [hm] at h
          simp only [Option.some.injEq, Prod.mk.injEq] at h
          exact ⟨by rw [h.2.2], h.2.1.symm⟩
      · cases hsc : wfScan T dims cs cell 4 (T.initial dir) with
        | none => rw [hsc] at h; exact absurd h (by simp)
        | some pr2 =>
          obtain ⟨nbr, d⟩ := pr2
          rw [hsc] at h
          dsimp only at h
          split_ifs at h with hpn
          · simp only [Option.some.injEq, Prod.mk.injEq] at h
            exact absurd h.1.symm (by simp)
          · exact ih (some (nbr, d)) cs st' cs' h

theorem wfStep_false (T : WFTurn) (dims : Dimensions) (s t : Nat) (fuel : Nat)
    (st : WFState) (cs : Cells) (st' : WFState) (cs' : Cells)
    (h : wfStep T dims s t fuel st cs = some (false, st', cs')) :
    markResult s (cs.length + 1) t cs = some cs' ∧ st' = ⟨none⟩ :=
  wfLoop_false T dims s t fuel st.cellDir cs st' cs' h

/-- A solved 1×2 maze: cell 0 is `from`, cell 1 is `to`, the shared wall is
open (its wall graph is a spanning tree), and `to`'s back-pointer is set. -/
def mazeC3 : Cells :=
  [{ walls := 13, walk := some 0, solution := { from_ := true } },
   { walls := 7, walk := some 0, solution := { to_ := true, previous := some 0 } }]

/-- `mazeC3` after the completing call's marking loop. -/
def mazeC3marked : Cells :=
  [{ walls := 13, walk := some 0, solution := { from_ := true } },
   { walls := 7, walk := some 0,
     solution := { to_ := true, previous := some 0, result := true } }]

/-- **C3, counterexample.**  On a 1×2 spanning-tree maze with from = 0 and
to = 1, the completing solver call marks the `to` endpoint's result flag even
though the unique simple path from 0 to 1 has no intermediate cells, so the
marked set is not the set of intermediate cells. -/
theorem C3_to_endpoint_marked_counterexample :
    (wallEdges (2, 1) mazeC3).card + 1 = 2 * 1
    ∧ dfsSolveStep (2, 1) (fun _ => 0) 0 1 5 ⟨true, [1]⟩ mazeC3 0
        = some (false, {}, mazeC3marked, 0)
    ∧ (getCell mazeC3marked 1).solution.result = true
    ∧ (getCell mazeC3marked 0).solution.result = false := by
  decide

theorem mazeC3_path_eq (q : List Nat)
    (hq : IsPathL (fun a b => openTo (2, 1) mazeC3 a b = true) q 0 1) : q = [0, 1] := by
  obtain ⟨hh, hl, hc, hnd⟩ := hq
  have hR : ∀ a b : Nat, openTo (2, 1) mazeC3 a b = true →
      ((a = 0 ∧ b = 1) ∨ (a = 1 ∧ b = 0)) := by
    intro a b hab
    obtain ⟨ha, hb⟩ := openTo_lt (2, 1) mazeC3 a b rfl hab
    interval_cases a <;> interval_cases b <;> revert hab <;> decide
  cases q with
  | nil => simp at hh
  | cons a rest =>
    have ha : a = 0 := by simpa using hh
    subst ha
    cases rest with
    | nil => simp at hl
    | cons b rest2 =>
      have hab := (List.chain'_cons.1 hc).1
      rcases hR 0 b hab with ⟨-, rfl⟩ | ⟨h0, -⟩
      · cases rest2 with
        | nil => rfl
        | cons c rest3 =>
          have hbc := (List.chain'_cons.1 (List.chain'_cons.1 hc).2).1
          rcases hR 1 c hbc with ⟨h1, -⟩ | ⟨-, rfl⟩
          · exact absurd h1 (by decide)
          · exfalso
            exact (List.nodup_cons.1 hnd).1 (by simp)
      · exact absurd h0 (by decide)

theorem mazeC3_path :
    IsPathL (fun a b => openTo (2, 1) mazeC3 a b = true) [0, 1] 0 1 :=
  ⟨rfl, rfl, List.chain'_cons.2 ⟨by decide, List.chain'_singleton 1⟩, by decide⟩

theorem mazeC3_unique (q1 q2 : List Nat)
    (h1 : IsPathL (fun a b => openTo (2, 1) mazeC3 a b = true) q1 0 1)
    (h2 : IsPathL (fun a b => openTo (2, 1) mazeC3 a b = true) q2 0 1) : q1 = q2 :=
  (mazeC3_path_eq q1 h1).trans (mazeC3_path_eq q2 h2).symm

/-- **C3 (amended).**  Every solver returns false only through the marking
loop, and when the back-pointer chain from `to` traces (in reverse) the unique
simple path of the wall graph from `from` to `to`, the completing call sets
the result flags of exactly that path's cells other than `from` — the
intermediate cells AND the `to` endpoint. -/
theorem C3_completion_marks_path_and_to :
    (∀ (dims : Dimensions) (s t : Nat) (cs : Cells) (p : List Nat),
      List.Chain' (fun a b => (getCell cs a).solution.previous = some b) p →
      (∀ c ∈ p, c < cs.length) →
      IsPathL (fun a b => openTo dims cs a b = true) p.reverse s t →
      (∀ q1 q2, IsPathL (fun a b => openTo dims cs a b = true) q1 s t →
        IsPathL (fun a b => openTo dims cs a b = true) q2 s t → q1 = q2) →
      ∃ cs', markResult s (cs.length + 1) t cs = some cs'
        ∧ ∀ q, IsPathL (fun a b => openTo dims cs a b = true) q s t →
          ∀ j, ((getCell cs' j).solution.result = true ↔
            ((getCell cs j).solution.result = true ∨ (j ∈ q ∧ j ≠ s))))
    ∧ (∀ h dims st cs s t st' cs',
        aStarStep h dims st cs s t = some (false, st', cs') →
        markResult s (cs.length + 1) t cs = some cs')
    ∧ (∀ dims ρ s t fuel sv cs i sv' cs' i',
        dfsSolveStep dims ρ s t fuel sv cs i = some (false, sv', cs', i') →
        markResult s (cs.length + 1) t cs = some cs')
    ∧ (∀ T dims s t fuel st cs st' cs',
        wfStep T dims s t fuel st cs = some (false, st', cs') →
        markResult s (cs.length + 1) t cs = some cs') := by
  refine ⟨?_, ?_, ?_, ?_⟩
  · intro dims s t cs p hchain hrange hpath huniq
    obtain ⟨hrh, hrl, hrchain, hrnd⟩ := hpath
    rw [List.head?_reverse] at hrh
    rw [List.getLast?_reverse] at hrl
    have hnd : p.Nodup := List.nodup_reverse.1 hrnd
    have hlen : p.length ≤ cs.length := nodup_length_le p cs.length hnd hrange
    obtain ⟨cs', hmark, hflag⟩ := markResult_spec s p (cs.length + 1) t cs hrl hrh
      hchain hnd hrange (by omega)
    refine ⟨cs', hmark, ?_⟩
    intro q hq j
    have hqe : q = p.reverse := huniq q p.reverse hq
      ⟨(List.head?_reverse p).trans hrh, (List.getLast?_reverse p).trans hrl, hrchain, hrnd⟩
    rw [hqe]
    simp only [List.mem_reverse]
    exact hflag j
  · intro h dims st cs s t st' cs' hstep
    exact (aStarStep_false h dims st cs s t st' cs' hstep).1
  · intro dims ρ s t fuel sv cs i sv' cs' i' hstep
    exact (dfsSolveStep_false dims ρ s t fuel sv cs i sv' cs' i' hstep).1
  · intro T dims s t fuel st cs st' cs' hstep
    exact (wfStep_false T dims s t fuel st cs st' cs' hstep).1

theorem C3_completion_marks_path_and_to_witness :
    dfsSolveStep (2, 1) (fun _ => 0) 0 1 5 ⟨true, [1]⟩ mazeC3 0
        = some (false, {}, mazeC3marked, 0)
    ∧ aStarStep zeroHeuristic (2, 1) ⟨true, [some 0, some 1], [{ cost := 1, cell := 1 }]⟩
        mazeC3 0 1 = some (false, {}, mazeC3marked)
    ∧ wfStep wfRight (2, 1) 0 1 3 ⟨some (1, Direction.First)⟩ mazeC3
        = some (false, ⟨none⟩, mazeC3marked)
    ∧ markResult 0 (List.length mazeC3 + 1) 1 mazeC3 = some mazeC3marked
    ∧ (∃ cs', markResult 0 (List.length mazeC3 + 1) 1 mazeC3 = some cs'
        ∧ ∀ q, IsPathL (fun a b => openTo (2, 1) mazeC3 a b = true) q 0 1 →
          ∀ j, ((getCell cs' j).solution.result = true ↔
            ((getCell mazeC3 j).solution.result = true ∨ (j ∈ q ∧ j ≠ 0)))) :=
  ⟨by decide, by decide, by decide,
    C3_completion_marks_path_and_to.2.2.1 (2, 1) (fun _ => 0) 0 1 5 ⟨true, [1]⟩ mazeC3 0
      {} mazeC3marked 0 (by decide),
    C3_completion_marks_path_and_to.1 (2, 1) 0 1 mazeC3 [1, 0]
      (List.chain'_cons.2 ⟨by decide, List.chain'_singleton 0⟩) (by decide)
      mazeC3_path mazeC3_unique⟩

end Maze

